import Mathlib

/-!
The library bulk: group copy, group scan and asynchronous launch.

A shallow embedding of `bulk/algorithm/copy.hpp`, `bulk/algorithm/scan.hpp` and
`bulk/detail/async.inl`.

Conventions of the embedding.

* A random-access range is a total map from positions to elements (`Mem α`); an
  iterator is a position (`Nat`) into such a range, so `it[i]` is `m (it + i)` and
  `it + n` is addition of positions.  The source and the destination of a copy are two
  ranges.
* A group of `size` units is run unit after unit between two barriers whenever the units
  only write (pairwise different) cells of the shared range and read none of the cells
  written between these barriers; where units read cells other units write, the reads of
  all units and the writes of all units are separate barrier-delimited steps, exactly as
  the `g.wait()` calls of the source separate them.
* Loops whose trip count is not a compile-time constant carry fuel and yield `none` when
  the fuel is used up.
* Index arithmetic is done in `Nat` and `Int`.  Two computations are narrowed as the source
  narrows them: the tile loop of `scan_with_buffer` computes its counts in `int`
  (`to_int32`), and `divide_ri` computes in a size type of `w` bits.  Elsewhere sizes are
  taken to fit their machine types; the barrier traces in particular take the counts of the
  tile loop as natural numbers.
* The input, intermediate and output elements of a scan have one type `α`.
* Storage the source leaves uninitialised holds arbitrary values, given by `Uninit`.
* The calls `bulk::copy_n(g, ...)` of scan.hpp on the static group are `detail::copy_n` of
  copy.hpp; `copy_n` on a `bounded_executor` is not part of these files.
* A launch is the list of the CUDA runtime calls `launcher::go` makes; the results of these
  calls and of the occupancy queries of thrust are parameters.
* The barriers a unit reaches are the list of the `g.wait()` call sites its control flow
  passes, computed from the unit's index and the sizes.
-/

namespace bulk

/-- A random-access range of elements, indexed by position. -/
abbrev Mem (α : Type) := Nat → α

/-- The range after the assignment `m[i] = v`. -/
def Mem.write {α : Type} (m : Mem α) (i : Nat) (v : α) : Mem α :=
  fun j => if j = i then v else m j

/-- Runs `body tid` for every unit `tid = 0, ..., size - 1` of a group on the shared range. -/
def forUnits {α : Type} (size : Nat) (body : Nat → Mem α → Option (Mem α)) (m : Mem α) :
    Option (Mem α) :=
  (List.range size).foldlM (fun acc tid => body tid acc) m

/-! ## copy.hpp -/

/-- The loop of the generic `simple_copy_n` (copy.hpp:22-27) as run by one unit:
`for(i = tid; i < n; i += g.size()) result[i] = first[i];`. -/
def simple_copy_n_loop {α : Type} (size n : Nat) (src : Mem α) (first result : Nat) :
    Nat → Nat → Mem α → Option (Mem α)
  | 0, _, _ => none
  | fuel + 1, i, dst =>
    if i < n then
      simple_copy_n_loop size n src first result fuel (i + size)
        (dst.write (result + i) (src (first + i)))
    else some dst

/-- Generic `simple_copy_n` (copy.hpp:14-32) as run by unit `tid` of a group of `size` units:
the destination range afterwards and the returned iterator `result + n`. -/
def simple_copy_n_unit {α : Type} (size tid : Nat) (src : Mem α) (first n : Nat)
    (dst : Mem α) (result : Nat) : Option (Mem α × Nat) :=
  (simple_copy_n_loop size n src first result (n + 1) tid dst).map fun d => (d, result + n)

/-- Generic `simple_copy_n` run by all units of the group, up to the final `g.wait()`. -/
def simple_copy_n {α : Type} (size : Nat) (src : Mem α) (first n : Nat)
    (dst : Mem α) (result : Nat) : Option (Mem α) :=
  forUnits size
    (fun tid d => (simple_copy_n_unit size tid src first n d result).map Prod.fst) dst

/-- The chunk loop of `simple_copy_n` for a `static_thread_group<size,grainsize>`
(copy.hpp:51-74) as run by unit `tid`; `first` and `result` advance by `chunk_size`. -/
def simple_copy_n_static_loop {α : Type} (size grainsize tid : Nat) (src : Mem α) (last : Nat) :
    Nat → Nat → Nat → Mem α → Option (Mem α)
  | 0, _, _, _ => none
  | fuel + 1, first, result, dst =>
    let chunk_size := size * grainsize
    if first < last then
      let dst1 :=
        if last - first ≥ chunk_size then
          (List.range grainsize).foldl (fun d i =>
            let idx := size * i + tid
            d.write (result + idx) (src (first + idx))) dst
        else
          (List.range grainsize).foldl (fun d i =>
            let idx := size * i + tid
            if idx < last - first then d.write (result + idx) (src (first + idx)) else d) dst
      simple_copy_n_static_loop size grainsize tid src last fuel
        (first + chunk_size) (result + chunk_size) dst1
    else some dst

/-- Function `simple_copy_n` for a `static_thread_group<size,grainsize>` (copy.hpp:35-79) as run
by unit `tid`: the destination range afterwards and the returned iterator, which the source
initialises as `return_me = first + n`. -/
def simple_copy_n_static_unit {α : Type} (size grainsize tid : Nat) (src : Mem α)
    (first n : Nat) (dst : Mem α) (result : Nat) : Option (Mem α × Nat) :=
  let return_me := first + n
  (simple_copy_n_static_loop size grainsize tid src (first + n) (n + 1) first result dst).map
    fun d => (d, return_me)

/-- Function `simple_copy_n` for a static group run by all units, up to the final `g.wait()`. -/
def simple_copy_n_static {α : Type} (size grainsize : Nat) (src : Mem α) (first n : Nat)
    (dst : Mem α) (result : Nat) : Option (Mem α) :=
  forUnits size
    (fun tid d => (simple_copy_n_static_unit size grainsize tid src first n d result).map
      Prod.fst) dst

/-- The chunk loop of `staged_copy_n` (copy.hpp:102-149) as run by unit `tid`.  The private
array `stage` keeps its contents from one chunk to the next; the tail branches compare the
chunk-relative index with the total count `n`.  Yields the destination range and the
iterator `result + n` formed from the advanced `result` (copy.hpp:154). -/
def staged_copy_n_loop {α : Type} (size grainsize tid n : Nat) (src : Mem α) (last : Nat) :
    Nat → Nat → Nat → Mem α → Mem α → Option (Mem α × Nat)
  | 0, _, _, _, _ => none
  | fuel + 1, first, result, stage, dst =>
    let chunk_size := size * grainsize
    if first < last then
      let stage1 :=
        if last - first ≥ chunk_size then
          (List.range grainsize).foldl (fun st dst_idx =>
            let src_idx := size * dst_idx + tid
            st.write dst_idx (src (first + src_idx))) stage
        else
          (List.range grainsize).foldl (fun st dst_idx =>
            let src_idx := size * dst_idx + tid
            if src_idx < n then st.write dst_idx (src (first + src_idx)) else st) stage
      let dst1 :=
        if last - first ≥ chunk_size then
          (List.range grainsize).foldl (fun d src_idx =>
            let dst_idx := size * src_idx + tid
            d.write (result + dst_idx) (stage1 src_idx)) dst
        else
          (List.range grainsize).foldl (fun d src_idx =>
            let dst_idx := size * src_idx + tid
            if dst_idx < n then d.write (result + dst_idx) (stage1 src_idx) else d) dst
      staged_copy_n_loop size grainsize tid n src last fuel
        (first + chunk_size) (result + chunk_size) stage1 dst1
    else some (dst, result + n)

/-- Function `staged_copy_n` (copy.hpp:82-155) as run by unit `tid`; `stage0` is the
uninitialised contents of the unit's private staging array. -/
def staged_copy_n_unit {α : Type} (size grainsize tid : Nat) (src : Mem α) (first n : Nat)
    (stage0 : Mem α) (dst : Mem α) (result : Nat) : Option (Mem α × Nat) :=
  staged_copy_n_loop size grainsize tid n src (first + n) (n + 1) first result stage0 dst

/-- Function `staged_copy_n` run by all units of the group, up to the final `g.wait()`. -/
def staged_copy_n {α : Type} (size grainsize : Nat) (src : Mem α) (first n : Nat)
    (stage0 : Mem α) (dst : Mem α) (result : Nat) : Option (Mem α) :=
  forUnits size
    (fun tid d => (staged_copy_n_unit size grainsize tid src first n stage0 d result).map
      Prod.fst) dst

/-- Function `detail::copy_n` for a static group (copy.hpp:158-185).  The flag `staged` stands
for the condition of lines 170-178 (Kepler, both iterators contiguous, source global,
destination shared), which is decided outside these files. -/
def copy_n {α : Type} (staged : Bool) (size grainsize : Nat) (src : Mem α) (first n : Nat)
    (stage0 : Mem α) (dst : Mem α) (result : Nat) : Option (Mem α) :=
  if staged then staged_copy_n size grainsize src first n stage0 dst result
  else simple_copy_n_static size grainsize src first n dst result


/-! ## scan.hpp -/

/-- Contents of the storage the source declares without initialising it. -/
structure Uninit (α : Type) where
  /-- The register `x` of each unit (scan.hpp:222). -/
  x : Nat → α
  /-- The private array `local_inputs` of each unit (scan.hpp:214). -/
  local_inputs : Nat → Mem α
  /-- The private array `stage` of a unit in `staged_copy_n` (copy.hpp:97). -/
  stage : Mem α

/-- Function `inclusive_scan` on a `bounded_executor<bound>` (scan.hpp:22-43), run by one unit
on the range `[first, last)` of `src`: the destination afterwards and the returned iterator. -/
def inclusive_scan_bounded {α : Type} (bound : Nat) (op : α → α → α) (src : Mem α)
    (first last : Nat) (dst : Mem α) (result : Nat) (init : α) : Mem α × Nat :=
  let st := (List.range bound).foldl (fun (st : α × Mem α) i =>
    if first + i < last then
      let init1 := op st.1 (src (first + i))
      (init1, st.2.write (result + i) init1)
    else st) (init, dst)
  (st.2, result + (last - first))

/-- Function `exclusive_scan` on a `bounded_executor<bound>` (scan.hpp:46-67), run by one unit. -/
def exclusive_scan_bounded {α : Type} (bound : Nat) (op : α → α → α) (src : Mem α)
    (first last : Nat) (dst : Mem α) (result : Nat) (init : α) : Mem α × Nat :=
  let st := (List.range bound).foldl (fun (st : α × Mem α) i =>
    if first + i < last then
      (op st.1 (src (first + i)), st.2.write (result + i) st.1)
    else st) (init, dst)
  (st.2, result + (last - first))

/-- Modelled from the spec: `copy_n` on a `bounded_executor<bound>`, which scan.hpp:219 calls
and which is defined outside these files; by the spec it "yields `dst[i] == src[i]` for every
`i < n`".  It is run by one unit on its private array. -/
def copy_n_bounded {α : Type} (bound : Nat) (src : Mem α) (first n : Nat) (dst : Mem α)
    (result : Nat) : Mem α :=
  (List.range bound).foldl (fun d i =>
    if i < n then d.write (result + i) (src (first + i)) else d) dst

/-- The doubling rounds of `small_inplace_exclusive_scan` (scan.hpp:106-118) run by the whole
group on the cells `first[0 .. size)`; `x tid` is the register `x` of unit `tid`. -/
def scan_rounds {α : Type} (op : α → α → α) (size first : Nat) :
    Nat → Nat → Mem α → (Nat → α) → Option (Mem α × (Nat → α))
  | 0, _, _, _ => none
  | fuel + 1, offset, mem, x =>
    if offset < size then do
      -- if(tid >= offset) x = binary_op(first[tid - offset], x);   g.wait();
      let x1 : Nat → α := fun tid =>
        if tid ≥ offset then op (mem (first + (tid - offset))) (x tid) else x tid
      -- first[tid] = x;   g.wait();
      let mem1 ← forUnits size (fun tid m => some (m.write (first + tid) (x1 tid))) mem
      scan_rounds op size first fuel (offset + offset) mem1 x1
    else some (mem, x)

/-- Function `small_inplace_exclusive_scan` (scan.hpp:90-131) run by a group of `size` units
on the cells `first[0 .. size)` of `mem`: the range afterwards and the value every unit
returns. -/
def small_inplace_exclusive_scan {α : Type} (op : α → α → α) (size : Nat) (mem : Mem α)
    (first : Nat) (init : α) : Option (Mem α × α) := do
  -- if(tid == 0) first[0] = binary_op(init, first[0]);
  let mem1 ← forUnits size (fun tid m =>
    some (if tid = 0 then m.write (first + 0) (op init (m (first + 0))) else m)) mem
  -- T x = first[tid];   g.wait();
  let x : Nat → α := fun tid => mem1 (first + tid)
  let r ← scan_rounds op size first (size + 1) 1 mem1 x
  let mem2 := r.1
  -- T result = first[g.size() - 1];   x = (tid == 0) ? init : first[tid - 1];   g.wait();
  let result := mem2 (first + (size - 1))
  let x1 : Nat → α := fun tid => if tid = 0 then init else mem2 (first + (tid - 1))
  -- first[tid] = x;   g.wait();
  let mem3 ← forUnits size (fun tid m => some (m.write (first + tid) (x1 tid))) mem2
  pure (mem3, result)

/-- The number of elements unit `tid` owns (scan.hpp:217), `n` being `last - first`. -/
def local_size (grainsize : Nat) (n : Int) (tid : Nat) : Nat :=
  (max 0 (min (grainsize : Int) (n - (grainsize : Int) * (tid : Int)))).toNat

/-- The private array `local_inputs` of unit `tid` in `scan_detail::scan` after the copy of
scan.hpp:219, `n` being `last - first`. -/
def scan_local_inputs {α : Type} (grainsize : Nat) (u : Uninit α) (src : Mem α) (first : Nat)
    (n : Int) (tid : Nat) : Mem α :=
  -- local_offset = grainsize * tid
  -- bulk::copy_n(bound<grainsize>(g.this_exec), first + local_offset, local_size, local_inputs);
  copy_n_bounded grainsize src (first + grainsize * tid) (local_size grainsize n tid)
    (u.local_inputs tid) 0

/-- The register `x` of unit `tid` in `scan_detail::scan` after the sequential accumulate of
scan.hpp:225-232. -/
def scan_local_sum {α : Type} (op : α → α → α) (grainsize : Nat) (u : Uninit α) (src : Mem α)
    (first : Nat) (n : Int) (tid : Nat) : α :=
  (List.range grainsize).foldl (fun x i =>
    if i < local_size grainsize n tid then
      (if i ≠ 0 then op x (scan_local_inputs grainsize u src first n tid i)
       else scan_local_inputs grainsize u src first n tid i)
    else x) (u.x tid)

/-- Function `scan_detail::scan<inclusive>` (scan.hpp:187-275) run by a
`bounded_static_execution_group<b,groupsize,grainsize>` on the range `[first, last)` of `src`
and the destination `result` in `dst`: the destination afterwards and the returned carry.
All units read `src` before the first barrier, so a caller whose input and output are the
same storage passes it as both `src` and `dst`.  The body does not consult `b`. -/
def scan {α : Type} (inclusive : Bool) (op : α → α → α) (groupsize grainsize : Nat)
    (u : Uninit α) (src : Mem α) (first last : Nat) (dst : Mem α) (result : Nat)
    (carry_in : α) : Option (Mem α × α) := do
  let n : Int := (last : Int) - (first : Int)
  -- g.wait();   if(local_size) result[tid] = x;   g.wait();
  let dst1 ← forUnits groupsize (fun tid d =>
    some (if local_size grainsize n tid ≠ 0 then
      d.write (result + tid) (scan_local_sum op grainsize u src first n tid) else d)) dst
  -- carry_in = small_inplace_exclusive_scan(g, result, carry_in, binary_op);
  let r ← small_inplace_exclusive_scan op groupsize dst1 result carry_in
  -- if(local_size) x = result[tid];   g.wait();
  let x1 : Nat → α := fun tid =>
    if local_size grainsize n tid ≠ 0 then r.1 (result + tid)
    else scan_local_sum op grainsize u src first n tid
  -- the bounded scan of each unit over its local inputs, to result + local_offset;   g.wait();
  let dst3 ← forUnits groupsize (fun tid d =>
    some (if inclusive then
      (inclusive_scan_bounded grainsize op (scan_local_inputs grainsize u src first n tid) 0
        (0 + local_size grainsize n tid) d (result + grainsize * tid) (x1 tid)).1
    else
      (exclusive_scan_bounded grainsize op (scan_local_inputs grainsize u src first n tid) 0
        (0 + local_size grainsize n tid) d (result + grainsize * tid) (x1 tid)).1)) r.1
  pure (dst3, r.2)

/-- The value an `int` holds after `x` is converted to it: `x` reduced to 32 bits in two's
complement.  `int` is the `size_type` of `scan_with_buffer` (scan.hpp:328). -/
def to_int32 (x : Int) : Int := (x + 2 ^ 31) % 2 ^ 32 - 2 ^ 31

/-- The tile loop of `scan_with_buffer<inclusive>` (scan.hpp:334-349).  The union `stage` is
one range, `stage.inputs` and `stage.results` both being its position 0.  The flags say for
which of the two `copy_n` calls staging is selected.  `elements_per_group` and
`partition_size` are `int`: the product `groupsize * grainsize` and the difference
`last - first` are converted to it.  A `partition_size` that is negative makes the two copies
handle no element (the loops of copy.hpp:51-53 and 102-104 do not run), and the scan, whose
`n` is then `partition_size`, gives `local_size` 0 (scan.hpp:217) to every unit whose
`n - grainsize * tid` is not below `-2 ^ 31`, as the count 0 does; so the callees receive
`partition_size.toNat`.  Below `-2 ^ 31` that difference wraps in the source, which is not
followed here: what is proved of a tile of negative size takes
`last - first ≥ 2 ^ 31 + grainsize * (groupsize - 1)`, where no unit's difference wraps.
When `elements_per_group` is not positive the iterators do not move towards `last` and the
loop does not end: the fuel runs out.  Yields the destination and the carry after the last
tile. -/
def scan_with_buffer_loop {α : Type} (inclusive : Bool) (op : α → α → α)
    (groupsize grainsize : Nat) (u : Uninit α) (staged_in staged_out : Bool) (src : Mem α)
    (last : Nat) : Nat → Nat → Nat → α → Mem α → Mem α → Option (Mem α × α)
  | 0, _, _, _, _, _ => none
  | fuel + 1, first, result, carry_in, stage, dst =>
    -- const size_type elements_per_group = groupsize * grainsize;
    let elements_per_group : Int := to_int32 ((groupsize * grainsize : Nat) : Int)
    if first < last then do
      -- size_type partition_size = thrust::min<size_type>(elements_per_group, last - first);
      let partition_size : Int :=
        min elements_per_group (to_int32 ((last : Int) - (first : Int)))
      -- bulk::copy_n(g, first, partition_size, stage.inputs);
      let stage1 ← copy_n staged_in groupsize grainsize src first partition_size.toNat u.stage
        stage 0
      -- carry_in = scan<inclusive>(bound<elements_per_group>(g), stage.inputs, ...);
      let r ← scan inclusive op groupsize grainsize u stage1 0 (0 + partition_size.toNat)
        stage1 0 carry_in
      -- bulk::copy_n(g, stage.results, partition_size, result);
      let dst1 ← copy_n staged_out groupsize grainsize r.1 0 partition_size.toNat u.stage dst
        result
      -- first += elements_per_group, result += elements_per_group
      scan_with_buffer_loop inclusive op groupsize grainsize u staged_in staged_out src last
        fuel ((first : Int) + elements_per_group).toNat
        ((result : Int) + elements_per_group).toNat r.2 r.1 dst1
    else some (dst, carry_in)

/-- Function `scan_with_buffer<inclusive>` (scan.hpp:297-350); `buffer` is the contents of
the scan buffer on entry. -/
def scan_with_buffer {α : Type} (inclusive : Bool) (op : α → α → α)
    (groupsize grainsize : Nat) (u : Uninit α) (staged_in staged_out : Bool) (src : Mem α)
    (first last : Nat) (dst : Mem α) (result : Nat) (carry_in : α) (buffer : Mem α) :
    Option (Mem α × α) :=
  scan_with_buffer_loop inclusive op groupsize grainsize u staged_in staged_out src last
    (last - first + 1) first result carry_in buffer dst

/-- Function `inclusive_scan` on a `bounded_static_execution_group` (scan.hpp:357-377). -/
def inclusive_scan_bounded_group {α : Type} (op : α → α → α) (groupsize grainsize : Nat)
    (u : Uninit α) (src : Mem α) (first last : Nat) (dst : Mem α) (result : Nat)
    (carry_in : α) : Option (Mem α × Nat) :=
  (scan true op groupsize grainsize u src first last dst result carry_in).map
    fun r => (r.1, result + (last - first))

/-- Function `exclusive_scan` on a `bounded_static_execution_group` (scan.hpp:447-465); line
463 instantiates `scan<true>`. -/
def exclusive_scan_bounded_group {α : Type} (op : α → α → α) (groupsize grainsize : Nat)
    (u : Uninit α) (src : Mem α) (first last : Nat) (dst : Mem α) (result : Nat)
    (carry_in : α) : Option (Mem α × Nat) :=
  (scan true op groupsize grainsize u src first last dst result carry_in).map
    fun r => (r.1, result + (last - first))

/-- Function `inclusive_scan` on a `static_execution_group` with an init (scan.hpp:380-411):
the destination afterwards.  Whether the buffer is on chip only changes where it lives. -/
def inclusive_scan_static {α : Type} (op : α → α → α) (groupsize grainsize : Nat)
    (u : Uninit α) (staged_in staged_out : Bool) (buffer : Mem α) (src : Mem α)
    (first last : Nat) (dst : Mem α) (result : Nat) (init : α) : Option (Mem α) :=
  (scan_with_buffer true op groupsize grainsize u staged_in staged_out src first last dst
    result init buffer).map Prod.fst

/-- Function `exclusive_scan` on a `static_execution_group` (scan.hpp:468-506): the destination
afterwards and the returned iterator. -/
def exclusive_scan_static {α : Type} (op : α → α → α) (groupsize grainsize : Nat)
    (u : Uninit α) (staged_in staged_out : Bool) (buffer : Mem α) (src : Mem α)
    (first last : Nat) (dst : Mem α) (result : Nat) (init : α) : Option (Mem α × Nat) :=
  (scan_with_buffer false op groupsize grainsize u staged_in staged_out src first last dst
    result init buffer).map fun r => (r.1, result + (last - first))

/-- Function `inclusive_scan` on a `static_execution_group` without an init
(scan.hpp:414-444): the first input becomes the init, unit 0 stores it in `*result`, and the
overload with an init scans the rest.  Yields the destination and the returned iterator. -/
def inclusive_scan_static_noinit {α : Type} (op : α → α → α) (groupsize grainsize : Nat)
    (u : Uninit α) (staged_in staged_out : Bool) (buffer : Mem α) (src : Mem α)
    (first last : Nat) (dst : Mem α) (result : Nat) : Option (Mem α × Nat) :=
  if first < last then do
    -- init = *first;
    let init := src first
    -- if(this_group.this_exec.index() == 0) *result = init;
    let dst1 ← forUnits groupsize (fun tid d =>
      some (if tid = 0 then d.write result init else d)) dst
    -- bulk::inclusive_scan(this_group, first + 1, last, result + 1, init, binary_op);
    let dst2 ← inclusive_scan_static op groupsize grainsize u staged_in staged_out buffer src
      (first + 1) last dst1 (result + 1) init
    pure (dst2, result + (last - first))
  else some (dst, result + (last - first))

/-- The doubling rounds of `small_inplace_exclusive_scan_with_buffer` (scan.hpp:156-168) run
by the whole group.  `first` lies in `mem` and `buffer` in `buf`; `ping_is_first` says whether
`ping` points to `first` (otherwise to `buffer`).  A round reads `ping`, swaps the two
pointers and writes the new `ping`, so the array read is not written before the barrier. -/
def scan_rounds_with_buffer {α : Type} (op : α → α → α) (size first buffer : Nat) :
    Nat → Nat → Bool → Mem α → Mem α → (Nat → α) → Option (Bool × Mem α × Mem α × (Nat → α))
  | 0, _, _, _, _, _ => none
  | fuel + 1, offset, ping_is_first, mem, buf, x =>
    if offset < size then
      -- if(tid >= offset) x = binary_op(ping[tid - offset], x);
      let x1 : Nat → α := fun tid =>
        if tid ≥ offset then
          op (if ping_is_first then mem (first + (tid - offset))
              else buf (buffer + (tid - offset))) (x tid)
        else x tid
      -- thrust::swap(ping, pong);   ping[tid] = x;   g.wait();
      if ping_is_first then do
        let buf1 ← forUnits size (fun tid m => some (m.write (buffer + tid) (x1 tid))) buf
        scan_rounds_with_buffer op size first buffer fuel (offset + offset) false mem buf1 x1
      else do
        let mem1 ← forUnits size (fun tid m => some (m.write (first + tid) (x1 tid))) mem
        scan_rounds_with_buffer op size first buffer fuel (offset + offset) true mem1 buf x1
    else some (ping_is_first, mem, buf, x)

/-- Function `small_inplace_exclusive_scan_with_buffer` (scan.hpp:134-181) run by a group of
`size` units: the range of `first` afterwards, the range of `buffer` afterwards and the value
every unit returns. -/
def small_inplace_exclusive_scan_with_buffer {α : Type} (op : α → α → α) (size : Nat)
    (mem : Mem α) (first : Nat) (init : α) (buf : Mem α) (buffer : Nat) :
    Option (Mem α × Mem α × α) := do
  -- T *ping = first;   T *pong = buffer;
  -- if(tid == 0) first[0] = binary_op(init, first[0]);
  let mem1 ← forUnits size (fun tid m =>
    some (if tid = 0 then m.write (first + 0) (op init (m (first + 0))) else m)) mem
  -- T x = first[tid];   g.wait();
  let x : Nat → α := fun tid => mem1 (first + tid)
  let r ← scan_rounds_with_buffer op size first buffer (size + 1) 1 true mem1 buf x
  let ping : Nat → α := fun i => if r.1 then r.2.1 (first + i) else r.2.2.1 (buffer + i)
  -- T result = ping[g.size() - 1];   x = (tid == 0) ? init : ping[tid - 1];   g.wait();
  let result := ping (size - 1)
  let x1 : Nat → α := fun tid => if tid = 0 then init else ping (tid - 1)
  -- first[tid] = x;   g.wait();
  let mem3 ← forUnits size (fun tid m => some (m.write (first + tid) (x1 tid))) r.2.1
  pure (mem3, r.2.2.1, result)

/-! ## The barriers a unit reaches

No condition of copy.hpp or scan.hpp reads an element, so the control flow of a unit is a
function of its index and of the sizes.  The functions below keep every loop and every branch
of the source, drop the assignments, and list the `g.wait()` calls unit `tid` executes. -/

/-- A call site of `g.wait()`: the file and the line. -/
inductive Wait where
  | copy (line : Nat)
  | scan (line : Nat)
  deriving DecidableEq

/-- The loop of the generic `simple_copy_n` (copy.hpp:22-27): no `g.wait()` in its body. -/
def simple_copy_n_loop_waits (size n : Nat) : Nat → Nat → Option (List Wait)
  | 0, _ => none
  | fuel + 1, i =>
    if i < n then
      -- result[i] = first[i];
      simple_copy_n_loop_waits size n fuel (i + size)
    else some []

/-- The barriers of the generic `simple_copy_n` (copy.hpp:14-32) for unit `tid`. -/
def simple_copy_n_waits (size n tid : Nat) : Option (List Wait) :=
  (simple_copy_n_loop_waits size n (n + 1) tid).map fun ws => ws ++ [Wait.copy 29]

/-- The chunk loop of `simple_copy_n` for a static group (copy.hpp:51-74) for unit `tid`. -/
def simple_copy_n_static_loop_waits (size grainsize tid last : Nat) :
    Nat → Nat → Option (List Wait)
  | 0, _ => none
  | fuel + 1, first =>
    if first < last then
      let body : List Wait :=
        if last - first ≥ size * grainsize then
          -- result[idx] = first[idx];
          (List.range grainsize).foldl (fun ws _ => ws) []
        else
          -- if(idx < (last - first)) result[idx] = first[idx];
          (List.range grainsize).foldl (fun ws i =>
            if size * i + tid < last - first then ws else ws) []
      (simple_copy_n_static_loop_waits size grainsize tid last fuel
        (first + size * grainsize)).map fun ws => body ++ ws
    else some []

/-- The barriers of `simple_copy_n` for a static group (copy.hpp:35-79) for unit `tid`. -/
def simple_copy_n_static_waits (size grainsize n tid : Nat) : Option (List Wait) :=
  (simple_copy_n_static_loop_waits size grainsize tid (0 + n) (n + 1) 0).map
    fun ws => ws ++ [Wait.copy 76]

/-- The chunk loop of `staged_copy_n` (copy.hpp:102-149) for unit `tid`. -/
def staged_copy_n_loop_waits (size grainsize tid n last : Nat) :
    Nat → Nat → Option (List Wait)
  | 0, _ => none
  | fuel + 1, first =>
    if first < last then
      let staging : List Wait :=
        if last - first ≥ size * grainsize then
          (List.range grainsize).foldl (fun ws _ => ws) []
        else
          (List.range grainsize).foldl (fun ws dst_idx =>
            if size * dst_idx + tid < n then ws else ws) []
      let writing : List Wait :=
        if last - first ≥ size * grainsize then
          (List.range grainsize).foldl (fun ws _ => ws) []
        else
          (List.range grainsize).foldl (fun ws src_idx =>
            if size * src_idx + tid < n then ws else ws) []
      (staged_copy_n_loop_waits size grainsize tid n last fuel
        (first + size * grainsize)).map fun ws => staging ++ writing ++ ws
    else some []

/-- The barriers of `staged_copy_n` (copy.hpp:82-155) for unit `tid`. -/
def staged_copy_n_waits (size grainsize n tid : Nat) : Option (List Wait) :=
  (staged_copy_n_loop_waits size grainsize tid n (0 + n) (n + 1) 0).map
    fun ws => ws ++ [Wait.copy 151]

/-- The barriers of `detail::copy_n` on a static group (copy.hpp:158-185) for unit `tid`. -/
def copy_n_waits (staged : Bool) (size grainsize n tid : Nat) : Option (List Wait) :=
  if staged then staged_copy_n_waits size grainsize n tid
  else simple_copy_n_static_waits size grainsize n tid

/-- The doubling rounds of `small_inplace_exclusive_scan` (scan.hpp:106-118) for unit `tid`. -/
def scan_rounds_waits (size tid : Nat) : Nat → Nat → Option (List Wait)
  | 0, _ => none
  | fuel + 1, offset =>
    if offset < size then
      -- if(tid >= offset) x = binary_op(first[tid - offset], x);
      let combine : List Wait := if tid ≥ offset then [] else []
      -- g.wait();   first[tid] = x;   g.wait();
      (scan_rounds_waits size tid fuel (offset + offset)).map fun ws =>
        combine ++ [Wait.scan 113, Wait.scan 117] ++ ws
    else some []

/-- The barriers of `small_inplace_exclusive_scan` (scan.hpp:90-131) for unit `tid`. -/
def small_inplace_exclusive_scan_waits (size tid : Nat) : Option (List Wait) :=
  -- if(tid == 0) first[0] = binary_op(init, first[0]);
  let seed : List Wait := if tid = 0 then [] else []
  (scan_rounds_waits size tid (size + 1) 1).map fun ws =>
    seed ++ [Wait.scan 104] ++ ws ++ [Wait.scan 124, Wait.scan 128]

/-- The barriers of `scan_detail::scan` (scan.hpp:187-275) for unit `tid`, `n` being
`last - first`; the copy to `local_inputs`, the accumulate loop and the bounded scans are run
by the unit alone and contain no `g.wait()`. -/
def scan_waits (groupsize grainsize : Nat) (n : Int) (tid : Nat) : Option (List Wait) :=
  -- if(local_size) result[tid] = x;
  let store : List Wait := if local_size grainsize n tid ≠ 0 then [] else []
  -- if(local_size) x = result[tid];
  let load : List Wait := if local_size grainsize n tid ≠ 0 then [] else []
  (small_inplace_exclusive_scan_waits groupsize tid).map fun ws =>
    [Wait.scan 242] ++ store ++ [Wait.scan 249] ++ ws ++ load ++ [Wait.scan 261]
      ++ [Wait.scan 272]

/-- The tile loop of `scan_with_buffer` (scan.hpp:334-349) for unit `tid`, with the counts
taken as natural numbers (they are the `int` counts of the source while the tile size and
`last - first` are below `2 ^ 31`). -/
def scan_with_buffer_loop_waits (groupsize grainsize tid : Nat) (staged_in staged_out : Bool)
    (last : Nat) : Nat → Nat → Option (List Wait)
  | 0, _ => none
  | fuel + 1, first =>
    if first < last then do
      let partition_size := min (groupsize * grainsize) (last - first)
      let w1 ← copy_n_waits staged_in groupsize grainsize partition_size tid
      let w2 ← scan_waits groupsize grainsize (((0 + partition_size : Nat) : Int) - (0 : Int)) tid
      let w3 ← copy_n_waits staged_out groupsize grainsize partition_size tid
      let ws ← scan_with_buffer_loop_waits groupsize grainsize tid staged_in staged_out last fuel
        (first + groupsize * grainsize)
      pure (w1 ++ w2 ++ w3 ++ ws)
    else some []

/-- The barriers of `scan_with_buffer` (scan.hpp:297-350) for unit `tid` on `n` elements. -/
def scan_with_buffer_waits (groupsize grainsize n tid : Nat) (staged_in staged_out : Bool) :
    Option (List Wait) :=
  scan_with_buffer_loop_waits groupsize grainsize tid staged_in staged_out (0 + n) (n + 1) 0

/-! ## async.inl -/

/-- Modelled from the spec: the class `group_launch_config` is declared outside these files.
These are the members async.inl reads and writes: the stream, `m_num_groups`, the size of
`m_example_group` (what `num_threads_per_group()` returns), `m_num_smem_bytes_per_group` and
`m_num_threads`; "any of which may be left unspecified" by holding `use_default`. -/
structure LaunchConfig where
  /-- The stream `stream()` returns. -/
  stream : Nat
  /-- The member `m_num_groups`. -/
  num_groups : Nat
  /-- The size of `m_example_group`. -/
  num_threads_per_group : Nat
  /-- The member `m_num_smem_bytes_per_group`. -/
  num_smem_bytes_per_group : Nat
  /-- The member `m_num_threads`. -/
  num_threads : Nat
  deriving DecidableEq

/-- The occupancy queries of thrust that async.inl calls, for the kernel and the device at
hand. -/
structure Occupancy where
  /-- The value of `block_size_with_maximum_potential_occupancy(attr, device_properties())`. -/
  block_size_with_maximum_potential_occupancy : Nat
  /-- The value of `max_active_blocks_per_multiprocessor(device_properties(), attr, n, 0)`. -/
  max_active_blocks_per_multiprocessor : Nat → Nat
  /-- The value of `proportional_smem_allocation(device_properties(), attr, occupancy)`. -/
  proportional_smem_allocation : Nat → Nat

/-- Function `thrust::detail::util::divide_ri`, the quotient rounded up, `(x + (y - 1)) / y`,
computed in an unsigned size type of `w` bits (64 for `size_t` where it has 64 bits): the sum
wraps modulo `2 ^ w`.  With `y = 0` the code divides by zero and yields no value; the value
this function has there is not one of the code, and what is proved of a quotient takes
`y > 0`. -/
def divide_ri (w x y : Nat) : Nat := ((x + (y - 1)) % 2 ^ w) / y

/-- Function `choose_block_size` (async.inl:86-97). -/
def choose_block_size (occ : Occupancy) : Nat :=
  occ.block_size_with_maximum_potential_occupancy

/-- Function `choose_smem_size` (async.inl:100-114) for a group of `group_size` units. -/
def choose_smem_size (occ : Occupancy) (group_size : Nat) : Nat :=
  let occupancy := occ.max_active_blocks_per_multiprocessor group_size
  occ.proportional_smem_allocation occupancy

/-- Function `group_launch_config::configure` for a dynamic-size group (async.inl:118-140);
`w` is the number of bits of the size type `divide_ri` computes in. -/
def configure_dynamic (w use_default : Nat) (occ : Occupancy) (l : LaunchConfig) :
    LaunchConfig :=
  let l1 : LaunchConfig :=
    if l.num_threads_per_group = use_default then
      let block_size := choose_block_size occ
      -- m_example_group = ThreadGroup(block_size);
      -- m_num_groups = divide_ri(m_num_threads, num_threads_per_group());
      { l with
        num_threads_per_group := block_size
        num_groups := divide_ri w l.num_threads block_size }
    else l
  if l1.num_smem_bytes_per_group = use_default then
    { l1 with num_smem_bytes_per_group := choose_smem_size occ l1.num_threads_per_group }
  else l1

/-- Function `group_launch_config::configure` for a static-size group (async.inl:143-156). -/
def configure_static (use_default : Nat) (occ : Occupancy) (l : LaunchConfig) : LaunchConfig :=
  if l.num_smem_bytes_per_group = use_default then
    { l with num_smem_bytes_per_group := choose_smem_size occ l.num_threads_per_group }
  else l

/-- The error codes the CUDA runtime reports to `launcher::go`; 0 is `cudaSuccess`. -/
structure Runtime where
  /-- The result of `cudaEventCreateWithFlags`. -/
  eventCreateWithFlags : Nat
  /-- The result of `cudaStreamWaitEvent`. -/
  streamWaitEvent : Nat
  /-- The result of `cudaEventDestroy`. -/
  eventDestroy : Nat
  /-- The result of the synchronisation in `synchronize_if_enabled`, 0 when it is disabled. -/
  synchronize : Nat

/-- The calls `launcher::go` makes to the CUDA runtime, in order. -/
inductive Effect where
  | eventCreateWithFlags
  | streamWaitEvent (stream : Nat)
  | eventDestroy
  | launch (num_groups num_threads_per_group num_smem_bytes stream : Nat)
  | synchronize
  deriving DecidableEq

/-- What a call of `launcher::go` did: the runtime calls it made and the stream of the future
it returned, `none` when `throw_on_error` threw. -/
structure GoResult where
  /-- The runtime calls made, in order. -/
  effects : List Effect
  /-- The stream the returned future was created in. -/
  future : Option Nat
  deriving DecidableEq

/-- Function `launcher::go` (async.inl:46-74).  The configuration type is a template
parameter, so its `configure` is an argument here; `throw_on_error` throws on a result other
than `cudaSuccess`; the launch casts the two counts to `unsigned int`. -/
def launcher_go (configure : LaunchConfig → LaunchConfig) (rt : Runtime) (l : LaunchConfig) :
    GoResult :=
  -- l.configure(c);
  let l := configure l
  if l.num_groups > 0 ∧ l.num_threads_per_group > 0 then
    if rt.eventCreateWithFlags ≠ 0 then
      ⟨[Effect.eventCreateWithFlags], none⟩
    else if rt.streamWaitEvent ≠ 0 then
      ⟨[Effect.eventCreateWithFlags, Effect.streamWaitEvent l.stream], none⟩
    else if rt.eventDestroy ≠ 0 then
      ⟨[Effect.eventCreateWithFlags, Effect.streamWaitEvent l.stream, Effect.eventDestroy], none⟩
    else
      let calls := [Effect.eventCreateWithFlags, Effect.streamWaitEvent l.stream,
        Effect.eventDestroy,
        Effect.launch (l.num_groups % 2 ^ 32) (l.num_threads_per_group % 2 ^ 32)
          l.num_smem_bytes_per_group l.stream,
        Effect.synchronize]
      if rt.synchronize ≠ 0 then ⟨calls, none⟩
      -- return future_core_access::create_in_stream(l.stream());
      else ⟨calls, some l.stream⟩
  else ⟨[], some l.stream⟩

/-! ## Folds used to state the results -/

/-- The left fold `init op a[0] op ... op a[k-1]`, bracketed from the left. -/
def lfold {α : Type} (op : α → α → α) (init : α) (a : Nat → α) : Nat → α
  | 0 => init
  | k + 1 => op (lfold op init a k) (a k)

/-- The left fold `a[lo] op a[lo+1] op ... op a[lo+len]` seeded by its first element. -/
def seg {α : Type} (op : α → α → α) (a : Nat → α) (lo : Nat) : Nat → α
  | 0 => a lo
  | len + 1 => op (seg op a lo len) (a (lo + len + 1))

/-! ## The relation a copy establishes -/

/-- Every cell of `dst1` is as in `dst` or holds the source element of the same offset,
for an offset below `N`: what a copy from `first` to `result` may do to the destination. -/
def CopyRel {α : Type} (src : Mem α) (first result N : Nat) (dst dst1 : Mem α) : Prop :=
  ∀ p, dst1 p = dst p ∨ ∃ j, j < N ∧ p = result + j ∧ dst1 p = src (first + j)

/-! ## Concrete inputs for the examples -/

/-- The input `1, 2, 3, ...` as a range of integers. -/
def exampleInput : Mem Int := fun i => (i : Int) + 1

/-- A range of integers holding zero everywhere. -/
def exampleZeros : Mem Int := fun _ => 0

/-- Uninitialised storage that happens to hold zero everywhere. -/
def exampleUninit : Uninit Int := ⟨fun _ => 0, fun _ => exampleZeros, exampleZeros⟩

/-! ## Generic facts about ranges, unit loops and copies -/

theorem Mem.write_same {α : Type} (m : Mem α) (i : Nat) (v : α) : (m.write i v) i = v := by
  simp [Mem.write]

theorem Mem.write_other {α : Type} (m : Mem α) (i j : Nat) (v : α) (h : j ≠ i) :
    (m.write i v) j = m j := by
  simp [Mem.write, h]

/-- Invariant rule for a group phase: a property indexed by the number of units that
have run is established for all `size` units when every unit returns and advances it. -/
theorem forUnits_inv {α : Type} (size : Nat) (body : Nat → Mem α → Option (Mem α))
    (P : Nat → Mem α → Prop) (m : Mem α) (h0 : P 0 m)
    (hstep : ∀ tid, tid < size → ∀ d, P tid d → ∃ d1, body tid d = some d1 ∧ P (tid + 1) d1) :
    ∃ d1, forUnits size body m = some d1 ∧ P size d1 := by
  unfold forUnits
  induction size with
  | zero => exact ⟨m, by simp, h0⟩
  | succ k ih =>
    obtain ⟨d, hd, hP⟩ := ih (fun tid ht d hd => hstep tid (Nat.lt_succ_of_lt ht) d hd)
    obtain ⟨d1, hd1, hP1⟩ := hstep k (Nat.lt_succ_self k) d hP
    refine ⟨d1, ?_, hP1⟩
    rw [List.range_succ, List.foldlM_append, hd]
    simp [hd1]

/-- Invariant rule for an unrolled loop of guarded writes. -/
theorem foldl_write_inv {α : Type} (g : Nat) (c : Nat → Prop) [DecidablePred c]
    (a : Nat → Nat) (v : Nat → α) (Q : Mem α → Prop) (dst : Mem α) (h0 : Q dst)
    (hstep : ∀ d i, i < g → c i → Q d → Q (d.write (a i) (v i))) :
    Q ((List.range g).foldl (fun d i => if c i then d.write (a i) (v i) else d) dst) := by
  induction g with
  | zero => simpa using h0
  | succ k ih =>
    have hk := ih (fun d i hi hc hd => hstep d i (Nat.lt_succ_of_lt hi) hc hd)
    rw [List.range_succ, List.foldl_append]
    simp only [List.foldl_cons, List.foldl_nil]
    split
    · next hc => exact hstep _ k (Nat.lt_succ_self k) hc hk
    · exact hk

/-- In an unrolled loop of guarded writes, a cell written in a round whose guard holds has
the written value at the end, provided later rounds that hit the cell write the same value. -/
theorem foldl_write_hit {α : Type} (g : Nat) (c : Nat → Prop) [DecidablePred c]
    (a : Nat → Nat) (v : Nat → α) (dst : Mem α) (i0 : Nat) (hi : i0 < g) (hc : c i0)
    (hsame : ∀ i, i < g → c i → a i = a i0 → v i = v i0) :
    ((List.range g).foldl (fun d i => if c i then d.write (a i) (v i) else d) dst) (a i0)
      = v i0 := by
  induction g with
  | zero => omega
  | succ k ih =>
    rw [List.range_succ, List.foldl_append]
    simp only [List.foldl_cons, List.foldl_nil]
    by_cases hck : c k
    · rw [if_pos hck]
      by_cases hak : a i0 = a k
      · rw [hak, Mem.write_same]
        exact hsame k (Nat.lt_succ_self k) hck hak.symm
      · rw [Mem.write_other _ _ _ _ hak]
        have hne : i0 ≠ k := fun h => hak (by rw [h])
        exact ih (by omega) (fun i hi hc h => hsame i (Nat.lt_succ_of_lt hi) hc h)
    · rw [if_neg hck]
      have hne : i0 ≠ k := fun h => hck (h ▸ hc)
      exact ih (by omega) (fun i hi hc h => hsame i (Nat.lt_succ_of_lt hi) hc h)

/-- A cell no round of an unrolled loop of guarded writes addresses keeps its value. -/
theorem foldl_write_miss {α : Type} (g : Nat) (c : Nat → Prop) [DecidablePred c]
    (a : Nat → Nat) (v : Nat → α) (dst : Mem α) (p : Nat)
    (hmiss : ∀ i, i < g → c i → a i ≠ p) :
    ((List.range g).foldl (fun d i => if c i then d.write (a i) (v i) else d) dst) p
      = dst p := by
  refine foldl_write_inv g c a v (fun d => d p = dst p) dst rfl ?_
  intro d i hi hc hd
  rw [Mem.write_other _ _ _ _ (fun h => hmiss i hi hc h.symm)]
  exact hd

theorem CopyRel.refl {α : Type} (src : Mem α) (first result N : Nat) (dst : Mem α) :
    CopyRel src first result N dst dst := fun _ => Or.inl rfl

theorem CopyRel.trans {α : Type} {src : Mem α} {first result N : Nat} {d0 d1 d2 : Mem α}
    (h01 : CopyRel src first result N d0 d1) (h12 : CopyRel src first result N d1 d2) :
    CopyRel src first result N d0 d2 := by
  intro p
  rcases h12 p with h | h
  · rcases h01 p with h' | ⟨j, hj, hp, hv⟩
    · exact Or.inl (h.trans h')
    · exact Or.inr ⟨j, hj, hp, h.trans hv⟩
  · exact Or.inr h

theorem CopyRel.write {α : Type} (src : Mem α) (first result N : Nat) (d0 d : Mem α)
    (h : CopyRel src first result N d0 d) (j : Nat) (hj : j < N) :
    CopyRel src first result N d0 (d.write (result + j) (src (first + j))) := by
  intro p
  by_cases hp : p = result + j
  · exact Or.inr ⟨j, hj, hp, by rw [hp, Mem.write_same]⟩
  · rw [Mem.write_other _ _ _ _ hp]
    exact h p

theorem CopyRel.shift {α : Type} {src : Mem α} {first result N c N1 : Nat} {d0 d1 : Mem α}
    (h : CopyRel src (first + c) (result + c) N d0 d1) (hN : ∀ j, j < N → j + c < N1) :
    CopyRel src first result N1 d0 d1 := by
  intro p
  rcases h p with h | ⟨j, hj, hp, hv⟩
  · exact Or.inl h
  · refine Or.inr ⟨j + c, hN j hj, by omega, ?_⟩
    rw [hv]
    congr 1
    omega

theorem CopyRel.good {α : Type} {src : Mem α} {first result N : Nat} {d0 d1 : Mem α}
    (h : CopyRel src first result N d0 d1) (j : Nat)
    (hj : d0 (result + j) = src (first + j)) : d1 (result + j) = src (first + j) := by
  rcases h (result + j) with h | ⟨j1, _, hp, hv⟩
  · exact h.trans hj
  · have : j1 = j := by omega
    rw [hv, this]

theorem CopyRel.frame {α : Type} {src : Mem α} {first result N : Nat} {d0 d1 : Mem α}
    (h : CopyRel src first result N d0 d1) (p : Nat) (hp : p < result ∨ result + N ≤ p) :
    d1 p = d0 p := by
  rcases h p with h | ⟨j, hj, hpj, _⟩
  · exact h
  · omega

theorem idx_lt_chunk (size g i tid : Nat) (ht : tid < size) (hi : i < g) :
    size * i + tid < size * g := by
  calc size * i + tid < size * i + size := by omega
    _ = size * (i + 1) := by ring
    _ ≤ size * g := Nat.mul_le_mul_left size hi


/-! ## The three copies -/

theorem simple_copy_n_loop_spec {α : Type} (size n : Nat) (hs : 0 < size) (src : Mem α)
    (first result : Nat) :
    ∀ fuel i dst, n - i < fuel →
      ∃ dst1, simple_copy_n_loop size n src first result fuel i dst = some dst1 ∧
        CopyRel src first result n dst dst1 ∧
        ∀ j, i ≤ j → j < n → (j - i) % size = 0 → dst1 (result + j) = src (first + j) := by
  intro fuel
  induction fuel with
  | zero => intro i dst h; omega
  | succ k ih =>
    intro i dst hfuel
    unfold simple_copy_n_loop
    by_cases hin : i < n
    · rw [if_pos hin]
      obtain ⟨d1, hd1, hrel, hcov⟩ :=
        ih (i + size) (dst.write (result + i) (src (first + i))) (by omega)
      refine ⟨d1, hd1, ?_, ?_⟩
      · exact (CopyRel.write src first result n dst dst (CopyRel.refl _ _ _ _ _) i hin).trans hrel
      · intro j hij hjn hmod
        by_cases hji : j = i
        · subst hji
          exact hrel.good j (Mem.write_same _ _ _)
        · have hge : size ≤ j - i := by
            by_contra hlt
            rw [Nat.mod_eq_of_lt (by omega)] at hmod
            omega
          refine hcov j (by omega) hjn ?_
          have : j - (i + size) = (j - i) - size := by omega
          rw [this, ← Nat.mod_eq_sub_mod hge]
          exact hmod
    · rw [if_neg hin]
      exact ⟨dst, rfl, CopyRel.refl _ _ _ _ _, fun j hij hjn _ => by omega⟩

/-- The effect of the generic `simple_copy_n` run by a whole group: it returns, the first `n`
destination cells hold the source, and no other cell changes. -/
theorem simple_copy_n_spec {α : Type} (size : Nat) (hs : 0 < size) (src : Mem α)
    (first n : Nat) (dst : Mem α) (result : Nat) :
    ∃ dst1, simple_copy_n size src first n dst result = some dst1 ∧
      CopyRel src first result n dst dst1 ∧
      ∀ j, j < n → dst1 (result + j) = src (first + j) := by
  obtain ⟨d1, hd1, hrel, hcov⟩ := forUnits_inv size
    (fun tid d => (simple_copy_n_unit size tid src first n d result).map Prod.fst)
    (fun k d => CopyRel src first result n dst d ∧
      ∀ j, j < n → j % size < k → d (result + j) = src (first + j))
    dst ⟨CopyRel.refl _ _ _ _ _, fun j _ h => by omega⟩
    (by
      rintro tid htid d ⟨hrel, hcov⟩
      obtain ⟨d1, hd1, hrel1, hcov1⟩ :=
        simple_copy_n_loop_spec size n hs src first result (n + 1) tid d (by omega)
      refine ⟨d1, by simp [simple_copy_n_unit, hd1], hrel.trans hrel1, ?_⟩
      intro j hjn hmod
      by_cases hlt : j % size < tid
      · exact hrel1.good j (hcov j hjn hlt)
      · have hjt : j % size = tid := by omega
        have hle : tid ≤ j := hjt ▸ Nat.mod_le j size
        refine hcov1 j hle hjn ?_
        rw [← hjt]
        exact Nat.sub_mod_eq_zero_of_mod_eq (by rw [Nat.mod_mod]))
  exact ⟨d1, hd1, hrel, fun j hj => hcov j hj (Nat.mod_lt _ hs)⟩

theorem simple_copy_n_static_loop_spec {α : Type} (size grainsize tid : Nat) (ht : tid < size)
    (hg : 0 < grainsize) (src : Mem α) (last : Nat) :
    ∀ fuel first result dst, last - first < fuel →
      ∃ dst1, simple_copy_n_static_loop size grainsize tid src last fuel first result dst
          = some dst1 ∧
        CopyRel src first result (last - first) dst dst1 ∧
        ∀ j, first + j < last → (j % (size * grainsize)) % size = tid →
          dst1 (result + j) = src (first + j) := by
  have hchunk : 0 < size * grainsize := Nat.mul_pos (by omega) hg
  intro fuel
  induction fuel with
  | zero => intro first result dst h; omega
  | succ k ih =>
    intro first result dst hfuel
    unfold simple_copy_n_static_loop
    simp only []
    by_cases hfl : first < last
    · rw [if_pos hfl]
      -- both branches are the guarded loop: in a full chunk the guard always holds
      have hbranch : (if last - first ≥ size * grainsize then
          (List.range grainsize).foldl (fun d i =>
            d.write (result + (size * i + tid)) (src (first + (size * i + tid)))) dst
        else
          (List.range grainsize).foldl (fun d i =>
            if size * i + tid < last - first then
              d.write (result + (size * i + tid)) (src (first + (size * i + tid)))
            else d) dst)
          = (List.range grainsize).foldl (fun d i =>
            if size * i + tid < last - first then
              d.write (result + (size * i + tid)) (src (first + (size * i + tid)))
            else d) dst := by
        split
        · next hfull =>
          apply List.foldl_ext
          intro d i hi
          rw [if_pos]
          have := idx_lt_chunk size grainsize i tid ht (List.mem_range.mp hi)
          omega
        · rfl
      rw [hbranch]
      generalize hd1 : (List.range grainsize).foldl (fun d i =>
            if size * i + tid < last - first then
              d.write (result + (size * i + tid)) (src (first + (size * i + tid)))
            else d) dst = d1
      have hrel1 : CopyRel src first result (last - first) dst d1 := by
        rw [← hd1]
        exact foldl_write_inv grainsize (fun i => size * i + tid < last - first)
          (fun i => result + (size * i + tid)) (fun i => src (first + (size * i + tid)))
          (fun d => CopyRel src first result (last - first) dst d) dst (CopyRel.refl _ _ _ _ _)
          (fun d i _ hc hd => CopyRel.write src first result _ dst d hd _ hc)
      obtain ⟨d2, hd2, hrel2, hcov2⟩ :=
        ih (first + size * grainsize) (result + size * grainsize) d1 (by omega)
      have hrel2s : CopyRel src first result (last - first) d1 d2 :=
        hrel2.shift (fun j hj => by omega)
      refine ⟨d2, hd2, hrel1.trans hrel2s, ?_⟩
      intro j hjl hmod
      by_cases hjc : j < size * grainsize
      · rw [Nat.mod_eq_of_lt hjc] at hmod
        apply hrel2s.good
        have hi0 : j / size < grainsize := Nat.div_lt_of_lt_mul hjc
        have hj : size * (j / size) + tid = j := by
          rw [← hmod]; exact Nat.div_add_mod j size
        have := foldl_write_hit grainsize (fun i => size * i + tid < last - first)
          (fun i => result + (size * i + tid)) (fun i => src (first + (size * i + tid)))
          dst (j / size) hi0 (by simp only [hj]; omega)
          (fun i _ _ h => by
            dsimp only at h ⊢
            have : size * i + tid = size * (j / size) + tid := by omega
            rw [this])
        simp only [hj] at this
        rw [← hd1]
        exact this
      · have hge : size * grainsize ≤ j := by omega
        have := hcov2 (j - size * grainsize) (by omega)
          (by rw [← Nat.mod_eq_sub_mod hge]; exact hmod)
        have e1 : result + size * grainsize + (j - size * grainsize) = result + j := by omega
        have e2 : first + size * grainsize + (j - size * grainsize) = first + j := by omega
        rw [e1, e2] at this
        exact this
    · rw [if_neg hfl]
      exact ⟨dst, rfl, CopyRel.refl _ _ _ _ _, fun j hj _ => by omega⟩

/-- The effect of `simple_copy_n` for a static group run by all units: it returns, the first
`n` destination cells hold the source, and no other cell changes. -/
theorem simple_copy_n_static_spec {α : Type} (size grainsize : Nat) (hs : 0 < size)
    (hg : 0 < grainsize) (src : Mem α) (first n : Nat) (dst : Mem α) (result : Nat) :
    ∃ dst1, simple_copy_n_static size grainsize src first n dst result = some dst1 ∧
      CopyRel src first result n dst dst1 ∧
      ∀ j, j < n → dst1 (result + j) = src (first + j) := by
  obtain ⟨d1, hd1, hrel, hcov⟩ := forUnits_inv size
    (fun tid d => (simple_copy_n_static_unit size grainsize tid src first n d result).map
      Prod.fst)
    (fun k d => CopyRel src first result n dst d ∧
      ∀ j, j < n → (j % (size * grainsize)) % size < k → d (result + j) = src (first + j))
    dst ⟨CopyRel.refl _ _ _ _ _, fun j _ h => by omega⟩
    (by
      rintro tid htid d ⟨hrel, hcov⟩
      obtain ⟨d1, hd1, hrel1, hcov1⟩ :=
        simple_copy_n_static_loop_spec size grainsize tid htid hg src (first + n) (n + 1)
          first result d (by omega)
      have hrel1n : CopyRel src first result n d d1 := by
        have : first + n - first = n := by omega
        rw [this] at hrel1
        exact hrel1
      refine ⟨d1, by simp [simple_copy_n_static_unit, hd1], hrel.trans hrel1n, ?_⟩
      intro j hjn hmod
      by_cases hlt : (j % (size * grainsize)) % size < tid
      · exact hrel1n.good j (hcov j hjn hlt)
      · exact hcov1 j (by omega) (by omega))
  exact ⟨d1, hd1, hrel, fun j hj => hcov j hj (Nat.mod_lt _ hs)⟩


theorem CopyRel.mono {α : Type} {src : Mem α} {first result N N1 : Nat} {d0 d1 : Mem α}
    (h : CopyRel src first result N d0 d1) (hN : N ≤ N1) :
    CopyRel src first result N1 d0 d1 := by
  intro p
  rcases h p with h | ⟨j, hj, hp, hv⟩
  · exact Or.inl h
  · exact Or.inr ⟨j, by omega, hp, hv⟩

theorem staged_copy_n_loop_spec {α : Type} (size grainsize tid n : Nat) (ht : tid < size)
    (hg : 0 < grainsize) (src : Mem α) (last : Nat) :
    ∀ fuel first result stage dst, last - first < fuel → last - first ≤ n →
      ∃ dst1 r, staged_copy_n_loop size grainsize tid n src last fuel first result stage dst
          = some (dst1, r) ∧
        (∃ N, CopyRel src first result N dst dst1) ∧
        ∀ j, first + j < last → (j % (size * grainsize)) % size = tid →
          dst1 (result + j) = src (first + j) := by
  have hchunk : 0 < size * grainsize := Nat.mul_pos (by omega) hg
  intro fuel
  induction fuel with
  | zero => intro first result stage dst h; omega
  | succ k ih =>
    intro first result stage dst hfuel hn
    unfold staged_copy_n_loop
    simp only []
    by_cases hfl : first < last
    · rw [if_pos hfl]
      -- the private array after the staging loop, with the guard of the branch taken
      have hstage : (if last - first ≥ size * grainsize then
          (List.range grainsize).foldl (fun st dst_idx =>
            st.write dst_idx (src (first + (size * dst_idx + tid)))) stage
        else
          (List.range grainsize).foldl (fun st dst_idx =>
            if size * dst_idx + tid < n then
              st.write dst_idx (src (first + (size * dst_idx + tid)))
            else st) stage)
          = (List.range grainsize).foldl (fun st i =>
            if last - first ≥ size * grainsize ∨ size * i + tid < n then
              st.write i (src (first + (size * i + tid)))
            else st) stage := by
        split
        · next hfull => simp [hfull]
        · next hfull => simp [hfull]
      rw [hstage]
      generalize hs1 : (List.range grainsize).foldl (fun st i =>
            if last - first ≥ size * grainsize ∨ size * i + tid < n then
              st.write i (src (first + (size * i + tid)))
            else st) stage = stage1
      have hst : ∀ i, i < grainsize →
          (last - first ≥ size * grainsize ∨ size * i + tid < n) →
          stage1 i = src (first + (size * i + tid)) := by
        intro i hi hc
        rw [← hs1]
        exact foldl_write_hit grainsize
          (fun i => last - first ≥ size * grainsize ∨ size * i + tid < n)
          (fun i => i) (fun i => src (first + (size * i + tid))) stage i hi hc
          (fun i1 _ _ h => by dsimp only at h ⊢; rw [h])
      have hdst : (if last - first ≥ size * grainsize then
          (List.range grainsize).foldl (fun d src_idx =>
            d.write (result + (size * src_idx + tid)) (stage1 src_idx)) dst
        else
          (List.range grainsize).foldl (fun d src_idx =>
            if size * src_idx + tid < n then
              d.write (result + (size * src_idx + tid)) (stage1 src_idx)
            else d) dst)
          = (List.range grainsize).foldl (fun d i =>
            if last - first ≥ size * grainsize ∨ size * i + tid < n then
              d.write (result + (size * i + tid)) (stage1 i)
            else d) dst := by
        split
        · next hfull => simp [hfull]
        · next hfull => simp [hfull]
      rw [hdst]
      generalize hd1 : (List.range grainsize).foldl (fun d i =>
            if last - first ≥ size * grainsize ∨ size * i + tid < n then
              d.write (result + (size * i + tid)) (stage1 i)
            else d) dst = d1
      have hrel1 : CopyRel src first result (size * grainsize) dst d1 := by
        rw [← hd1]
        exact foldl_write_inv grainsize
          (fun i => last - first ≥ size * grainsize ∨ size * i + tid < n)
          (fun i => result + (size * i + tid)) (fun i => stage1 i)
          (fun d => CopyRel src first result (size * grainsize) dst d) dst
          (CopyRel.refl _ _ _ _ _)
          (fun d i hi hc hd => by
            dsimp only
            rw [hst i hi hc]
            exact CopyRel.write src first result _ dst d hd _
              (idx_lt_chunk size grainsize i tid ht hi))
      obtain ⟨d2, r, hd2, ⟨N, hrel2⟩, hcov2⟩ :=
        ih (first + size * grainsize) (result + size * grainsize) stage1 d1
          (by omega) (by omega)
      have hrel2s : CopyRel src first result (N + size * grainsize) d1 d2 :=
        hrel2.shift (fun j hj => by omega)
      refine ⟨d2, r, hd2, ⟨N + size * grainsize,
        (hrel1.mono (by omega)).trans hrel2s⟩, ?_⟩
      intro j hjl hmod
      by_cases hjc : j < size * grainsize
      · rw [Nat.mod_eq_of_lt hjc] at hmod
        apply hrel2s.good
        have hi0 : j / size < grainsize := Nat.div_lt_of_lt_mul hjc
        have hj : size * (j / size) + tid = j := by
          rw [← hmod]; exact Nat.div_add_mod j size
        have hc0 : last - first ≥ size * grainsize ∨ size * (j / size) + tid < n := by
          rw [hj]; omega
        have := foldl_write_hit grainsize
          (fun i => last - first ≥ size * grainsize ∨ size * i + tid < n)
          (fun i => result + (size * i + tid)) (fun i => stage1 i)
          dst (j / size) hi0 hc0
          (fun i hi hc h => by
            dsimp only at h ⊢
            have : i = j / size := by
              have h1 : size * i = size * (j / size) := by omega
              exact Nat.eq_of_mul_eq_mul_left (by omega) h1
            rw [this])
        simp only [hj] at this
        rw [← hd1, this, hst (j / size) hi0 hc0, hj]
      · have hge : size * grainsize ≤ j := by omega
        have := hcov2 (j - size * grainsize) (by omega)
          (by rw [← Nat.mod_eq_sub_mod hge]; exact hmod)
        have e1 : result + size * grainsize + (j - size * grainsize) = result + j := by omega
        have e2 : first + size * grainsize + (j - size * grainsize) = first + j := by omega
        rw [e1, e2] at this
        exact this
    · rw [if_neg hfl]
      exact ⟨dst, result + n, rfl, ⟨0, CopyRel.refl _ _ _ _ _⟩, fun j hj _ => by omega⟩

/-- The effect of `staged_copy_n` run by all units: it returns and the first `n` destination
cells hold the source; cells before `result` are not written. -/
theorem staged_copy_n_spec {α : Type} (size grainsize : Nat) (hs : 0 < size)
    (hg : 0 < grainsize) (src : Mem α) (first n : Nat) (stage0 dst : Mem α) (result : Nat) :
    ∃ dst1, staged_copy_n size grainsize src first n stage0 dst result = some dst1 ∧
      (∀ p, p < result → dst1 p = dst p) ∧
      ∀ j, j < n → dst1 (result + j) = src (first + j) := by
  obtain ⟨d1, hd1, hrel, hcov⟩ := forUnits_inv size
    (fun tid d => (staged_copy_n_unit size grainsize tid src first n stage0 d result).map
      Prod.fst)
    (fun k d => (∃ N, CopyRel src first result N dst d) ∧
      ∀ j, j < n → (j % (size * grainsize)) % size < k → d (result + j) = src (first + j))
    dst ⟨⟨0, CopyRel.refl _ _ _ _ _⟩, fun j _ h => by omega⟩
    (by
      rintro tid htid d ⟨⟨N, hrel⟩, hcov⟩
      obtain ⟨d1, r, hd1, ⟨N1, hrel1⟩, hcov1⟩ :=
        staged_copy_n_loop_spec size grainsize tid n htid hg src (first + n) (n + 1)
          first result stage0 d (by omega) (by omega)
      refine ⟨d1, by simp [staged_copy_n_unit, hd1],
        ⟨max N N1, (hrel.mono (le_max_left _ _)).trans (hrel1.mono (le_max_right _ _))⟩, ?_⟩
      intro j hjn hmod
      by_cases hlt : (j % (size * grainsize)) % size < tid
      · exact hrel1.good j (hcov j hjn hlt)
      · exact hcov1 j (by omega) (by omega))
  obtain ⟨N, hrel⟩ := hrel
  exact ⟨d1, hd1, fun p hp => hrel.frame p (Or.inl hp),
    fun j hj => hcov j hj (Nat.mod_lt _ hs)⟩


/-! ## Folds -/

theorem lfold_eq_foldl {α : Type} (op : α → α → α) (init : α) (a : Nat → α) (k : Nat) :
    lfold op init a k = List.foldl op init ((List.range k).map a) := by
  induction k with
  | zero => rfl
  | succ k ih => simp [lfold, List.range_succ, List.foldl_append, ih]

theorem lfold_congr {α : Type} (op : α → α → α) (init : α) (a b : Nat → α) (k : Nat)
    (h : ∀ i, i < k → a i = b i) : lfold op init a k = lfold op init b k := by
  induction k with
  | zero => rfl
  | succ k ih =>
    simp only [lfold]
    rw [ih (fun i hi => h i (Nat.lt_succ_of_lt hi)), h k (Nat.lt_succ_self k)]

theorem lfold_add {α : Type} (op : α → α → α) (init : α) (a : Nat → α) (k m : Nat) :
    lfold op (lfold op init a k) (fun i => a (k + i)) m = lfold op init a (k + m) := by
  induction m with
  | zero => rfl
  | succ m ih =>
    show op (lfold op (lfold op init a k) (fun i => a (k + i)) m) (a (k + m)) = _
    rw [ih]; rfl

theorem seg_congr {α : Type} (op : α → α → α) (a b : Nat → α) (lo len : Nat)
    (h : ∀ i, lo ≤ i → i ≤ lo + len → a i = b i) : seg op a lo len = seg op b lo len := by
  induction len with
  | zero => exact h lo (Nat.le_refl _) (by omega)
  | succ k ih =>
    simp only [seg]
    rw [ih (fun i h1 h2 => h i h1 (by omega)), h (lo + k + 1) (by omega) (by omega)]

theorem seg_append {α : Type} (op : α → α → α) (hassoc : ∀ a b c, op (op a b) c = op a (op b c))
    (a : Nat → α) (lo k m : Nat) :
    op (seg op a lo k) (seg op a (lo + k + 1) m) = seg op a lo (k + m + 1) := by
  induction m with
  | zero => rfl
  | succ m ih =>
    show op (seg op a lo k) (op (seg op a (lo + k + 1) m) (a (lo + k + 1 + m + 1)))
      = op (seg op a lo (k + m + 1)) (a (lo + (k + m + 1) + 1))
    rw [← hassoc, ih]
    congr 2
    omega

theorem lfold_seg {α : Type} (op : α → α → α) (hassoc : ∀ a b c, op (op a b) c = op a (op b c))
    (init : α) (a : Nat → α) (k m : Nat) :
    op (lfold op init a k) (seg op a k m) = lfold op init a (k + m + 1) := by
  induction m with
  | zero => rfl
  | succ m ih =>
    show op (lfold op init a k) (op (seg op a k m) (a (k + m + 1)))
      = op (lfold op init a (k + m + 1)) (a (k + m + 1))
    rw [← hassoc, ih]

/-- Folding `init` into the first element: the seeded fold of the modified array is the
left fold from `init`. -/
theorem seg_zero_eq_lfold {α : Type} (op : α → α → α) (init : α) (p a : Nat → α)
    (h0 : a 0 = op init (p 0)) (t : Nat) (ht : ∀ i, 0 < i → i ≤ t → a i = p i) :
    seg op a 0 t = lfold op init p (t + 1) := by
  induction t with
  | zero => exact h0
  | succ t ih =>
    show op (seg op a 0 t) (a (0 + t + 1)) = op (lfold op init p (t + 1)) (p (t + 1))
    rw [ih (fun i h1 h2 => ht i h1 (by omega)), Nat.zero_add, ht (t + 1) (by omega) (by omega)]

/-! ## Group phases that write one cell per unit -/

theorem forUnits_write_guarded {α : Type} (size : Nat) (c : Nat → Prop) [DecidablePred c]
    (ptr : Nat) (v : Nat → α) (m : Mem α) :
    ∃ m1, forUnits size (fun tid d =>
        some (if c tid then d.write (ptr + tid) (v tid) else d)) m = some m1 ∧
      ∀ p, m1 p = if ptr ≤ p ∧ p - ptr < size ∧ c (p - ptr) then v (p - ptr) else m p := by
  refine forUnits_inv size _
    (fun k d => ∀ p, d p = if ptr ≤ p ∧ p - ptr < k ∧ c (p - ptr) then v (p - ptr) else m p)
    m (fun p => by simp) ?_
  intro tid _ d hd
  refine ⟨_, rfl, ?_⟩
  intro p
  by_cases hp : p = ptr + tid
  · subst hp
    have e : ptr + tid - ptr = tid := by omega
    by_cases hc : c tid
    · simp [hc, e, Mem.write_same]
    · rw [if_neg hc, hd]
      simp [hc, e]
  · have hw : (if c tid then d.write (ptr + tid) (v tid) else d) p = d p := by
      split
      · exact Mem.write_other _ _ _ _ hp
      · rfl
    rw [hw, hd]
    by_cases h1 : ptr ≤ p ∧ p - ptr < tid ∧ c (p - ptr)
    · rw [if_pos h1, if_pos ⟨h1.1, by omega, h1.2.2⟩]
    · rw [if_neg h1, if_neg]
      rintro ⟨h2, h3, h4⟩
      exact h1 ⟨h2, by omega, h4⟩

theorem forUnits_write_all {α : Type} (size : Nat) (ptr : Nat) (v : Nat → α) (m : Mem α) :
    ∃ m1, forUnits size (fun tid d => some (d.write (ptr + tid) (v tid))) m = some m1 ∧
      ∀ p, m1 p = if ptr ≤ p ∧ p - ptr < size then v (p - ptr) else m p := by
  obtain ⟨m1, h1, h2⟩ := forUnits_write_guarded size (fun _ => True) ptr v m
  refine ⟨m1, ?_, fun p => by rw [h2 p]; simp⟩
  rw [← h1]
  simp


/-! ## The group-wide exclusive scan of the per-unit sums -/

theorem scan_rounds_spec {α : Type} (op : α → α → α)
    (hassoc : ∀ a b c, op (op a b) c = op a (op b c)) (size first : Nat) (a : Nat → α)
    (mem0 : Mem α) :
    ∀ fuel offset mem x, 0 < offset → size - offset < fuel →
      (∀ t, t < size → x t = seg op a (t - min t (offset - 1)) (min t (offset - 1))) →
      (∀ t, t < size → mem (first + t) = x t) →
      (∀ p, (p < first ∨ first + size ≤ p) → mem p = mem0 p) →
      ∃ mem1 x1, scan_rounds op size first fuel offset mem x = some (mem1, x1) ∧
        (∀ t, t < size → mem1 (first + t) = seg op a 0 t) ∧
        (∀ p, (p < first ∨ first + size ≤ p) → mem1 p = mem0 p) := by
  intro fuel
  induction fuel with
  | zero => intro offset mem x _ h; omega
  | succ k ih =>
    intro offset mem x hpos hfuel hx hmem hframe
    unfold scan_rounds
    by_cases hlt : offset < size
    · rw [if_pos hlt]
      obtain ⟨m1, hm1, hm1v⟩ := forUnits_write_all size first
        (fun tid => if tid ≥ offset then op (mem (first + (tid - offset))) (x tid) else x tid) mem
      simp only [hm1, Option.bind_eq_bind, Option.some_bind]
      apply ih (offset + offset) m1 _ (by omega) (by omega)
      · intro t ht
        by_cases hto : t ≥ offset
        · rw [if_pos hto, hmem (t - offset) (by omega), hx (t - offset) (by omega), hx t ht]
          have e1 : t - min t (offset - 1)
              = (t - offset - min (t - offset) (offset - 1)) + min (t - offset) (offset - 1) + 1 := by
            omega
          have e2 : min t (offset - 1) = offset - 1 := by omega
          have e3 : min t (offset + offset - 1)
              = min (t - offset) (offset - 1) + (offset - 1) + 1 := by omega
          have e4 : t - min t (offset + offset - 1)
              = t - offset - min (t - offset) (offset - 1) := by omega
          rw [e1, e2, e4, e3, seg_append op hassoc]
        · rw [if_neg hto, hx t ht]
          have e1 : min t (offset - 1) = t := by omega
          have e2 : min t (offset + offset - 1) = t := by omega
          rw [e1, e2]
      · intro t ht
        rw [hm1v]
        have e : first + t - first = t := by omega
        rw [if_pos ⟨by omega, by omega⟩, e]
      · intro p hp
        rw [hm1v, if_neg (by omega)]
        exact hframe p hp
    · rw [if_neg hlt]
      refine ⟨mem, x, rfl, ?_, hframe⟩
      intro t ht
      rw [hmem t ht, hx t ht]
      have e1 : min t (offset - 1) = t := by omega
      rw [e1, Nat.sub_self]

/-- The effect of `small_inplace_exclusive_scan` for an associative operator: slot `t` ends as
the left fold of `init` and the slots before `t`, the cells outside the slots are unchanged,
and the returned value is the left fold of `init` and all `size` slots. -/
theorem small_inplace_exclusive_scan_spec {α : Type} (op : α → α → α)
    (hassoc : ∀ a b c, op (op a b) c = op a (op b c)) (size : Nat)
    (mem : Mem α) (first : Nat) (init : α) :
    ∃ mem1 carry, small_inplace_exclusive_scan op size mem first init = some (mem1, carry) ∧
      (∀ t, t < size → mem1 (first + t) = lfold op init (fun i => mem (first + i)) t) ∧
      (∀ p, (p < first ∨ first + size ≤ p) → mem1 p = mem p) ∧
      (0 < size → carry = lfold op init (fun i => mem (first + i)) size) := by
  by_cases hs : size = 0
  · subst hs
    refine ⟨mem, mem (first + (0 - 1)), ?_, fun t ht => by omega, fun _ _ => rfl,
      fun h => by omega⟩
    simp [small_inplace_exclusive_scan, forUnits, scan_rounds]
  obtain ⟨m1, hm1, hm1v⟩ := forUnits_inv size
    (fun tid m => some (if tid = 0 then m.write (first + 0) (op init (m (first + 0))) else m))
    (fun k d => if k = 0 then d = mem else d = mem.write first (op init (mem first)))
    mem (by simp)
    (by
      intro tid _ d hd
      refine ⟨_, rfl, ?_⟩
      by_cases h0 : tid = 0
      · subst h0
        simp only [if_true] at hd
        subst hd
        simp
      · rw [if_neg h0] at hd
        simp [h0, hd])
  rw [if_neg (by omega)] at hm1v
  have ha0 : m1 (first + 0) = op init (mem (first + 0)) := by
    rw [hm1v]; exact Mem.write_same _ _ _
  have hat : ∀ i, 0 < i → m1 (first + i) = mem (first + i) := by
    intro i hi
    rw [hm1v]; exact Mem.write_other _ _ _ _ (by omega)
  obtain ⟨m2, x2, hm2, hm2v, hm2f⟩ := scan_rounds_spec op hassoc size first
    (fun t => m1 (first + t)) mem (size + 1) 1 m1 (fun t => m1 (first + t))
    (by omega) (by omega)
    (fun t _ => by simp [seg])
    (fun t _ => rfl)
    (fun p hp => by rw [hm1v]; exact Mem.write_other _ _ _ _ (by omega))
  have hm2l : ∀ t, t < size → m2 (first + t) = lfold op init (fun i => mem (first + i)) (t + 1) := by
    intro t ht
    rw [hm2v t ht]
    exact seg_zero_eq_lfold op init (fun i => mem (first + i)) (fun t => m1 (first + t)) ha0 t
      (fun i hi _ => hat i hi)
  obtain ⟨m3, hm3, hm3v⟩ := forUnits_write_all size first
    (fun tid => if tid = 0 then init else m2 (first + (tid - 1))) m2
  refine ⟨m3, m2 (first + (size - 1)), ?_, ?_, ?_, ?_⟩
  · unfold small_inplace_exclusive_scan
    simp only [hm1, hm2, hm3, Option.bind_eq_bind, Option.some_bind, Option.pure_def]
  · intro t ht
    rw [hm3v]
    have e : first + t - first = t := by omega
    rw [if_pos ⟨by omega, by omega⟩, e]
    by_cases h0 : t = 0
    · subst h0; rfl
    · rw [if_neg h0, hm2l (t - 1) (by omega)]
      congr 1
      omega
  · intro p hp
    rw [hm3v, if_neg (by omega)]
    exact hm2f p hp
  · intro _
    rw [hm2l (size - 1) (by omega)]
    congr 1
    omega


/-! ## The per-unit pieces of `scan` -/

theorem seg_shift {α : Type} (op : α → α → α) (a : Nat → α) (c len : Nat) :
    seg op (fun i => a (c + i)) 0 len = seg op a c len := by
  induction len with
  | zero => rfl
  | succ k ih =>
    show op (seg op (fun i => a (c + i)) 0 k) (a (c + (0 + k + 1))) = op (seg op a c k) (a (c + k + 1))
    rw [ih]
    congr 2
    omega

theorem lfold_blocks {α : Type} (op : α → α → α)
    (hassoc : ∀ a b c, op (op a b) c = op a (op b c)) (init : α) (p inp : Nat → α)
    (g : Nat) (hg : 0 < g) (k : Nat) (hp : ∀ t, t < k → p t = seg op inp (g * t) (g - 1)) :
    lfold op init p k = lfold op init inp (g * k) := by
  induction k with
  | zero => rfl
  | succ k ih =>
    show op (lfold op init p k) (p k) = _
    rw [ih (fun t ht => hp t (Nat.lt_succ_of_lt ht)), hp k (Nat.lt_succ_self k),
      lfold_seg op hassoc]
    congr 1
    rw [Nat.mul_succ]
    omega

theorem local_size_eq (grainsize first len tid : Nat) :
    local_size grainsize (((first + len : Nat) : Int) - (first : Int)) tid
      = min grainsize (len - grainsize * tid) := by
  unfold local_size
  push_cast
  omega

theorem copy_n_bounded_spec {α : Type} (bound : Nat) (src : Mem α) (first n : Nat)
    (dst : Mem α) (result i : Nat) (hi : i < n) (hb : i < bound) :
    copy_n_bounded bound src first n dst result (result + i) = src (first + i) :=
  foldl_write_hit bound (fun i => i < n) (fun i => result + i) (fun i => src (first + i))
    dst i hb hi (fun i1 _ _ h => by
      dsimp only at h ⊢
      have : i1 = i := by omega
      rw [this])

/-- The sequential accumulate of scan.hpp:225-232 over `ls` local inputs. -/
theorem accumulate_spec {α : Type} (op : α → α → α) (l : Nat → α) (ls : Nat) (x0 : α) (k : Nat) :
    (List.range k).foldl (fun x i =>
        if i < ls then (if i ≠ 0 then op x (l i) else l i) else x) x0
      = if min k ls = 0 then x0 else seg op l 0 (min k ls - 1) := by
  induction k with
  | zero => simp
  | succ k ih =>
    rw [List.range_succ, List.foldl_append, ih]
    simp only [List.foldl_cons, List.foldl_nil]
    by_cases hk : k < ls
    · rw [if_pos hk]
      have e1 : min k ls = k := by omega
      have e2 : min (k + 1) ls = k + 1 := by omega
      rw [e1, e2]
      cases k with
      | zero => simp [seg]
      | succ k1 => simp [seg]
    · rw [if_neg hk]
      have e1 : min k ls = ls := by omega
      have e2 : min (k + 1) ls = ls := by omega
      rw [e1, e2]

/-- The bounded scan one unit runs over its range: cell `i` of the destination gets the left
fold of `init` and the first `i + 1` (inclusive) or `i` (exclusive) elements. -/
theorem bounded_scan_spec {α : Type} (inclusive : Bool) (bound : Nat) (op : α → α → α)
    (src : Mem α) (first len : Nat) (hlen : len ≤ bound) (dst : Mem α) (result : Nat)
    (init : α) (p : Nat) :
    (if inclusive then
        (inclusive_scan_bounded bound op src first (first + len) dst result init).1
      else (exclusive_scan_bounded bound op src first (first + len) dst result init).1) p
      = if result ≤ p ∧ p - result < len then
          lfold op init (fun j => src (first + j)) (p - result + if inclusive then 1 else 0)
        else dst p := by
  cases inclusive
  · simp only [Bool.false_eq_true, if_false, exclusive_scan_bounded, Nat.add_zero]
    have key : ∀ k, k ≤ bound →
        let st := (List.range k).foldl (fun (st : α × Mem α) i =>
          if first + i < first + len then
            (op st.1 (src (first + i)), st.2.write (result + i) st.1)
          else st) (init, dst)
        st.1 = lfold op init (fun j => src (first + j)) (min k len) ∧
        ∀ q, st.2 q = if result ≤ q ∧ q - result < min k len then
          lfold op init (fun j => src (first + j)) (q - result) else dst q := by
      intro k
      induction k with
      | zero => intro _; simp [lfold]
      | succ k ih =>
        intro hk
        obtain ⟨h1, h2⟩ := ih (by omega)
        rw [List.range_succ, List.foldl_append]
        simp only [List.foldl_cons, List.foldl_nil] at h1 h2 ⊢
        by_cases hkl : k < len
        · rw [if_pos (by omega)]
          have e1 : min k len = k := by omega
          have e2 : min (k + 1) len = k + 1 := by omega
          rw [e1] at h1 h2
          rw [e2]
          dsimp only
          refine ⟨by rw [h1]; rfl, fun q => ?_⟩
          by_cases hq : q = result + k
          · subst hq
            rw [Mem.write_same, if_pos ⟨by omega, by omega⟩, h1]
            congr 1; omega
          · rw [Mem.write_other _ _ _ _ hq, h2]
            by_cases hr : result ≤ q ∧ q - result < k
            · rw [if_pos hr, if_pos ⟨hr.1, by omega⟩]
            · rw [if_neg hr, if_neg (by omega)]
        · rw [if_neg (by omega)]
          have e1 : min k len = len := by omega
          have e2 : min (k + 1) len = len := by omega
          rw [e1] at h1 h2
          rw [e2]
          exact ⟨h1, h2⟩
    have := (key bound (Nat.le_refl _)).2 p
    have e : min bound len = len := by omega
    rw [e] at this
    exact this
  · simp only [if_true, inclusive_scan_bounded]
    have key : ∀ k, k ≤ bound →
        let st := (List.range k).foldl (fun (st : α × Mem α) i =>
          if first + i < first + len then
            (op st.1 (src (first + i)), st.2.write (result + i) (op st.1 (src (first + i))))
          else st) (init, dst)
        st.1 = lfold op init (fun j => src (first + j)) (min k len) ∧
        ∀ q, st.2 q = if result ≤ q ∧ q - result < min k len then
          lfold op init (fun j => src (first + j)) (q - result + 1) else dst q := by
      intro k
      induction k with
      | zero => intro _; simp [lfold]
      | succ k ih =>
        intro hk
        obtain ⟨h1, h2⟩ := ih (by omega)
        rw [List.range_succ, List.foldl_append]
        simp only [List.foldl_cons, List.foldl_nil] at h1 h2 ⊢
        by_cases hkl : k < len
        · rw [if_pos (by omega)]
          have e1 : min k len = k := by omega
          have e2 : min (k + 1) len = k + 1 := by omega
          rw [e1] at h1 h2
          rw [e2]
          dsimp only
          refine ⟨by rw [h1]; rfl, fun q => ?_⟩
          by_cases hq : q = result + k
          · subst hq
            rw [Mem.write_same, if_pos ⟨by omega, by omega⟩, h1]
            have e3 : result + k - result + 1 = k + 1 := by omega
            rw [e3]; rfl
          · rw [Mem.write_other _ _ _ _ hq, h2]
            by_cases hr : result ≤ q ∧ q - result < k
            · rw [if_pos hr, if_pos ⟨hr.1, by omega⟩]
            · rw [if_neg hr, if_neg (by omega)]
        · rw [if_neg (by omega)]
          have e1 : min k len = len := by omega
          have e2 : min (k + 1) len = len := by omega
          rw [e1] at h1 h2
          rw [e2]
          exact ⟨h1, h2⟩
    have := (key bound (Nat.le_refl _)).2 p
    have e : min bound len = len := by omega
    rw [e] at this
    exact this

/-! ## The single-tile scan -/

theorem scan_local_inputs_eq {α : Type} (grainsize : Nat) (u : Uninit α) (src : Mem α)
    (first len tid i : Nat) (hi : i < min grainsize (len - grainsize * tid)) :
    scan_local_inputs grainsize u src first (((first + len : Nat) : Int) - (first : Int)) tid i
      = src (first + (grainsize * tid + i)) := by
  unfold scan_local_inputs
  rw [local_size_eq]
  have := copy_n_bounded_spec grainsize src (first + grainsize * tid)
    (min grainsize (len - grainsize * tid)) (u.local_inputs tid) 0 i hi (by omega)
  rw [Nat.zero_add] at this
  rw [this, Nat.add_assoc]

theorem scan_local_sum_eq {α : Type} (op : α → α → α) (grainsize : Nat) (u : Uninit α)
    (src : Mem α) (first len tid : Nat) (hg : 0 < grainsize) (ht : grainsize * tid < len) :
    scan_local_sum op grainsize u src first (((first + len : Nat) : Int) - (first : Int)) tid
      = seg op (fun i => src (first + i)) (grainsize * tid)
          (min grainsize (len - grainsize * tid) - 1) := by
  unfold scan_local_sum
  rw [accumulate_spec, local_size_eq]
  have e : min grainsize (min grainsize (len - grainsize * tid))
      = min grainsize (len - grainsize * tid) := by omega
  rw [e, if_neg (by omega), ← seg_shift op (fun i => src (first + i)) (grainsize * tid)]
  apply seg_congr
  intro i _ hi
  exact scan_local_inputs_eq grainsize u src first len tid i (by omega)

/-- The effect of `scan_detail::scan` on a tile of `len ≤ groupsize * grainsize` elements for
an associative operator: it returns, the first `len` destination cells hold the scan seeded
by `carry_in`, and for a full tile the returned carry is the fold of the whole tile. -/
theorem scan_spec {α : Type} (inclusive : Bool) (op : α → α → α)
    (hassoc : ∀ a b c, op (op a b) c = op a (op b c)) (groupsize grainsize : Nat)
    (u : Uninit α) (src : Mem α) (first len : Nat) (hlen : len ≤ groupsize * grainsize)
    (dst : Mem α) (result : Nat) (carry_in : α) :
    ∃ dst1 carry,
      scan inclusive op groupsize grainsize u src first (first + len) dst result carry_in
        = some (dst1, carry) ∧
      (∀ j, j < len → dst1 (result + j)
        = lfold op carry_in (fun i => src (first + i)) (j + if inclusive then 1 else 0)) ∧
      (len = groupsize * grainsize → 0 < len →
        carry = lfold op carry_in (fun i => src (first + i)) len) := by
  obtain ⟨dst1, hd1, hd1v⟩ := forUnits_write_guarded groupsize
    (fun tid => local_size grainsize (((first + len : Nat) : Int) - (first : Int)) tid ≠ 0)
    result
    (fun tid => scan_local_sum op grainsize u src first
      (((first + len : Nat) : Int) - (first : Int)) tid) dst
  obtain ⟨dst2, carry, hd2, hd2v, _, hcarry⟩ :=
    small_inplace_exclusive_scan_spec op hassoc groupsize dst1 result carry_in
  -- the slot of a unit all of whose elements exist holds the fold of its elements
  have hslot : ∀ t, t < groupsize → grainsize * t + grainsize ≤ len → 0 < grainsize →
      dst1 (result + t) = seg op (fun i => src (first + i)) (grainsize * t) (grainsize - 1) := by
    intro t ht hfull hg
    have e : result + t - result = t := by omega
    rw [hd1v, e, local_size_eq, if_pos ⟨by omega, ht, by omega⟩,
      scan_local_sum_eq op grainsize u src first len t hg (by omega)]
    congr 1
    omega
  obtain ⟨dst3, hd3, hd3v⟩ := forUnits_inv groupsize
    (fun tid d =>
      some (if inclusive then
        (inclusive_scan_bounded grainsize op
          (scan_local_inputs grainsize u src first (((first + len : Nat) : Int) - (first : Int))
            tid) 0
          (0 + local_size grainsize (((first + len : Nat) : Int) - (first : Int)) tid) d
          (result + grainsize * tid)
          (if local_size grainsize (((first + len : Nat) : Int) - (first : Int)) tid ≠ 0 then
            dst2 (result + tid)
          else scan_local_sum op grainsize u src first
            (((first + len : Nat) : Int) - (first : Int)) tid)).1
      else
        (exclusive_scan_bounded grainsize op
          (scan_local_inputs grainsize u src first (((first + len : Nat) : Int) - (first : Int))
            tid) 0
          (0 + local_size grainsize (((first + len : Nat) : Int) - (first : Int)) tid) d
          (result + grainsize * tid)
          (if local_size grainsize (((first + len : Nat) : Int) - (first : Int)) tid ≠ 0 then
            dst2 (result + tid)
          else scan_local_sum op grainsize u src first
            (((first + len : Nat) : Int) - (first : Int)) tid)).1))
    (fun k d => ∀ j, j < len → j < grainsize * k → d (result + j)
      = lfold op carry_in (fun i => src (first + i)) (j + if inclusive then 1 else 0))
    dst2 (fun j _ h => by omega)
    (by
      intro tid htid d hP
      refine ⟨_, rfl, ?_⟩
      intro j hj hjk
      rw [Nat.mul_succ] at hjk
      rw [bounded_scan_spec inclusive grainsize op _ 0 _ (by rw [local_size_eq]; omega)]
      rw [local_size_eq]
      by_cases hlow : j < grainsize * tid
      · rw [if_neg (by omega)]
        exact hP j hj hlow
      · have hg : 0 < grainsize := by omega
        rw [if_pos ⟨by omega, by omega⟩, if_pos (by omega), hd2v tid htid,
          lfold_blocks op hassoc carry_in (fun i => dst1 (result + i))
            (fun i => src (first + i)) grainsize hg tid
            (fun t ht => hslot t (by omega)
              (by
                have := Nat.mul_le_mul_left grainsize (Nat.succ_le_of_lt ht)
                rw [Nat.mul_succ] at this
                omega) hg)]
        rw [lfold_congr op _ _ (fun i => src (first + (grainsize * tid + i))) _
          (fun i hi => by
            rw [Nat.zero_add]
            refine scan_local_inputs_eq grainsize u src first len tid i ?_
            have : (if inclusive = true then 1 else 0) ≤ 1 := by split <;> omega
            omega)]
        have := lfold_add op carry_in (fun i => src (first + i)) (grainsize * tid)
          (result + j - (result + grainsize * tid) + if inclusive = true then 1 else 0)
        rw [this]
        congr 1
        omega)
  refine ⟨dst3, carry, ?_, ?_, ?_⟩
  · unfold scan
    simp only [hd1, hd2, hd3, Option.bind_eq_bind, Option.some_bind, Option.pure_def]
  · intro j hj
    refine hd3v j hj ?_
    rw [Nat.mul_comm]
    omega
  · intro hfull hpos
    have hgs : 0 < groupsize := by
      rcases Nat.eq_zero_or_pos groupsize with h | h
      · rw [h, Nat.zero_mul] at hfull; omega
      · exact h
    have hg : 0 < grainsize := by
      rcases Nat.eq_zero_or_pos grainsize with h | h
      · rw [h, Nat.mul_zero] at hfull; omega
      · exact h
    rw [hcarry hgs, lfold_blocks op hassoc carry_in (fun i => dst1 (result + i))
      (fun i => src (first + i)) grainsize hg groupsize
      (fun t ht => hslot t ht
        (by
          have := Nat.mul_le_mul_left grainsize (Nat.succ_le_of_lt ht)
          rw [Nat.mul_succ] at this
          rw [hfull, Nat.mul_comm groupsize grainsize]
          exact this) hg), hfull, Nat.mul_comm]

/-! ## The tiled scan -/

/-- The effect of `copy_n` on a static group, whichever strategy is selected: it returns, the
first `n` destination cells hold the source, and the cells before `result` are not written. -/
theorem copy_n_spec {α : Type} (staged : Bool) (size grainsize : Nat) (hs : 0 < size)
    (hg : 0 < grainsize) (src : Mem α) (first n : Nat) (stage0 dst : Mem α) (result : Nat) :
    ∃ dst1, copy_n staged size grainsize src first n stage0 dst result = some dst1 ∧
      (∀ p, p < result → dst1 p = dst p) ∧
      ∀ j, j < n → dst1 (result + j) = src (first + j) := by
  cases staged
  · obtain ⟨d1, h1, hrel, hcov⟩ :=
      simple_copy_n_static_spec size grainsize hs hg src first n dst result
    exact ⟨d1, by simp [copy_n, h1], fun p hp => hrel.frame p (Or.inl hp), hcov⟩
  · obtain ⟨d1, h1, hfr, hcov⟩ :=
      staged_copy_n_spec size grainsize hs hg src first n stage0 dst result
    exact ⟨d1, by simp [copy_n, h1], hfr, hcov⟩

theorem to_int32_of_fits (x : Int) (h0 : 0 ≤ x) (h1 : x < 2 ^ 31) : to_int32 x = x := by
  unfold to_int32
  omega

/-- One turn of the tile loop when the tile size and the remaining length fit an `int`: the
tile has `min (groupsize * grainsize) (last - first)` elements and the iterators advance by
the tile size. -/
theorem scan_with_buffer_loop_fits {α : Type} (inclusive : Bool) (op : α → α → α)
    (groupsize grainsize : Nat) (hfit : groupsize * grainsize < 2 ^ 31) (u : Uninit α)
    (staged_in staged_out : Bool) (src : Mem α) (last fuel first result : Nat) (carry_in : α)
    (stage dst : Mem α) (hrem : last - first < 2 ^ 31) :
    scan_with_buffer_loop inclusive op groupsize grainsize u staged_in staged_out src last
        (fuel + 1) first result carry_in stage dst
      = if first < last then
          (copy_n staged_in groupsize grainsize src first
            (min (groupsize * grainsize) (last - first)) u.stage stage 0).bind fun stage1 =>
          (scan inclusive op groupsize grainsize u stage1 0
            (0 + min (groupsize * grainsize) (last - first)) stage1 0 carry_in).bind fun r =>
          (copy_n staged_out groupsize grainsize r.1 0
            (min (groupsize * grainsize) (last - first)) u.stage dst result).bind fun dst1 =>
          scan_with_buffer_loop inclusive op groupsize grainsize u staged_in staged_out src
            last fuel (first + groupsize * grainsize) (result + groupsize * grainsize) r.2 r.1
            dst1
        else some (dst, carry_in) := by
  conv_lhs => rw [scan_with_buffer_loop]
  simp only []
  by_cases hfl : first < last
  · rw [if_pos hfl, if_pos hfl]
    have e1 : to_int32 ((groupsize * grainsize : Nat) : Int) = ((groupsize * grainsize : Nat) : Int) :=
      to_int32_of_fits _ (by omega) (by omega)
    have e2 : to_int32 ((last : Int) - (first : Int)) = ((last - first : Nat) : Int) := by
      rw [to_int32_of_fits _ (by omega) (by omega)]
      omega
    have e3 : (min ((groupsize * grainsize : Nat) : Int) ((last - first : Nat) : Int)).toNat
        = min (groupsize * grainsize) (last - first) := by omega
    have e4 : ((first : Int) + ((groupsize * grainsize : Nat) : Int)).toNat
        = first + groupsize * grainsize := by omega
    have e5 : ((result : Int) + ((groupsize * grainsize : Nat) : Int)).toNat
        = result + groupsize * grainsize := by omega
    rw [e1, e2, e3, e4, e5]
    rfl
  · rw [if_neg hfl, if_neg hfl]

theorem scan_with_buffer_loop_spec {α : Type} (inclusive : Bool) (op : α → α → α)
    (hassoc : ∀ a b c, op (op a b) c = op a (op b c)) (groupsize grainsize : Nat)
    (hgs : 0 < groupsize) (hgr : 0 < grainsize) (hfit : groupsize * grainsize < 2 ^ 31)
    (u : Uninit α) (staged_in staged_out : Bool) (src : Mem α) (last : Nat) :
    ∀ fuel first result carry_in stage dst, last - first < fuel → last - first < 2 ^ 31 →
      ∃ dst1 carry,
        scan_with_buffer_loop inclusive op groupsize grainsize u staged_in staged_out src last
          fuel first result carry_in stage dst = some (dst1, carry) ∧
        (∀ j, first + j < last → dst1 (result + j)
          = lfold op carry_in (fun i => src (first + i)) (j + if inclusive then 1 else 0)) ∧
        (∀ p, p < result → dst1 p = dst p) := by
  have hepg : 0 < groupsize * grainsize := Nat.mul_pos hgs hgr
  intro fuel
  induction fuel with
  | zero => intro first result carry_in stage dst h; omega
  | succ k ih =>
    intro first result carry_in stage dst hfuel hrem
    rw [scan_with_buffer_loop_fits inclusive op groupsize grainsize hfit u staged_in staged_out
      src last k first result carry_in stage dst hrem]
    by_cases hfl : first < last
    · rw [if_pos hfl]
      obtain ⟨stage1, hs1, _, hs1v⟩ := copy_n_spec staged_in groupsize grainsize hgs hgr src
        first (min (groupsize * grainsize) (last - first)) u.stage stage 0
      obtain ⟨stage2, carry, hs2, hs2v, hcarry⟩ := scan_spec inclusive op hassoc groupsize
        grainsize u stage1 0 (min (groupsize * grainsize) (last - first))
        (Nat.min_le_left _ _) stage1 0 carry_in
      obtain ⟨dst1, hd1, hd1f, hd1v⟩ := copy_n_spec staged_out groupsize grainsize hgs hgr
        stage2 0 (min (groupsize * grainsize) (last - first)) u.stage dst result
      obtain ⟨dst2, carry2, hd2, hd2v, hd2f⟩ :=
        ih (first + groupsize * grainsize) (result + groupsize * grainsize) carry stage2 dst1
          (by omega) (by omega)
      simp only [hs1, hs2, hd1, Option.bind_eq_bind, Option.some_bind]
      refine ⟨dst2, carry2, hd2, ?_, fun p hp => (hd2f p (by omega)).trans (hd1f p hp)⟩
      have hstage : ∀ i, i < min (groupsize * grainsize) (last - first) →
          stage1 (0 + i) = src (first + i) := hs1v
      intro j hj
      by_cases hjc : j < groupsize * grainsize
      · have hjp : j < min (groupsize * grainsize) (last - first) := by omega
        rw [hd2f (result + j) (by omega), hd1v j hjp, hs2v j hjp]
        apply lfold_congr
        intro i hi
        refine hstage i ?_
        have : (if inclusive = true then 1 else 0) ≤ 1 := by split <;> omega
        omega
      · have hps : min (groupsize * grainsize) (last - first) = groupsize * grainsize := by omega
        have hc : carry = lfold op carry_in (fun i => src (first + i)) (groupsize * grainsize) := by
          rw [hcarry hps (by omega), hps]
          apply lfold_congr
          intro i hi
          exact hstage i (by omega)
        have := hd2v (j - groupsize * grainsize) (by omega)
        have e1 : result + groupsize * grainsize + (j - groupsize * grainsize) = result + j := by
          omega
        rw [e1, hc] at this
        rw [this, lfold_congr op _ (fun i => src (first + groupsize * grainsize + i))
          (fun i => (fun i => src (first + i)) (groupsize * grainsize + i)) _
          (fun i _ => by dsimp only; rw [Nat.add_assoc]), lfold_add]
        congr 1
        omega
    · rw [if_neg hfl]
      exact ⟨dst, carry_in, rfl, fun j hj => by omega, fun _ _ => rfl⟩

/-- The effect of `scan_with_buffer<inclusive>` on an input of `n` elements for an associative
operator: the tiles with the chained carry give the scan of the whole input. -/
theorem scan_with_buffer_spec {α : Type} (inclusive : Bool) (op : α → α → α)
    (hassoc : ∀ a b c, op (op a b) c = op a (op b c)) (groupsize grainsize : Nat)
    (hgs : 0 < groupsize) (hgr : 0 < grainsize) (hfit : groupsize * grainsize < 2 ^ 31)
    (u : Uninit α) (staged_in staged_out : Bool)
    (src : Mem α) (first n : Nat) (hn : n < 2 ^ 31) (dst : Mem α) (result : Nat)
    (carry_in : α) (buffer : Mem α) :
    ∃ dst1 carry,
      scan_with_buffer inclusive op groupsize grainsize u staged_in staged_out src first
        (first + n) dst result carry_in buffer = some (dst1, carry) ∧
      ∀ j, j < n → dst1 (result + j)
        = lfold op carry_in (fun i => src (first + i)) (j + if inclusive then 1 else 0) := by
  obtain ⟨dst1, carry, h, hv, _⟩ := scan_with_buffer_loop_spec inclusive op hassoc groupsize
    grainsize hgs hgr hfit u staged_in staged_out src (first + n) (first + n - first + 1) first
    result carry_in buffer dst (by omega) (by omega)
  exact ⟨dst1, carry, h, fun j hj => hv j (by omega)⟩

/-- One turn of the tile loop when the remaining length does not fit an `int`: for
`2 ^ 31 + grainsize * (groupsize - 1) ≤ last - first < 2 ^ 31 + groupsize * grainsize` the
narrowed length is negative, the tile is handled as an empty one, and the loop ends with the
cells of that tile in the destination as they were. -/
theorem scan_with_buffer_loop_skips_tile {α : Type} (inclusive : Bool) (op : α → α → α)
    (hassoc : ∀ a b c, op (op a b) c = op a (op b c)) (groupsize grainsize : Nat)
    (hgs : 0 < groupsize) (hgr : 0 < grainsize) (hfit : groupsize * grainsize < 2 ^ 31)
    (u : Uninit α) (staged_in : Bool) (src : Mem α) (last fuel first result : Nat)
    (carry_in : α) (stage dst : Mem α) (hfuel : last - first < fuel + 1)
    (hlo : 2 ^ 31 + grainsize * (groupsize - 1) ≤ last - first)
    (hhi : last - first < 2 ^ 31 + groupsize * grainsize) :
    ∃ dst1 carry,
      scan_with_buffer_loop inclusive op groupsize grainsize u staged_in false src last
        (fuel + 1) first result carry_in stage dst = some (dst1, carry) ∧
      ∀ p, p < result + groupsize * grainsize → dst1 p = dst p := by
  have hepg : 0 < groupsize * grainsize := Nat.mul_pos hgs hgr
  have hfl : first < last := by omega
  rw [scan_with_buffer_loop]
  simp only []
  rw [if_pos hfl]
  have e1 : to_int32 ((groupsize * grainsize : Nat) : Int)
      = ((groupsize * grainsize : Nat) : Int) := to_int32_of_fits _ (by omega) (by omega)
  have e2 : (min ((groupsize * grainsize : Nat) : Int)
      (to_int32 ((last : Int) - (first : Int)))).toNat = 0 := by
    unfold to_int32
    omega
  have e4 : ((first : Int) + ((groupsize * grainsize : Nat) : Int)).toNat
      = first + groupsize * grainsize := by omega
  have e5 : ((result : Int) + ((groupsize * grainsize : Nat) : Int)).toNat
      = result + groupsize * grainsize := by omega
  rw [e1, e2, e4, e5]
  obtain ⟨stage1, hs1, _, _⟩ := copy_n_spec staged_in groupsize grainsize hgs hgr src first 0
    u.stage stage 0
  obtain ⟨stage2, carry, hs2, _, _⟩ := scan_spec inclusive op hassoc groupsize grainsize u
    stage1 0 0 (Nat.zero_le _) stage1 0 carry_in
  obtain ⟨dst1, hd1, hrel, _⟩ := simple_copy_n_static_spec groupsize grainsize hgs hgr stage2
    0 0 dst result
  obtain ⟨dst2, carry2, hd2, _, hd2f⟩ := scan_with_buffer_loop_spec inclusive op hassoc
    groupsize grainsize hgs hgr hfit u staged_in false src last fuel
    (first + groupsize * grainsize) (result + groupsize * grainsize) carry stage2 dst1
    (by omega) (by omega)
  have hc : copy_n false groupsize grainsize stage2 0 0 u.stage dst result = some dst1 := by
    simp [copy_n, hd1]
  simp only [hs1, hs2, hc, Option.bind_eq_bind, Option.some_bind]
  exact ⟨dst2, carry2, hd2, fun p hp => (hd2f p hp).trans (hrel.frame p (by omega))⟩

/-! ## The claims -/

/-- C1, where the claim fails: group size 4, grain 1, integer addition, init 0 and the input
`1, 2, 3, ...` of `2 ^ 31 + 3` elements.  The length left for the first tile becomes the
`int` `-2 ^ 31 + 3`, so `partition_size` is negative: nothing is copied, no unit owns an
element, and the iterators advance by 4.  The scan ends with `result[0]` as it was, 0, where
the claim has `0 + 1 = 1`. -/
theorem inclusive_scan_static_skips_first_tile :
    (inclusive_scan_static (fun a b : Int => a + b) 4 1 exampleUninit false false exampleZeros
        exampleInput 0 (0 + 2147483651) exampleZeros 0 0).map (fun m => m (0 + 0)) = some 0 ∧
    List.foldl (fun a b : Int => a + b) 0
      ((List.range (0 + 1)).map fun j => exampleInput (0 + j)) = 1 := by
  obtain ⟨d, c, h, hf⟩ := scan_with_buffer_loop_skips_tile true (fun a b : Int => a + b)
    Int.add_assoc 4 1 (by decide) (by decide) (by decide) exampleUninit false exampleInput
    (0 + 2147483651) (0 + 2147483651 - 0) 0 0 0 exampleZeros exampleZeros (by omega)
    (by omega) (by omega)
  refine ⟨?_, by decide⟩
  unfold inclusive_scan_static scan_with_buffer
  rw [h, Option.map_some', Option.map_some']
  show some (d (0 + 0)) = some 0
  rw [hf (0 + 0) (by omega)]
  rfl

/-- C1 as amended: for an associative operator (commutative or not), any init and any input
of `n` elements, where the tile size `groupsize * grainsize` and `n` fit the `int` size type
of `scan_with_buffer` (both below `2 ^ 31`), the tiled `inclusive_scan` on a
`static_execution_group<groupsize,grainsize>` (`scan_with_buffer<true>` with the carry
chained across tiles) returns and leaves in `result[i]`, for every `i < n`, the left fold of
the operator over `init, input[0..i]`, that is the sequential inclusive scan of the whole
input; whichever copy strategy is selected and whatever the buffer and the uninitialised
storage hold. -/
theorem inclusive_scan_static_eq_sequential {α : Type} (op : α → α → α)
    (hassoc : ∀ a b c, op (op a b) c = op a (op b c)) (groupsize grainsize : Nat)
    (hgs : 0 < groupsize) (hgr : 0 < grainsize) (hfit : groupsize * grainsize < 2 ^ 31)
    (u : Uninit α) (staged_in staged_out : Bool)
    (buffer src : Mem α) (first n : Nat) (hn : n < 2 ^ 31) (dst : Mem α) (result : Nat)
    (init : α) :
    ∃ dst1,
      inclusive_scan_static op groupsize grainsize u staged_in staged_out buffer src first
        (first + n) dst result init = some dst1 ∧
      ∀ i, i < n → dst1 (result + i)
        = List.foldl op init ((List.range (i + 1)).map fun j => src (first + j)) := by
  obtain ⟨dst1, carry, h, hv⟩ := scan_with_buffer_spec true op hassoc groupsize grainsize
    hgs hgr hfit u staged_in staged_out src first n hn dst result init buffer
  refine ⟨dst1, by simp [inclusive_scan_static, h], fun i hi => ?_⟩
  rw [hv i hi, lfold_eq_foldl]
  rfl

/-- Witness of C1 as amended: group size 4, grain 1, integer addition, input
`[1,2,3,4,5,6,7,8]` and init 0 give `[1,3,6,10,15,21,28,36]`. -/
theorem inclusive_scan_static_example :
    (0 < 4 ∧ 0 < 1 ∧ 4 * 1 < 2 ^ 31 ∧ 8 < 2 ^ 31) ∧
    (inclusive_scan_static (fun a b : Int => a + b) 4 1 exampleUninit false false exampleZeros
        exampleInput 0 (0 + 8) exampleZeros 0 0).map
      (fun m => (List.range 8).map fun i => m (0 + i))
      = some [1, 3, 6, 10, 15, 21, 28, 36] := by
  obtain ⟨d, h, hv⟩ := inclusive_scan_static_eq_sequential (fun a b : Int => a + b)
    Int.add_assoc 4 1 (by decide) (by decide) (by decide) exampleUninit false false
    exampleZeros exampleInput 0 8 (by decide) exampleZeros 0 0
  refine ⟨⟨by decide, by decide, by decide, by decide⟩, ?_⟩
  rw [h, Option.map_some', List.map_congr_left (fun i hi => hv i (List.mem_range.mp hi))]
  decide

/-- C2, where the claim fails: group size 4, grain 1, integer addition, init 10 and an input
of `2 ^ 31 + 3` elements.  The first tile is handled as an empty one (the length left for it
becomes the `int` `-2 ^ 31 + 3`), so the scan ends with `result[0]` as it was, 0, where the
claim has the init 10. -/
theorem exclusive_scan_static_skips_first_tile :
    (exclusive_scan_static (fun a b : Int => a + b) 4 1 exampleUninit false false exampleZeros
        exampleInput 0 (0 + 2147483651) exampleZeros 0 10).map (fun r => r.1 (0 + 0))
      = some 0 ∧
    (0 : Int) ≠ 10 := by
  obtain ⟨d, c, h, hf⟩ := scan_with_buffer_loop_skips_tile false (fun a b : Int => a + b)
    Int.add_assoc 4 1 (by decide) (by decide) (by decide) exampleUninit false exampleInput
    (0 + 2147483651) (0 + 2147483651 - 0) 0 0 10 exampleZeros exampleZeros (by omega)
    (by omega) (by omega)
  refine ⟨?_, by decide⟩
  unfold exclusive_scan_static scan_with_buffer
  rw [h, Option.map_some', Option.map_some']
  show some (d (0 + 0)) = some 0
  rw [hf (0 + 0) (by omega)]
  rfl

/-- C2 as amended: for an associative operator (commutative or not), any init and any input
of `n` elements, where the tile size `groupsize * grainsize` and `n` fit the `int` size type
of `scan_with_buffer` (both below `2 ^ 31`), the tiled `exclusive_scan` on a
`static_execution_group<groupsize,grainsize>` (`scan_with_buffer<false>`) returns
`result + n` and leaves `init` in `result[0]` and, for `0 < i < n`, the left fold of the
operator over `init, input[0..i-1]` in `result[i]`. -/
theorem exclusive_scan_static_eq_sequential {α : Type} (op : α → α → α)
    (hassoc : ∀ a b c, op (op a b) c = op a (op b c)) (groupsize grainsize : Nat)
    (hgs : 0 < groupsize) (hgr : 0 < grainsize) (hfit : groupsize * grainsize < 2 ^ 31)
    (u : Uninit α) (staged_in staged_out : Bool)
    (buffer src : Mem α) (first n : Nat) (hn : n < 2 ^ 31) (dst : Mem α) (result : Nat)
    (init : α) :
    ∃ dst1,
      exclusive_scan_static op groupsize grainsize u staged_in staged_out buffer src first
        (first + n) dst result init = some (dst1, result + n) ∧
      (0 < n → dst1 (result + 0) = init) ∧
      ∀ i, 0 < i → i < n → dst1 (result + i)
        = List.foldl op init ((List.range i).map fun j => src (first + j)) := by
  obtain ⟨dst1, carry, h, hv⟩ := scan_with_buffer_spec false op hassoc groupsize grainsize
    hgs hgr hfit u staged_in staged_out src first n hn dst result init buffer
  refine ⟨dst1, by simp [exclusive_scan_static, h], fun hn => ?_, fun i _ hi => ?_⟩
  · rw [hv 0 hn]; rfl
  · rw [hv i hi, lfold_eq_foldl]
    rfl

/-- Witness of C2 as amended: group size 2, grain 2, integer addition, seven elements,
init 10. -/
theorem exclusive_scan_static_example :
    (0 < 2 ∧ 0 < 2 ∧ 2 * 2 < 2 ^ 31 ∧ 7 < 2 ^ 31) ∧
    ∃ dst1,
      exclusive_scan_static (fun a b : Int => a + b) 2 2 exampleUninit false false exampleZeros
        exampleInput 0 (0 + 7) exampleZeros 0 10 = some (dst1, 0 + 7) ∧
      (0 < 7 → dst1 (0 + 0) = 10) ∧
      ∀ i, 0 < i → i < 7 → dst1 (0 + i)
        = List.foldl (fun a b : Int => a + b) 10
            ((List.range i).map fun j => exampleInput (0 + j)) :=
  ⟨⟨by decide, by decide, by decide, by decide⟩,
    exclusive_scan_static_eq_sequential (fun a b : Int => a + b) Int.add_assoc 2 2
      (by decide) (by decide) (by decide) exampleUninit false false exampleZeros exampleInput
      0 7 (by decide) exampleZeros 0 10⟩

/-- C3: for an associative operator (commutative or not) and an input of
`n ≤ b ≤ groupsize * grainsize` elements, the single-tile `inclusive_scan` on a
`bounded_static_execution_group<b,groupsize,grainsize>` returns `result + n` and leaves in
`result[i]`, for every `i < n`, the left fold of the operator over `carry_in, input[0..i]`. -/
theorem inclusive_scan_bounded_group_correct {α : Type} (op : α → α → α)
    (hassoc : ∀ a b c, op (op a b) c = op a (op b c)) (b groupsize grainsize : Nat)
    (u : Uninit α) (src : Mem α) (first n : Nat) (hn : n ≤ b) (hb : b ≤ groupsize * grainsize)
    (dst : Mem α) (result : Nat) (carry_in : α) :
    ∃ dst1,
      inclusive_scan_bounded_group op groupsize grainsize u src first (first + n) dst result
        carry_in = some (dst1, result + n) ∧
      ∀ i, i < n → dst1 (result + i)
        = List.foldl op carry_in ((List.range (i + 1)).map fun j => src (first + j)) := by
  obtain ⟨dst1, carry, h, hv, _⟩ := scan_spec true op hassoc groupsize grainsize u src first n
    (Nat.le_trans hn hb) dst result carry_in
  refine ⟨dst1, by simp [inclusive_scan_bounded_group, h], fun i hi => ?_⟩
  rw [hv i hi, lfold_eq_foldl]
  rfl

/-- Witness of C3: bound 5, group size 3, grain 2, integer addition, four elements. -/
theorem inclusive_scan_bounded_group_example :
    (4 ≤ 5 ∧ 5 ≤ 3 * 2) ∧
    ∃ dst1,
      inclusive_scan_bounded_group (fun a b : Int => a + b) 3 2 exampleUninit exampleInput 0
        (0 + 4) exampleZeros 0 100 = some (dst1, 0 + 4) ∧
      ∀ i, i < 4 → dst1 (0 + i)
        = List.foldl (fun a b : Int => a + b) 100
            ((List.range (i + 1)).map fun j => exampleInput (0 + j)) :=
  ⟨⟨by decide, by decide⟩,
    inclusive_scan_bounded_group_correct (fun a b : Int => a + b) Int.add_assoc 5 3 2
      exampleUninit exampleInput 0 4 (by decide) (by decide) exampleZeros 0 100⟩

/-- C4, what the code does: on a `bounded_static_execution_group<3,2,2>` with integer
addition, input `[1,2,3]` and carry-in 10, `exclusive_scan` leaves `[11,13,16]`, the inclusive
scan, in the destination; the exclusive scan would be `[10,11,13]`. -/
theorem exclusive_scan_bounded_group_is_inclusive :
    (exclusive_scan_bounded_group (fun a b : Int => a + b) 2 2 exampleUninit exampleInput 0 3
        exampleZeros 0 10).map (fun r => (List.range 3).map r.1)
      = some [11, 13, 16] := by
  decide

/-- C5: for a group of `size ≥ 1` units, any `n ≥ 0` and any source, the generic
`simple_copy_n` run by all units returns with `dst[i] == src[i]` for every `i < n`, and the
call of every unit returns `result + n`. -/
theorem simple_copy_n_correct {α : Type} (size : Nat) (hs : 0 < size) (src : Mem α)
    (first n : Nat) (dst : Mem α) (result : Nat) :
    (∃ dst1, simple_copy_n size src first n dst result = some dst1 ∧
      ∀ i, i < n → dst1 (result + i) = src (first + i)) ∧
    ∀ tid d, tid < size →
      (simple_copy_n_unit size tid src first n d result).map Prod.snd = some (result + n) := by
  obtain ⟨d1, h1, _, hcov⟩ := simple_copy_n_spec size hs src first n dst result
  refine ⟨⟨d1, h1, hcov⟩, fun tid d _ => ?_⟩
  obtain ⟨d2, h2, _⟩ := simple_copy_n_loop_spec size n hs src first result (n + 1) tid d
    (by omega)
  simp [simple_copy_n_unit, h2]

/-- Witness of C5: three units copy seven elements. -/
theorem simple_copy_n_example :
    0 < 3 ∧
    (∃ dst1, simple_copy_n 3 exampleInput 2 7 exampleZeros 5 = some dst1 ∧
      ∀ i, i < 7 → dst1 (5 + i) = exampleInput (2 + i)) ∧
    ∀ tid d, tid < 3 →
      (simple_copy_n_unit 3 tid exampleInput 2 7 d 5).map Prod.snd = some (5 + 7) :=
  ⟨by decide, simple_copy_n_correct 3 (by decide) exampleInput 2 7 exampleZeros 5⟩

/-- C6: for a `static_thread_group<size,grainsize>` with `size, grainsize ≥ 1` and any
`n ≥ 0`, a multiple of `size * grainsize` or not, the chunked `simple_copy_n` run by all units
returns with `dst[i] == src[i]` for every `i < n`. -/
theorem simple_copy_n_static_correct {α : Type} (size grainsize : Nat) (hs : 0 < size)
    (hg : 0 < grainsize) (src : Mem α) (first n : Nat) (dst : Mem α) (result : Nat) :
    ∃ dst1, simple_copy_n_static size grainsize src first n dst result = some dst1 ∧
      ∀ i, i < n → dst1 (result + i) = src (first + i) := by
  obtain ⟨d1, h1, _, hcov⟩ :=
    simple_copy_n_static_spec size grainsize hs hg src first n dst result
  exact ⟨d1, h1, hcov⟩

/-- Witness of C6: two units of grain 2 copy seven elements, a full chunk and a tail. -/
theorem simple_copy_n_static_example :
    (0 < 2 ∧ 0 < 2) ∧
    ∃ dst1, simple_copy_n_static 2 2 exampleInput 2 7 exampleZeros 5 = some dst1 ∧
      ∀ i, i < 7 → dst1 (5 + i) = exampleInput (2 + i) :=
  ⟨⟨by decide, by decide⟩,
    simple_copy_n_static_correct 2 2 (by decide) (by decide) exampleInput 2 7 exampleZeros 5⟩

/-- C7, what the code does: `simple_copy_n` on a static group returns `first + n`, the end of
the source; with the source at position 100, the destination at position 200 and `n = 0`
unit 0 of a `static_thread_group<2,2>` returns 100, not the destination 200. -/
theorem simple_copy_n_static_returns_source_end :
    (simple_copy_n_static_unit 2 2 0 exampleInput 100 0 exampleZeros 200).map Prod.snd
      = some 100 := by
  decide

/-- C8, what the code does: `staged_copy_n` returns the advanced `result` plus `n`; with the
destination at position 0, a `static_thread_group<2,1>` and `n = 3` unit 0 returns 7, not 3. -/
theorem staged_copy_n_returns_past_end :
    (staged_copy_n_unit 2 1 0 exampleInput 0 3 exampleZeros exampleZeros 0).map Prod.snd
      = some 7 := by
  decide

/-- C9: for a `static_thread_group<size,grainsize>` with `size, grainsize ≥ 1` and any
`n ≥ 0`, `staged_copy_n` run by all units returns with `dst[i] == src[i]` for every `i < n`,
whatever the private staging arrays hold on entry. -/
theorem staged_copy_n_correct {α : Type} (size grainsize : Nat) (hs : 0 < size)
    (hg : 0 < grainsize) (src : Mem α) (first n : Nat) (stage0 dst : Mem α) (result : Nat) :
    ∃ dst1, staged_copy_n size grainsize src first n stage0 dst result = some dst1 ∧
      ∀ i, i < n → dst1 (result + i) = src (first + i) := by
  obtain ⟨d1, h1, _, hcov⟩ :=
    staged_copy_n_spec size grainsize hs hg src first n stage0 dst result
  exact ⟨d1, h1, hcov⟩

/-- Witness of C9: two units of grain 2 stage seven elements. -/
theorem staged_copy_n_example :
    (0 < 2 ∧ 0 < 2) ∧
    ∃ dst1, staged_copy_n 2 2 exampleInput 2 7 exampleZeros exampleZeros 5 = some dst1 ∧
      ∀ i, i < 7 → dst1 (5 + i) = exampleInput (2 + i) :=
  ⟨⟨by decide, by decide⟩,
    staged_copy_n_correct 2 2 (by decide) (by decide) exampleInput 2 7 exampleZeros
      exampleZeros 5⟩

/-- C10, what the code does: with a `static_thread_group<2,1>` and `n = 3` the tail chunk of
`staged_copy_n` compares the chunk-relative index 1 with the total count 3, so unit 1 reads
source index 3 and writes it to destination index 3, which held 0 before. -/
theorem staged_copy_n_writes_past_n :
    exampleZeros 3 = 0 ∧
    (staged_copy_n 2 1 exampleInput 0 3 exampleZeros exampleZeros 0).map (fun d => d 3)
      = some (exampleInput 3) ∧
    exampleInput 3 = 4 := by
  decide

/-! ## The claims on the bounded executor, the group-wide scan and the launch -/

/-- C18: for any operator (associative or not), any init and a range of `n ≤ bound` elements,
the sequential `inclusive_scan` on a `bounded_executor<bound>` leaves in `result[i]`, for every
`i < n`, the left fold of the operator over `init, input[0..i]` in input order, and returns
`result + n`. -/
theorem inclusive_scan_bounded_correct {α : Type} (bound : Nat) (op : α → α → α) (src : Mem α)
    (first n : Nat) (hn : n ≤ bound) (dst : Mem α) (result : Nat) (init : α) :
    (inclusive_scan_bounded bound op src first (first + n) dst result init).2 = result + n ∧
    ∀ i, i < n →
      (inclusive_scan_bounded bound op src first (first + n) dst result init).1 (result + i)
        = List.foldl op init ((List.range (i + 1)).map fun j => src (first + j)) := by
  refine ⟨by simp [inclusive_scan_bounded], fun i hi => ?_⟩
  have h := bounded_scan_spec true bound op src first n hn dst result init (result + i)
  simp only [if_true] at h
  rw [h, if_pos ⟨by omega, by omega⟩, lfold_eq_foldl]
  congr 3
  omega

/-- Witness of C18: bound 4, integer subtraction (not associative), three elements. -/
theorem inclusive_scan_bounded_example :
    3 ≤ 4 ∧
    (inclusive_scan_bounded 4 (fun a b : Int => a - b) exampleInput 2 (2 + 3) exampleZeros 5
      10).2 = 5 + 3 ∧
    ∀ i, i < 3 →
      (inclusive_scan_bounded 4 (fun a b : Int => a - b) exampleInput 2 (2 + 3) exampleZeros 5
        10).1 (5 + i)
        = List.foldl (fun a b : Int => a - b) 10
            ((List.range (i + 1)).map fun j => exampleInput (2 + j)) :=
  ⟨by decide,
    inclusive_scan_bounded_correct 4 (fun a b : Int => a - b) exampleInput 2 3 (by decide)
      exampleZeros 5 10⟩

/-- C19: for any operator, any init and a range of `n ≤ bound` elements, the sequential
`exclusive_scan` on a `bounded_executor<bound>` returns `result + n` and leaves `init` in
`result[0]` and the left fold of the operator over `init, input[0..i-1]` in `result[i]` for
`0 < i < n`; so its output is `init` followed by the first `n - 1` outputs of the
`bounded_executor` `inclusive_scan` on the same arguments. -/
theorem exclusive_scan_bounded_correct {α : Type} (bound : Nat) (op : α → α → α) (src : Mem α)
    (first n : Nat) (hn : n ≤ bound) (dst : Mem α) (result : Nat) (init : α) :
    (exclusive_scan_bounded bound op src first (first + n) dst result init).2 = result + n ∧
    (0 < n →
      (exclusive_scan_bounded bound op src first (first + n) dst result init).1 (result + 0)
        = init) ∧
    (∀ i, 0 < i → i < n →
      (exclusive_scan_bounded bound op src first (first + n) dst result init).1 (result + i)
        = List.foldl op init ((List.range i).map fun j => src (first + j))) ∧
    ∀ i, i + 1 < n →
      (exclusive_scan_bounded bound op src first (first + n) dst result init).1
          (result + (i + 1))
        = (inclusive_scan_bounded bound op src first (first + n) dst result init).1
            (result + i) := by
  have hex : ∀ i, i < n →
      (exclusive_scan_bounded bound op src first (first + n) dst result init).1 (result + i)
        = lfold op init (fun j => src (first + j)) i := by
    intro i hi
    have h := bounded_scan_spec false bound op src first n hn dst result init (result + i)
    simp only [Bool.false_eq_true, if_false] at h
    rw [h, if_pos ⟨by omega, by omega⟩]
    congr 1
    omega
  have hin : ∀ i, i < n →
      (inclusive_scan_bounded bound op src first (first + n) dst result init).1 (result + i)
        = lfold op init (fun j => src (first + j)) (i + 1) := by
    intro i hi
    have h := bounded_scan_spec true bound op src first n hn dst result init (result + i)
    simp only [if_true] at h
    rw [h, if_pos ⟨by omega, by omega⟩]
    congr 1
    omega
  refine ⟨by simp [exclusive_scan_bounded], fun h0 => ?_, fun i _ hi => ?_, fun i hi => ?_⟩
  · rw [hex 0 h0]; rfl
  · rw [hex i hi, lfold_eq_foldl]
  · rw [hex (i + 1) hi, hin i (by omega)]

/-- Witness of C19: bound 4, integer subtraction (not associative), three elements. -/
theorem exclusive_scan_bounded_example :
    3 ≤ 4 ∧
    (exclusive_scan_bounded 4 (fun a b : Int => a - b) exampleInput 2 (2 + 3) exampleZeros 5
      10).2 = 5 + 3 ∧
    (0 < 3 →
      (exclusive_scan_bounded 4 (fun a b : Int => a - b) exampleInput 2 (2 + 3) exampleZeros 5
        10).1 (5 + 0) = 10) ∧
    (∀ i, 0 < i → i < 3 →
      (exclusive_scan_bounded 4 (fun a b : Int => a - b) exampleInput 2 (2 + 3) exampleZeros 5
        10).1 (5 + i)
        = List.foldl (fun a b : Int => a - b) 10
            ((List.range i).map fun j => exampleInput (2 + j))) ∧
    ∀ i, i + 1 < 3 →
      (exclusive_scan_bounded 4 (fun a b : Int => a - b) exampleInput 2 (2 + 3) exampleZeros 5
        10).1 (5 + (i + 1))
        = (inclusive_scan_bounded 4 (fun a b : Int => a - b) exampleInput 2 (2 + 3)
            exampleZeros 5 10).1 (5 + i) :=
  ⟨by decide,
    exclusive_scan_bounded_correct 4 (fun a b : Int => a - b) exampleInput 2 3 (by decide)
      exampleZeros 5 10⟩

/-- C20: for a group of any size `s` (a power of two or not), an associative operator
(commutative or not), any init and any slots `p[0..s-1]`, `small_inplace_exclusive_scan`
returns and leaves `init` in slot 0 and `init op p[0] op ... op p[i-1]`, folded from the left,
in slot `i` for `0 < i < s`. -/
theorem small_inplace_exclusive_scan_slots {α : Type} (op : α → α → α)
    (hassoc : ∀ a b c, op (op a b) c = op a (op b c)) (size : Nat) (mem : Mem α)
    (first : Nat) (init : α) :
    ∃ mem1 carry, small_inplace_exclusive_scan op size mem first init = some (mem1, carry) ∧
      (0 < size → mem1 (first + 0) = init) ∧
      ∀ i, 0 < i → i < size → mem1 (first + i)
        = List.foldl op init ((List.range i).map fun j => mem (first + j)) := by
  obtain ⟨mem1, carry, h, hv, _, _⟩ :=
    small_inplace_exclusive_scan_spec op hassoc size mem first init
  refine ⟨mem1, carry, h, fun hs => ?_, fun i _ hi => ?_⟩
  · rw [hv 0 hs]; rfl
  · rw [hv i hi, lfold_eq_foldl]

/-- Witness of C20: five units (not a power of two), integer addition, init 10. -/
theorem small_inplace_exclusive_scan_example :
    ∃ mem1 carry,
      small_inplace_exclusive_scan (fun a b : Int => a + b) 5 exampleInput 3 10
        = some (mem1, carry) ∧
      (0 < 5 → mem1 (3 + 0) = 10) ∧
      ∀ i, 0 < i → i < 5 → mem1 (3 + i)
        = List.foldl (fun a b : Int => a + b) 10
            ((List.range i).map fun j => exampleInput (3 + j)) :=
  small_inplace_exclusive_scan_slots (fun a b : Int => a + b) Int.add_assoc 5 exampleInput 3 10

/-- C14: for a zero-length input (`first == last`) the tile loop of the tiled `inclusive_scan`
and `exclusive_scan` on a `static_execution_group` runs no iteration: whatever the operator
is, the destination is returned as it was and the carry is `init`; `exclusive_scan` returns
`result`. -/
theorem scan_static_empty {α : Type} (inclusive : Bool) (op : α → α → α)
    (groupsize grainsize : Nat) (u : Uninit α) (staged_in staged_out : Bool)
    (buffer src : Mem α) (first : Nat) (dst : Mem α) (result : Nat) (init : α) :
    scan_with_buffer inclusive op groupsize grainsize u staged_in staged_out src first first dst
        result init buffer = some (dst, init) ∧
    inclusive_scan_static op groupsize grainsize u staged_in staged_out buffer src first first
        dst result init = some dst ∧
    exclusive_scan_static op groupsize grainsize u staged_in staged_out buffer src first first
        dst result init = some (dst, result) := by
  have h : ∀ inc : Bool,
      scan_with_buffer inc op groupsize grainsize u staged_in staged_out src first first dst
        result init buffer = some (dst, init) := by
    intro inc
    simp [scan_with_buffer, scan_with_buffer_loop]
  exact ⟨h inclusive, by simp [inclusive_scan_static, h], by simp [exclusive_scan_static, h]⟩

/-! ## The launch configuration -/

theorem divide_ri_mul_ge (w n b : Nat) (hb : 0 < b) (hfit : n + (b - 1) < 2 ^ w) :
    n ≤ divide_ri w n b * b := by
  unfold divide_ri
  rw [Nat.mod_eq_of_lt hfit]
  have h1 := Nat.div_add_mod (n + (b - 1)) b
  have h2 := Nat.mod_lt (n + (b - 1)) hb
  rw [Nat.mul_comm] at h1
  omega

theorem divide_ri_pred_mul_lt (w n b : Nat) (hb : 0 < b) (hn : 0 < n)
    (hfit : n + (b - 1) < 2 ^ w) : (divide_ri w n b - 1) * b < n := by
  unfold divide_ri
  rw [Nat.mod_eq_of_lt hfit]
  have h1 := Nat.div_add_mod (n + (b - 1)) b
  rw [Nat.mul_comm] at h1
  rw [Nat.sub_mul, Nat.one_mul]
  omega

/-- C16, where the claim fails: in a size type of 64 bits, `2 ^ 64 - 1` threads and a chosen
block size of 32: the sum `num_threads + (32 - 1)` wraps to 30, `divide_ri` yields 0 and
`configure` sets `num_groups` to 0, so `num_groups * B ≥ num_threads` does not hold. -/
theorem configure_dynamic_num_groups_wraps :
    (configure_dynamic 64 4294967295 ⟨32, fun _ => 8, fun _ => 6144⟩
        ⟨0, 4294967295, 4294967295, 4294967295, 18446744073709551615⟩).num_groups = 0 ∧
    ¬ 18446744073709551615 ≤
      (configure_dynamic 64 4294967295 ⟨32, fun _ => 8, fun _ => 6144⟩
        ⟨0, 4294967295, 4294967295, 4294967295, 18446744073709551615⟩).num_groups * 32 := by
  decide

/-- C16 as amended: for a dynamic-size group whose `threads_per_group` is `use_default`,
`configure` sets the group size to the block size `B` the occupancy query chooses and
`num_groups` to `divide_ri(num_threads, B)`; when `B > 0` and the sum `num_threads + (B - 1)`
does not overflow the size type (it is below `2 ^ w`), this is the quotient rounded up:
`num_groups * B ≥ num_threads`, and `(num_groups - 1) * B < num_threads` when
`num_threads > 0`. -/
theorem configure_dynamic_num_groups (w use_default : Nat) (occ : Occupancy)
    (l : LaunchConfig) (hdef : l.num_threads_per_group = use_default)
    (hB : 0 < choose_block_size occ)
    (hfit : l.num_threads + (choose_block_size occ - 1) < 2 ^ w) :
    (configure_dynamic w use_default occ l).num_threads_per_group = choose_block_size occ ∧
    (configure_dynamic w use_default occ l).num_groups
      = divide_ri w l.num_threads (choose_block_size occ) ∧
    l.num_threads ≤ (configure_dynamic w use_default occ l).num_groups * choose_block_size occ ∧
    (0 < l.num_threads →
      ((configure_dynamic w use_default occ l).num_groups - 1) * choose_block_size occ
        < l.num_threads) := by
  have h1 : (configure_dynamic w use_default occ l).num_threads_per_group
      = choose_block_size occ := by
    unfold configure_dynamic
    simp only [hdef, if_true]
    split <;> rfl
  have h2 : (configure_dynamic w use_default occ l).num_groups
      = divide_ri w l.num_threads (choose_block_size occ) := by
    unfold configure_dynamic
    simp only [hdef, if_true]
    split <;> rfl
  refine ⟨h1, h2, ?_, fun hn => ?_⟩
  · rw [h2]; exact divide_ri_mul_ge _ _ _ hB hfit
  · rw [h2]; exact divide_ri_pred_mul_lt _ _ _ hB hn hfit

/-- Witness of C16 as amended: in a size type of 64 bits, 100 threads and a chosen block size
of 32 give 4 groups. -/
theorem configure_dynamic_num_groups_example :
    (configure_dynamic 64 4294967295 ⟨32, fun _ => 8, fun _ => 6144⟩
        ⟨0, 4294967295, 4294967295, 4294967295, 100⟩).num_threads_per_group = 32 ∧
    (configure_dynamic 64 4294967295 ⟨32, fun _ => 8, fun _ => 6144⟩
        ⟨0, 4294967295, 4294967295, 4294967295, 100⟩).num_groups = 4 ∧
    100 ≤ (configure_dynamic 64 4294967295 ⟨32, fun _ => 8, fun _ => 6144⟩
        ⟨0, 4294967295, 4294967295, 4294967295, 100⟩).num_groups * 32 ∧
    (0 < 100 →
      ((configure_dynamic 64 4294967295 ⟨32, fun _ => 8, fun _ => 6144⟩
        ⟨0, 4294967295, 4294967295, 4294967295, 100⟩).num_groups - 1) * 32 < 100) :=
  configure_dynamic_num_groups 64 4294967295 ⟨32, fun _ => 8, fun _ => 6144⟩
    ⟨0, 4294967295, 4294967295, 4294967295, 100⟩ rfl (by decide) (by decide)

/-- C17, where the claim fails: a caller sets `num_groups` to 5 and leaves `threads_per_group`
at `use_default`; with 100 threads and a chosen block size of 32 `configure` replaces the 5
by 4. -/
theorem configure_dynamic_overwrites_num_groups :
    (5 : Nat) ≠ 4294967295 ∧
    (configure_dynamic 64 4294967295 ⟨32, fun _ => 8, fun _ => 6144⟩
        ⟨0, 5, 4294967295, 0, 100⟩).num_groups = 4 := by
  decide

/-- C17 as amended: `configure` for a dynamic-size group replaces `threads_per_group` only
when it is `use_default`, replaces `num_groups` exactly when `threads_per_group` is
`use_default` (whatever `num_groups` was), and replaces `smem_bytes_per_group` only when it
is `use_default`; for a static-size group it never changes `num_groups` or the group size
and replaces `smem_bytes_per_group` only when it is `use_default`.  Neither touches the
stream or `m_num_threads`. -/
theorem configure_changes_only_defaults (w use_default : Nat) (occ : Occupancy)
    (l : LaunchConfig) :
    ((configure_dynamic w use_default occ l).num_threads_per_group
        = if l.num_threads_per_group = use_default then choose_block_size occ
          else l.num_threads_per_group) ∧
    ((configure_dynamic w use_default occ l).num_groups
        = if l.num_threads_per_group = use_default then
            divide_ri w l.num_threads (choose_block_size occ)
          else l.num_groups) ∧
    ((configure_dynamic w use_default occ l).num_smem_bytes_per_group
        = if l.num_smem_bytes_per_group = use_default then
            choose_smem_size occ (configure_dynamic w use_default occ l).num_threads_per_group
          else l.num_smem_bytes_per_group) ∧
    (configure_dynamic w use_default occ l).stream = l.stream ∧
    (configure_dynamic w use_default occ l).num_threads = l.num_threads ∧
    (configure_static use_default occ l).num_groups = l.num_groups ∧
    (configure_static use_default occ l).num_threads_per_group = l.num_threads_per_group ∧
    ((configure_static use_default occ l).num_smem_bytes_per_group
        = if l.num_smem_bytes_per_group = use_default then
            choose_smem_size occ l.num_threads_per_group
          else l.num_smem_bytes_per_group) ∧
    (configure_static use_default occ l).stream = l.stream ∧
    (configure_static use_default occ l).num_threads = l.num_threads := by
  unfold configure_dynamic configure_static
  by_cases h1 : l.num_threads_per_group = use_default <;>
    by_cases h2 : l.num_smem_bytes_per_group = use_default <;>
    simp [h1, h2]

/-- C15: `launcher::go` configures first; when `num_groups()` or `num_threads_per_group()`
is then zero it calls nothing (no event, no launch) and returns a future in the
configuration's stream; when both are positive and the runtime calls report success it
creates, waits on and destroys the event, launches the kernel and returns a future in the
configuration's stream; whatever the runtime reports it launches only if both are positive;
and whenever it returns a future, the future is in the configuration's stream and the kernel
was launched exactly when both are positive. -/
theorem launcher_go_launches_iff (configure : LaunchConfig → LaunchConfig) (rt : Runtime)
    (l : LaunchConfig) :
    (¬ (0 < (configure l).num_groups ∧ 0 < (configure l).num_threads_per_group) →
      launcher_go configure rt l = ⟨[], some (configure l).stream⟩) ∧
    (0 < (configure l).num_groups ∧ 0 < (configure l).num_threads_per_group →
      rt.eventCreateWithFlags = 0 ∧ rt.streamWaitEvent = 0 ∧ rt.eventDestroy = 0 ∧
        rt.synchronize = 0 →
      launcher_go configure rt l =
        ⟨[Effect.eventCreateWithFlags, Effect.streamWaitEvent (configure l).stream,
          Effect.eventDestroy,
          Effect.launch ((configure l).num_groups % 2 ^ 32)
            ((configure l).num_threads_per_group % 2 ^ 32)
            (configure l).num_smem_bytes_per_group (configure l).stream,
          Effect.synchronize], some (configure l).stream⟩) ∧
    (∀ g t s st, Effect.launch g t s st ∈ (launcher_go configure rt l).effects →
      0 < (configure l).num_groups ∧ 0 < (configure l).num_threads_per_group) ∧
    (∀ st, (launcher_go configure rt l).future = some st →
      st = (configure l).stream ∧
      (Effect.launch ((configure l).num_groups % 2 ^ 32)
          ((configure l).num_threads_per_group % 2 ^ 32)
          (configure l).num_smem_bytes_per_group (configure l).stream
            ∈ (launcher_go configure rt l).effects ↔
        0 < (configure l).num_groups ∧ 0 < (configure l).num_threads_per_group)) := by
  refine ⟨fun h => ?_, fun h hrt => ?_, fun g t s st hmem => ?_, fun st hst => ?_⟩
  · unfold launcher_go
    simp only [gt_iff_lt]
    rw [if_neg h]
  · obtain ⟨h1, h2, h3, h4⟩ := hrt
    unfold launcher_go
    simp only [gt_iff_lt]
    rw [if_pos h]
    simp [h1, h2, h3, h4]
  · by_contra h
    have : launcher_go configure rt l = ⟨[], some (configure l).stream⟩ := by
      unfold launcher_go
      simp only [gt_iff_lt]
      rw [if_neg h]
    rw [this] at hmem
    simp at hmem
  · unfold launcher_go at hst ⊢
    simp only [gt_iff_lt] at hst ⊢
    by_cases h : 0 < (configure l).num_groups ∧ 0 < (configure l).num_threads_per_group
    · rw [if_pos h] at hst ⊢
      by_cases h1 : rt.eventCreateWithFlags = 0
      · by_cases h2 : rt.streamWaitEvent = 0
        · by_cases h3 : rt.eventDestroy = 0
          · by_cases h4 : rt.synchronize = 0
            · simp [h1, h2, h3, h4] at hst ⊢
              exact ⟨hst.symm, h⟩
            · simp [h1, h2, h3, h4] at hst
          · simp [h1, h2, h3] at hst
        · simp [h1, h2] at hst
      · simp [h1] at hst
    · rw [if_neg h] at hst ⊢
      simp at hst ⊢
      exact ⟨hst.symm, fun hg => by omega⟩

/-- Witness of C15: a configuration of 100 threads with everything left at `use_default` is
configured to 4 groups of 32 and launched in stream 7; with zero threads nothing is done. -/
theorem launcher_go_example :
    launcher_go (configure_dynamic 64 4294967295 ⟨32, fun _ => 8, fun _ => 6144⟩) ⟨0, 0, 0, 0⟩
        ⟨7, 4294967295, 4294967295, 4294967295, 100⟩
      = ⟨[Effect.eventCreateWithFlags, Effect.streamWaitEvent 7, Effect.eventDestroy,
          Effect.launch 4 32 6144 7, Effect.synchronize], some 7⟩ ∧
    launcher_go (configure_dynamic 64 4294967295 ⟨32, fun _ => 8, fun _ => 6144⟩) ⟨0, 0, 0, 0⟩
        ⟨7, 4294967295, 4294967295, 4294967295, 0⟩
      = ⟨[], some 7⟩ :=
  ⟨(launcher_go_launches_iff (configure_dynamic 64 4294967295 ⟨32, fun _ => 8, fun _ => 6144⟩)
      ⟨0, 0, 0, 0⟩ ⟨7, 4294967295, 4294967295, 4294967295, 100⟩).2.1 (by decide) (by decide),
    (launcher_go_launches_iff (configure_dynamic 64 4294967295 ⟨32, fun _ => 8, fun _ => 6144⟩)
      ⟨0, 0, 0, 0⟩ ⟨7, 4294967295, 4294967295, 4294967295, 0⟩).1 (by decide)⟩

/-! ## What the single-tile scan writes -/

theorem scan_rounds_frame {α : Type} (op : α → α → α) (size first : Nat) (mem0 : Mem α) :
    ∀ fuel offset mem x, 0 < offset → size - offset < fuel →
      (∀ p, (p < first ∨ first + size ≤ p) → mem p = mem0 p) →
      ∃ r, scan_rounds op size first fuel offset mem x = some r ∧
        ∀ p, (p < first ∨ first + size ≤ p) → r.1 p = mem0 p := by
  intro fuel
  induction fuel with
  | zero => intro offset mem x _ h; omega
  | succ k ih =>
    intro offset mem x hpos hfuel hframe
    unfold scan_rounds
    by_cases hlt : offset < size
    · rw [if_pos hlt]
      obtain ⟨m1, hm1, hm1v⟩ := forUnits_write_all size first
        (fun tid => if tid ≥ offset then op (mem (first + (tid - offset))) (x tid) else x tid) mem
      simp only [hm1, Option.bind_eq_bind, Option.some_bind]
      apply ih (offset + offset) m1 _ (by omega) (by omega)
      intro p hp
      rw [hm1v, if_neg (by omega)]
      exact hframe p hp
    · rw [if_neg hlt]
      exact ⟨(mem, x), rfl, hframe⟩

/-- For any operator `small_inplace_exclusive_scan` returns and writes only the `size` slots
`first[0 .. size)`. -/
theorem small_inplace_exclusive_scan_frame {α : Type} (op : α → α → α) (size : Nat)
    (mem : Mem α) (first : Nat) (init : α) :
    ∃ mem1 carry, small_inplace_exclusive_scan op size mem first init = some (mem1, carry) ∧
      ∀ p, (p < first ∨ first + size ≤ p) → mem1 p = mem p := by
  obtain ⟨m1, hm1, hm1v⟩ := forUnits_inv size
    (fun tid m => some (if tid = 0 then m.write (first + 0) (op init (m (first + 0))) else m))
    (fun k d => ∀ p, (p < first ∨ first + size ≤ p ∨ k = 0) → d p = mem p)
    mem (fun _ _ => rfl)
    (by
      intro tid ht d hd
      refine ⟨_, rfl, ?_⟩
      intro p hp
      by_cases h0 : tid = 0
      · rw [if_pos h0, Mem.write_other _ _ _ _ (by omega)]
        exact hd p (Or.inr (Or.inr h0))
      · rw [if_neg h0]
        exact hd p (by omega))
  obtain ⟨r, hr, hrv⟩ := scan_rounds_frame op size first mem (size + 1) 1 m1
    (fun t => m1 (first + t)) (by omega) (by omega)
    (fun p hp => hm1v p (by omega))
  obtain ⟨m3, hm3, hm3v⟩ := forUnits_write_all size first
    (fun tid => if tid = 0 then init else r.1 (first + (tid - 1))) r.1
  refine ⟨m3, r.1 (first + (size - 1)), ?_, ?_⟩
  · unfold small_inplace_exclusive_scan
    simp only [hm1, hr, hm3, Option.bind_eq_bind, Option.some_bind, Option.pure_def]
  · intro p hp
    rw [hm3v, if_neg (by omega)]
    exact hrv p hp

/-- The steps of `scan_detail::scan` for any operator: the slots after the per-unit sums are
stored, the group-wide scan of the slots, and the per-unit scans, which write only the first
`len` destination cells. -/
theorem scan_phases {α : Type} (inclusive : Bool) (op : α → α → α) (groupsize grainsize : Nat)
    (u : Uninit α) (src : Mem α) (first len : Nat) (dst : Mem α) (result : Nat)
    (carry_in : α) :
    ∃ dst1 dst2 dst3 carry,
      (∀ p, dst1 p =
        if result ≤ p ∧ p - result < groupsize ∧
            local_size grainsize (((first + len : Nat) : Int) - (first : Int)) (p - result) ≠ 0
        then scan_local_sum op grainsize u src first
          (((first + len : Nat) : Int) - (first : Int)) (p - result)
        else dst p) ∧
      small_inplace_exclusive_scan op groupsize dst1 result carry_in = some (dst2, carry) ∧
      (∀ p, (p < result ∨ result + len ≤ p) → dst3 p = dst2 p) ∧
      scan inclusive op groupsize grainsize u src first (first + len) dst result carry_in
        = some (dst3, carry) := by
  obtain ⟨dst1, hd1, hd1v⟩ := forUnits_write_guarded groupsize
    (fun tid => local_size grainsize (((first + len : Nat) : Int) - (first : Int)) tid ≠ 0)
    result
    (fun tid => scan_local_sum op grainsize u src first
      (((first + len : Nat) : Int) - (first : Int)) tid) dst
  obtain ⟨dst2, carry, hd2, _⟩ :=
    small_inplace_exclusive_scan_frame op groupsize dst1 result carry_in
  obtain ⟨dst3, hd3, hd3v⟩ := forUnits_inv groupsize
    (fun tid d =>
      some (if inclusive then
        (inclusive_scan_bounded grainsize op
          (scan_local_inputs grainsize u src first (((first + len : Nat) : Int) - (first : Int))
            tid) 0
          (0 + local_size grainsize (((first + len : Nat) : Int) - (first : Int)) tid) d
          (result + grainsize * tid)
          (if local_size grainsize (((first + len : Nat) : Int) - (first : Int)) tid ≠ 0 then
            dst2 (result + tid)
          else scan_local_sum op grainsize u src first
            (((first + len : Nat) : Int) - (first : Int)) tid)).1
      else
        (exclusive_scan_bounded grainsize op
          (scan_local_inputs grainsize u src first (((first + len : Nat) : Int) - (first : Int))
            tid) 0
          (0 + local_size grainsize (((first + len : Nat) : Int) - (first : Int)) tid) d
          (result + grainsize * tid)
          (if local_size grainsize (((first + len : Nat) : Int) - (first : Int)) tid ≠ 0 then
            dst2 (result + tid)
          else scan_local_sum op grainsize u src first
            (((first + len : Nat) : Int) - (first : Int)) tid)).1))
    (fun _ d => ∀ p, (p < result ∨ result + len ≤ p) → d p = dst2 p)
    dst2 (fun _ _ => rfl)
    (by
      intro tid _ d hP
      refine ⟨_, rfl, ?_⟩
      intro p hp
      rw [bounded_scan_spec inclusive grainsize op _ 0 _ (by rw [local_size_eq]; omega)]
      rw [local_size_eq, if_neg (by omega)]
      exact hP p hp)
  refine ⟨dst1, dst2, dst3, carry, hd1v, hd2, hd3v, ?_⟩
  unfold scan
  simp only [hd1, hd2, hd3, Option.bind_eq_bind, Option.some_bind, Option.pure_def]

/-- C11, where the claim fails: on a `bounded_static_execution_group` of two units of grain 1
with integer addition, carry-in 10, a zero-length input and a destination holding
`1, 2, 3, ...`, the scan leaves 10 and 11 in `result[0]` and `result[1]` and returns the
carry 13. -/
theorem scan_empty_input_writes_slots :
    exampleInput 0 = 1 ∧ exampleInput 1 = 2 ∧
    (scan true (fun a b : Int => a + b) 2 1 exampleUninit exampleInput 0 (0 + 0) exampleInput 0
        10).map (fun r => (r.1 0, r.1 1, r.2))
      = some (10, 11, 13) := by
  decide

/-- C11 as amended: for any operator and any `n`, the single-tile scan on a
`bounded_static_execution_group` returns and modifies only destination positions below
`n` or below `groupsize`: every result element at an index that is at least `n` and at least
`groupsize` keeps its previous value, and so does every cell before `result`. -/
theorem scan_writes_only_below_n_or_groupsize {α : Type} (inclusive : Bool) (op : α → α → α) (groupsize grainsize : Nat)
    (u : Uninit α) (src : Mem α) (first n : Nat) (dst : Mem α) (result : Nat) (carry_in : α) :
    ∃ dst1 carry,
      scan inclusive op groupsize grainsize u src first (first + n) dst result carry_in
        = some (dst1, carry) ∧
      (∀ i, n ≤ i → groupsize ≤ i → dst1 (result + i) = dst (result + i)) ∧
      ∀ p, p < result → dst1 p = dst p := by
  obtain ⟨d1, d2, d3, carry, hd1, hd2, hd3, h⟩ :=
    scan_phases inclusive op groupsize grainsize u src first n dst result carry_in
  obtain ⟨d2', carry', hd2', hfr⟩ :=
    small_inplace_exclusive_scan_frame op groupsize d1 result carry_in
  rw [hd2] at hd2'
  have e : d2 = d2' := by injection hd2' with h1; exact congrArg Prod.fst h1
  subst e
  refine ⟨d3, carry, h, fun i hn hg => ?_, fun p hp => ?_⟩
  · rw [hd3 _ (by omega), hfr _ (by omega), hd1, if_neg (by omega)]
  · rw [hd3 _ (by omega), hfr _ (by omega), hd1, if_neg (by omega)]

/-! ## The carry -/

/-- When every unit owns at least one element, the carry `scan_detail::scan` returns is the
left fold of `carry_in` and the `n` inputs. -/
theorem scan_carry_spec {α : Type} (inclusive : Bool) (op : α → α → α)
    (hassoc : ∀ a b c, op (op a b) c = op a (op b c)) (groupsize grainsize : Nat)
    (u : Uninit α) (src : Mem α) (first n : Nat) (hlow : grainsize * (groupsize - 1) < n)
    (hhigh : n ≤ groupsize * grainsize) (dst : Mem α) (result : Nat) (carry_in : α) :
    ∃ dst1,
      scan inclusive op groupsize grainsize u src first (first + n) dst result carry_in
        = some (dst1, lfold op carry_in (fun i => src (first + i)) n) := by
  obtain ⟨d1, d2, d3, carry, hd1, hd2, _, h⟩ :=
    scan_phases inclusive op groupsize grainsize u src first n dst result carry_in
  obtain ⟨d2', carry', hd2', _, _, hcarry⟩ :=
    small_inplace_exclusive_scan_spec op hassoc groupsize d1 result carry_in
  rw [hd2] at hd2'
  have e : carry = carry' := by injection hd2' with h1; exact congrArg Prod.snd h1
  subst e
  obtain ⟨k, rfl⟩ : ∃ k, groupsize = k + 1 := by
    rcases Nat.eq_zero_or_pos groupsize with h0 | h0
    · rw [h0, Nat.zero_mul] at hhigh; omega
    · exact ⟨groupsize - 1, by omega⟩
  have hg : 0 < grainsize := by
    rcases Nat.eq_zero_or_pos grainsize with h0 | h0
    · rw [h0, Nat.mul_zero] at hhigh; omega
    · exact h0
  have hk : k + 1 - 1 = k := by omega
  rw [hk] at hlow
  have hmul : (k + 1) * grainsize = grainsize * k + grainsize := by
    rw [Nat.mul_comm, Nat.mul_succ]
  rw [hmul] at hhigh
  have hslot : ∀ t, t < k + 1 →
      d1 (result + t) = seg op (fun i => src (first + i)) (grainsize * t)
        (min grainsize (n - grainsize * t) - 1) := by
    intro t ht
    have hle : grainsize * t ≤ grainsize * k := Nat.mul_le_mul_left grainsize (by omega)
    have e : result + t - result = t := by omega
    rw [hd1, e, local_size_eq, if_pos ⟨by omega, ht, by omega⟩,
      scan_local_sum_eq op grainsize u src first n t hg (by omega)]
  refine ⟨d3, ?_⟩
  rw [h, hcarry (by omega)]
  congr 2
  show op (lfold op carry_in (fun i => d1 (result + i)) k) (d1 (result + k)) = _
  rw [lfold_blocks op hassoc carry_in (fun i => d1 (result + i)) (fun i => src (first + i))
      grainsize hg k
      (fun t ht => by
        have hle : grainsize * (t + 1) ≤ grainsize * k := Nat.mul_le_mul_left grainsize ht
        rw [Nat.mul_succ] at hle
        dsimp only
        rw [hslot t (by omega)]
        congr 1
        omega),
    hslot k (by omega), lfold_seg op hassoc]
  congr 1
  omega

theorem scan_with_buffer_loop_carry {α : Type} (inclusive : Bool) (op : α → α → α)
    (hassoc : ∀ a b c, op (op a b) c = op a (op b c)) (groupsize grainsize : Nat)
    (hgs : 0 < groupsize) (hgr : 0 < grainsize) (hfit : groupsize * grainsize < 2 ^ 31)
    (u : Uninit α) (staged_in staged_out : Bool) (src : Mem α) (last : Nat) :
    ∀ fuel first result carry_in stage dst, last - first < fuel → last - first < 2 ^ 31 →
      ((last - first) % (groupsize * grainsize) = 0 ∨
        grainsize * (groupsize - 1) < (last - first) % (groupsize * grainsize)) →
      ∃ dst1,
        scan_with_buffer_loop inclusive op groupsize grainsize u staged_in staged_out src last
          fuel first result carry_in stage dst
          = some (dst1, lfold op carry_in (fun i => src (first + i)) (last - first)) := by
  have hepg : 0 < groupsize * grainsize := Nat.mul_pos hgs hgr
  have hmul : groupsize * grainsize = grainsize * (groupsize - 1) + grainsize := by
    obtain ⟨k, rfl⟩ : ∃ k, groupsize = k + 1 := ⟨groupsize - 1, by omega⟩
    rw [Nat.mul_comm, Nat.mul_succ]
    rfl
  intro fuel
  induction fuel with
  | zero => intro first result carry_in stage dst h; omega
  | succ k ih =>
    intro first result carry_in stage dst hfuel hrem hlast
    rw [scan_with_buffer_loop_fits inclusive op groupsize grainsize hfit u staged_in staged_out
      src last k first result carry_in stage dst hrem]
    by_cases hfl : first < last
    · rw [if_pos hfl]
      obtain ⟨stage1, hs1, _, hs1v⟩ := copy_n_spec staged_in groupsize grainsize hgs hgr src
        first (min (groupsize * grainsize) (last - first)) u.stage stage 0
      have hall : grainsize * (groupsize - 1) < min (groupsize * grainsize) (last - first) := by
        by_cases hfull : groupsize * grainsize ≤ last - first
        · omega
        · rw [Nat.mod_eq_of_lt (by omega)] at hlast
          omega
      obtain ⟨stage2, hs2⟩ := scan_carry_spec inclusive op hassoc groupsize grainsize u stage1
        0 (min (groupsize * grainsize) (last - first)) hall (Nat.min_le_left _ _) stage1 0
        carry_in
      obtain ⟨dst1, hd1, _, _⟩ := copy_n_spec staged_out groupsize grainsize hgs hgr
        stage2 0 (min (groupsize * grainsize) (last - first)) u.stage dst result
      have hc : lfold op carry_in (fun i => stage1 (0 + i))
            (min (groupsize * grainsize) (last - first))
          = lfold op carry_in (fun i => src (first + i))
            (min (groupsize * grainsize) (last - first)) :=
        lfold_congr op carry_in _ _ _ (fun i hi => hs1v i hi)
      rw [hc] at hs2
      simp only [hs1, hs2, hd1, Option.bind_eq_bind, Option.some_bind]
      obtain ⟨dst2, hd2⟩ := ih (first + groupsize * grainsize) (result + groupsize * grainsize)
        (lfold op carry_in (fun i => src (first + i))
          (min (groupsize * grainsize) (last - first))) stage2 dst1 (by omega) (by omega)
        (by
          by_cases hfull : groupsize * grainsize ≤ last - first
          · rw [Nat.mod_eq_sub_mod hfull] at hlast
            have e : last - (first + groupsize * grainsize)
                = last - first - groupsize * grainsize := by omega
            rw [e]
            exact hlast
          · have e : last - (first + groupsize * grainsize) = 0 := by omega
            rw [e]
            exact Or.inl (Nat.zero_mod _))
      refine ⟨dst2, ?_⟩
      rw [hd2]
      congr 2
      rw [lfold_congr op _ (fun i => src (first + groupsize * grainsize + i))
        (fun i => (fun i => src (first + i))
          (min (groupsize * grainsize) (last - first) + i)) _
        (fun i hi => by
          dsimp only
          by_cases hfull : groupsize * grainsize ≤ last - first
          · congr 1; omega
          · omega), lfold_add]
      congr 1
      omega
    · rw [if_neg hfl]
      have e : last - first = 0 := by omega
      rw [e]
      exact ⟨dst, rfl⟩

/-- C12, where the claim fails: on a `bounded_static_execution_group` of four units of grain
1 with integer addition, carry-in 0 and the partial tile `[1,2,3]` staged in a buffer that
holds 4 in its fourth cell, the idle fourth unit's slot is folded into the carry: the scan
returns 10, not `1 + 2 + 3 = 6`. -/
theorem scan_carry_partial_tile_stale :
    (scan true (fun a b : Int => a + b) 4 1 exampleUninit exampleInput 0 (0 + 3) exampleInput 0
        0).map Prod.snd = some 10 ∧
    List.foldl (fun a b : Int => a + b) 0 ((List.range 3).map fun j => exampleInput (0 + j))
      = 6 := by
  decide

/-- C12 as amended: for an associative operator and a tile of `n ≤ groupsize * grainsize`
elements in which every unit owns at least one element
(`grainsize * (groupsize - 1) < n`, in particular a full tile), the carry
`scan_detail::scan` returns is the left fold of the operator over `carry_in, input[0..n-1]`;
hence, when the tile size and the length of the input fit the `int` size type of
`scan_with_buffer` (both below `2 ^ 31`) and the length is a multiple of the tile size or
its last tile gives every unit an element, the carry leaving the tile loop is the fold over
the whole input. -/
theorem scan_carry_correct {α : Type} (inclusive : Bool) (op : α → α → α)
    (hassoc : ∀ a b c, op (op a b) c = op a (op b c)) (groupsize grainsize : Nat)
    (u : Uninit α) (src : Mem α) (first n : Nat) (dst : Mem α) (result : Nat) (carry_in : α) :
    (grainsize * (groupsize - 1) < n → n ≤ groupsize * grainsize →
      ∃ dst1,
        scan inclusive op groupsize grainsize u src first (first + n) dst result carry_in
          = some (dst1,
              List.foldl op carry_in ((List.range n).map fun j => src (first + j)))) ∧
    (0 < groupsize → 0 < grainsize → groupsize * grainsize < 2 ^ 31 → n < 2 ^ 31 →
      (n % (groupsize * grainsize) = 0 ∨
        grainsize * (groupsize - 1) < n % (groupsize * grainsize)) →
      ∀ (staged_in staged_out : Bool) (buffer : Mem α),
      ∃ dst1,
        scan_with_buffer inclusive op groupsize grainsize u staged_in staged_out src first
            (first + n) dst result carry_in buffer
          = some (dst1,
              List.foldl op carry_in ((List.range n).map fun j => src (first + j)))) := by
  refine ⟨fun hlow hhigh => ?_, fun hgs hgr hfit hn hlast staged_in staged_out buffer => ?_⟩
  · rw [← lfold_eq_foldl]
    exact scan_carry_spec inclusive op hassoc groupsize grainsize u src first n hlow hhigh dst
      result carry_in
  · rw [← lfold_eq_foldl]
    have e : first + n - first = n := by omega
    obtain ⟨dst1, h⟩ := scan_with_buffer_loop_carry inclusive op hassoc groupsize grainsize
      hgs hgr hfit u staged_in staged_out src (first + n) (first + n - first + 1) first result
      carry_in buffer dst (by omega) (by omega) (by rw [e]; exact hlast)
    refine ⟨dst1, ?_⟩
    unfold scan_with_buffer
    rw [h, e]

/-- Witness of C12 as amended: group size 4, grain 1, integer addition, carry-in 0: the full
tile `[1,2,3,4]` returns the carry 10, and the input `[1..8]` leaves the tile loop with the
carry 36. -/
theorem scan_carry_example :
    (∃ dst1,
      scan true (fun a b : Int => a + b) 4 1 exampleUninit exampleInput 0 (0 + 4) exampleZeros 0
        0 = some (dst1, 10)) ∧
    ∃ dst1,
      scan_with_buffer true (fun a b : Int => a + b) 4 1 exampleUninit false false exampleInput
        0 (0 + 8) exampleZeros 0 0 exampleZeros = some (dst1, 36) :=
  ⟨(scan_carry_correct true (fun a b : Int => a + b) Int.add_assoc 4 1 exampleUninit
      exampleInput 0 4 exampleZeros 0 0).1 (by decide) (by decide),
    (scan_carry_correct true (fun a b : Int => a + b) Int.add_assoc 4 1 exampleUninit
      exampleInput 0 8 exampleZeros 0 0).2 (by decide) (by decide) (by decide) (by decide)
      (by decide) false false exampleZeros⟩

/-! ## The scan without an init -/

/-- The scan without an init on an input whose `last - (first + 1)` elements after the first
do not fit an `int` (and no unit's difference wraps): it returns, and the cells of the first
tile after `result[0]` stay as they were. -/
theorem inclusive_scan_static_noinit_skips_tile {α : Type} (op : α → α → α)
    (hassoc : ∀ a b c, op (op a b) c = op a (op b c)) (groupsize grainsize : Nat)
    (hgs : 0 < groupsize) (hgr : 0 < grainsize) (hfit : groupsize * grainsize < 2 ^ 31)
    (u : Uninit α) (staged_in : Bool) (buffer src : Mem α) (first last : Nat) (dst : Mem α)
    (result : Nat) (hlo : 2 ^ 31 + grainsize * (groupsize - 1) ≤ last - (first + 1))
    (hhi : last - (first + 1) < 2 ^ 31 + groupsize * grainsize) :
    ∃ dst1,
      inclusive_scan_static_noinit op groupsize grainsize u staged_in false buffer src first
        last dst result = some (dst1, result + (last - first)) ∧
      ∀ p, result < p → p < result + 1 + groupsize * grainsize → dst1 p = dst p := by
  obtain ⟨d1, hd1, hd1v⟩ := forUnits_inv groupsize
    (fun tid d => some (if tid = 0 then d.write result (src first) else d))
    (fun _ d => ∀ p, p ≠ result → d p = dst p) dst (fun _ _ => rfl)
    (by
      intro tid _ d hd
      refine ⟨_, rfl, fun p hp => ?_⟩
      split
      · rw [Mem.write_other _ _ _ _ hp]
        exact hd p hp
      · exact hd p hp)
  obtain ⟨d, c, h, hf⟩ := scan_with_buffer_loop_skips_tile true op hassoc groupsize grainsize
    hgs hgr hfit u staged_in src last (last - (first + 1)) (first + 1) (result + 1) (src first)
    buffer d1 (by omega) hlo hhi
  refine ⟨d, ?_, fun p hp1 hp2 => (hf p hp2).trans (hd1v p (by omega))⟩
  unfold inclusive_scan_static_noinit
  rw [if_pos (by omega)]
  simp only [hd1, Option.bind_eq_bind, Option.some_bind, inclusive_scan_static,
    scan_with_buffer, h, Option.map_some', Option.pure_def]

/-- C13, where the claim fails: group size 4, grain 1, integer addition and the input
`1, 2, 3, ...` of `2 ^ 31 + 4` elements.  Unit 0 stores `input[0]` in `result[0]`; the scan of
the `2 ^ 31 + 3` elements that follow handles its first tile as an empty one (the length
becomes the `int` `-2 ^ 31 + 3`), so `result[1]` ends as it was, 0, where the claim has
`1 + 2 = 3`. -/
theorem inclusive_scan_static_noinit_skips_first_tile :
    (inclusive_scan_static_noinit (fun a b : Int => a + b) 4 1 exampleUninit false false
        exampleZeros exampleInput 0 (0 + 2147483652) exampleZeros 0).map
      (fun r => r.1 (0 + 1)) = some 0 ∧
    List.foldl (fun a b : Int => a + b) (exampleInput 0)
      ((List.range 1).map fun j => exampleInput (0 + 1 + j)) = 3 := by
  obtain ⟨d, h, hf⟩ := inclusive_scan_static_noinit_skips_tile (fun a b : Int => a + b)
    Int.add_assoc 4 1 (by decide) (by decide) (by decide) exampleUninit false exampleZeros
    exampleInput 0 (0 + 2147483652) exampleZeros 0 (by omega) (by omega)
  refine ⟨?_, by decide⟩
  rw [h, Option.map_some']
  show some (d (0 + 1)) = some 0
  rw [hf (0 + 1) (by omega) (by omega)]
  rfl

/-- C13 as amended: for an associative operator and an input of `n` elements, where the tile
size `groupsize * grainsize` is below `2 ^ 31` and `n` is at most `2 ^ 31` (the `n - 1`
elements after the first fit the `int` size type of `scan_with_buffer`), the
`inclusive_scan` on a `static_execution_group` without an init returns `result + n` and
leaves `input[0]` in `result[0]` and `input[0] op ... op input[i]`, the left fold seeded by
the first element, in `result[i]` for every `i < n`; for `n = 0` it writes nothing. -/
theorem inclusive_scan_static_noinit_correct {α : Type} (op : α → α → α)
    (hassoc : ∀ a b c, op (op a b) c = op a (op b c)) (groupsize grainsize : Nat)
    (hgs : 0 < groupsize) (hgr : 0 < grainsize) (hfit : groupsize * grainsize < 2 ^ 31)
    (u : Uninit α) (staged_in staged_out : Bool)
    (buffer src : Mem α) (first n : Nat) (hle : n ≤ 2 ^ 31) (dst : Mem α) (result : Nat) :
    ∃ dst1,
      inclusive_scan_static_noinit op groupsize grainsize u staged_in staged_out buffer src
        first (first + n) dst result = some (dst1, result + n) ∧
      (0 < n → dst1 (result + 0) = src (first + 0)) ∧
      (∀ i, i < n → dst1 (result + i)
        = List.foldl op (src first) ((List.range i).map fun j => src (first + 1 + j))) ∧
      (n = 0 → dst1 = dst) := by
  have e : first + n - first = n := by omega
  by_cases hn : n = 0
  · subst hn
    refine ⟨dst, ?_, fun h => by omega, fun i hi => by omega, fun _ => rfl⟩
    simp [inclusive_scan_static_noinit]
  · obtain ⟨d1, hd1, hd1v⟩ := forUnits_inv groupsize
      (fun tid d => some (if tid = 0 then d.write result (src first) else d))
      (fun k d => ∀ p, d p = if 0 < k ∧ p = result then src first else dst p)
      dst (fun p => by simp)
      (by
        intro tid _ d hd
        refine ⟨_, rfl, ?_⟩
        intro p
        by_cases h0 : tid = 0
        · subst h0
          rw [if_pos rfl]
          by_cases hp : p = result
          · rw [hp, Mem.write_same, if_pos ⟨by omega, rfl⟩]
          · rw [Mem.write_other _ _ _ _ hp, hd, if_neg (by omega), if_neg (by omega)]
        · rw [if_neg h0, hd]
          by_cases hp : p = result
          · rw [if_pos ⟨by omega, hp⟩, if_pos ⟨by omega, hp⟩]
          · rw [if_neg (by omega), if_neg (by omega)])
    obtain ⟨d2, carry, hd2, hd2v, hd2f⟩ := scan_with_buffer_loop_spec true op hassoc groupsize
      grainsize hgs hgr hfit u staged_in staged_out src (first + n)
      (first + n - (first + 1) + 1) (first + 1) (result + 1) (src first) buffer d1 (by omega)
      (by omega)
    have h0 : d2 result = src first := by
      rw [hd2f result (by omega), hd1v, if_pos ⟨hgs, rfl⟩]
    refine ⟨d2, ?_, fun _ => h0, fun i hi => ?_, fun h => absurd h hn⟩
    · unfold inclusive_scan_static_noinit
      rw [if_pos (by omega)]
      simp only [hd1, Option.bind_eq_bind, Option.some_bind, inclusive_scan_static,
        scan_with_buffer, hd2, Option.map_some', Option.pure_def, e]
    · rcases Nat.eq_zero_or_pos i with hi0 | hi0
      · subst hi0
        simpa using h0
      · have := hd2v (i - 1) (by omega)
        have e1 : result + 1 + (i - 1) = result + i := by omega
        have e2 : i - 1 + (if true = true then 1 else 0) = i := by
          rw [if_pos rfl]; omega
        rw [e1, e2] at this
        rw [this, lfold_eq_foldl]

/-- Witness of C13 as amended: group size 2, grain 2, integer addition, seven elements. -/
theorem inclusive_scan_static_noinit_example :
    (0 < 2 ∧ 0 < 2 ∧ 2 * 2 < 2 ^ 31 ∧ 7 ≤ 2 ^ 31) ∧
    ∃ dst1,
      inclusive_scan_static_noinit (fun a b : Int => a + b) 2 2 exampleUninit false false
        exampleZeros exampleInput 0 (0 + 7) exampleZeros 0 = some (dst1, 0 + 7) ∧
      (0 < 7 → dst1 (0 + 0) = exampleInput (0 + 0)) ∧
      (∀ i, i < 7 → dst1 (0 + i)
        = List.foldl (fun a b : Int => a + b) (exampleInput 0)
            ((List.range i).map fun j => exampleInput (0 + 1 + j))) ∧
      (7 = 0 → dst1 = exampleZeros) :=
  ⟨⟨by decide, by decide, by decide, by decide⟩,
    inclusive_scan_static_noinit_correct (fun a b : Int => a + b) Int.add_assoc 2 2
      (by decide) (by decide) (by decide) exampleUninit false false exampleZeros exampleInput
      0 7 (by decide) exampleZeros 0⟩

/-! ## The returned carry of the group-wide scan and the frame of the simple copies -/

/-- C21: for a group of `s ≥ 1` units, an associative operator and any init,
`small_inplace_exclusive_scan` returns, and the value it returns (the cell `first[s - 1]`
every unit reads after the last round) is `init op p[0] op ... op p[s-1]`, the left fold of
the incoming carry and all the per-unit sums. -/
theorem small_inplace_exclusive_scan_returns_total {α : Type} (op : α → α → α)
    (hassoc : ∀ a b c, op (op a b) c = op a (op b c)) (size : Nat) (hs : 0 < size)
    (mem : Mem α) (first : Nat) (init : α) :
    ∃ mem1,
      small_inplace_exclusive_scan op size mem first init
        = some (mem1, List.foldl op init ((List.range size).map fun j => mem (first + j))) := by
  obtain ⟨mem1, carry, h, _, _, hc⟩ :=
    small_inplace_exclusive_scan_spec op hassoc size mem first init
  refine ⟨mem1, ?_⟩
  rw [h, hc hs, lfold_eq_foldl]

/-- Witness of C21: five units, integer addition, init 10 and slots `4,5,6,7,8` return 40. -/
theorem small_inplace_exclusive_scan_returns_total_example :
    0 < 5 ∧
    ∃ mem1,
      small_inplace_exclusive_scan (fun a b : Int => a + b) 5 exampleInput 3 10
        = some (mem1, 40) :=
  ⟨by decide,
    small_inplace_exclusive_scan_returns_total (fun a b : Int => a + b) Int.add_assoc 5
      (by decide) exampleInput 3 10⟩

/-- C25: both `simple_copy_n` overloads, the generic one and the one for a
`static_thread_group`, return and write only destination positions below `n`: every cell
before `result` and every cell `result[i]` with `i ≥ n` keeps its value, and with `n = 0` the
destination is unchanged. -/
theorem simple_copy_n_writes_below_n {α : Type} (size grainsize : Nat) (hs : 0 < size)
    (hg : 0 < grainsize) (src : Mem α) (first n : Nat) (dst : Mem α) (result : Nat) :
    (∃ dst1, simple_copy_n size src first n dst result = some dst1 ∧
      (∀ i, n ≤ i → dst1 (result + i) = dst (result + i)) ∧
      (∀ p, p < result → dst1 p = dst p) ∧
      (n = 0 → dst1 = dst)) ∧
    ∃ dst1, simple_copy_n_static size grainsize src first n dst result = some dst1 ∧
      (∀ i, n ≤ i → dst1 (result + i) = dst (result + i)) ∧
      (∀ p, p < result → dst1 p = dst p) ∧
      (n = 0 → dst1 = dst) := by
  have key : ∀ dst1 : Mem α, CopyRel src first result n dst dst1 →
      (∀ i, n ≤ i → dst1 (result + i) = dst (result + i)) ∧
      (∀ p, p < result → dst1 p = dst p) ∧
      (n = 0 → dst1 = dst) := by
    intro dst1 hrel
    refine ⟨fun i hi => hrel.frame _ (Or.inr (by omega)),
      fun p hp => hrel.frame _ (Or.inl hp), fun h0 => ?_⟩
    funext p
    rcases hrel p with h | ⟨j, hj, _, _⟩
    · exact h
    · omega
  obtain ⟨d1, h1, hrel1, _⟩ := simple_copy_n_spec size hs src first n dst result
  obtain ⟨d2, h2, hrel2, _⟩ :=
    simple_copy_n_static_spec size grainsize hs hg src first n dst result
  exact ⟨⟨d1, h1, key d1 hrel1⟩, ⟨d2, h2, key d2 hrel2⟩⟩

/-- Witness of C25: two units of grain 2 copy seven elements to position 5. -/
theorem simple_copy_n_writes_below_n_example :
    (0 < 2 ∧ 0 < 2) ∧
    (∃ dst1, simple_copy_n 2 exampleInput 2 7 exampleZeros 5 = some dst1 ∧
      (∀ i, 7 ≤ i → dst1 (5 + i) = exampleZeros (5 + i)) ∧
      (∀ p, p < 5 → dst1 p = exampleZeros p) ∧
      (7 = 0 → dst1 = exampleZeros)) ∧
    ∃ dst1, simple_copy_n_static 2 2 exampleInput 2 7 exampleZeros 5 = some dst1 ∧
      (∀ i, 7 ≤ i → dst1 (5 + i) = exampleZeros (5 + i)) ∧
      (∀ p, p < 5 → dst1 p = exampleZeros p) ∧
      (7 = 0 → dst1 = exampleZeros) :=
  ⟨⟨by decide, by decide⟩,
    simple_copy_n_writes_below_n 2 2 (by decide) (by decide) exampleInput 2 7 exampleZeros 5⟩

/-! ## The ping-pong variant of the group-wide scan -/

theorem scan_rounds_with_buffer_sim {α : Type} (op : α → α → α) (size first buffer : Nat) :
    ∀ fuel offset (pf : Bool) (mem buf memS : Mem α) (x xS : Nat → α),
      0 < offset → size - offset < fuel →
      (∀ t, t < size → x t = xS t) →
      (∀ t, t < size →
        (if pf then mem (first + t) else buf (buffer + t)) = memS (first + t)) →
      (∀ p, (p < first ∨ first + size ≤ p) → mem p = memS p) →
      ∃ r rS, scan_rounds_with_buffer op size first buffer fuel offset pf mem buf x = some r ∧
        scan_rounds op size first fuel offset memS xS = some rS ∧
        (∀ t, t < size →
          (if r.1 then r.2.1 (first + t) else r.2.2.1 (buffer + t)) = rS.1 (first + t)) ∧
        (∀ p, (p < first ∨ first + size ≤ p) → r.2.1 p = rS.1 p) ∧
        (size ≤ offset → r.1 = pf) := by
  intro fuel
  induction fuel with
  | zero => intro offset pf mem buf memS x xS _ h; omega
  | succ k ih =>
    intro offset pf mem buf memS x xS hpos hfuel hx hcur hframe
    unfold scan_rounds_with_buffer scan_rounds
    by_cases hlt : offset < size
    · rw [if_pos hlt, if_pos hlt]
      obtain ⟨mS1, hmS1, hmS1v⟩ := forUnits_write_all size first
        (fun tid => if tid ≥ offset then op (memS (first + (tid - offset))) (xS tid)
          else xS tid) memS
      cases pf
      · -- ping is the buffer: the round writes `first`
        simp only [Bool.false_eq_true, if_false] at hcur ⊢
        have hx1 : ∀ t, t < size →
            (if t ≥ offset then op (buf (buffer + (t - offset))) (x t) else x t)
            = (if t ≥ offset then op (memS (first + (t - offset))) (xS t) else xS t) := by
          intro t ht
          by_cases hto : t ≥ offset
          · rw [if_pos hto, if_pos hto, hcur (t - offset) (by omega), hx t ht]
          · rw [if_neg hto, if_neg hto, hx t ht]
        obtain ⟨m1, hm1, hm1v⟩ := forUnits_write_all size first
          (fun tid => if tid ≥ offset then op (buf (buffer + (tid - offset))) (x tid)
            else x tid) mem
        simp only [hm1, hmS1, Option.bind_eq_bind, Option.some_bind]
        obtain ⟨r, rS, hr, hrS, h1, h2, _⟩ := ih (offset + offset) true m1 buf mS1
          (fun tid => if tid ≥ offset then op (buf (buffer + (tid - offset))) (x tid)
            else x tid)
          (fun tid => if tid ≥ offset then op (memS (first + (tid - offset))) (xS tid)
            else xS tid)
          (by omega) (by omega) hx1
          (by
            intro t ht
            have e : first + t - first = t := by omega
            have hc : first ≤ first + t ∧ first + t - first < size := ⟨by omega, by omega⟩
            rw [if_pos (rfl : true = true), hm1v, if_pos hc, hmS1v, if_pos hc, e]
            exact hx1 t ht)
          (by
            intro p hp
            rw [hm1v, hmS1v, if_neg (by omega), if_neg (by omega)]
            exact hframe p hp)
        exact ⟨r, rS, hr, hrS, h1, h2, fun h => by omega⟩
      · -- ping is `first`: the round writes the buffer
        simp only [if_true] at hcur ⊢
        have hx1 : ∀ t, t < size →
            (if t ≥ offset then op (mem (first + (t - offset))) (x t) else x t)
            = (if t ≥ offset then op (memS (first + (t - offset))) (xS t) else xS t) := by
          intro t ht
          by_cases hto : t ≥ offset
          · rw [if_pos hto, if_pos hto, hcur (t - offset) (by omega), hx t ht]
          · rw [if_neg hto, if_neg hto, hx t ht]
        obtain ⟨b1, hb1, hb1v⟩ := forUnits_write_all size buffer
          (fun tid => if tid ≥ offset then op (mem (first + (tid - offset))) (x tid)
            else x tid) buf
        simp only [hb1, hmS1, Option.bind_eq_bind, Option.some_bind]
        obtain ⟨r, rS, hr, hrS, h1, h2, _⟩ := ih (offset + offset) false mem b1 mS1
          (fun tid => if tid ≥ offset then op (mem (first + (tid - offset))) (x tid)
            else x tid)
          (fun tid => if tid ≥ offset then op (memS (first + (tid - offset))) (xS tid)
            else xS tid)
          (by omega) (by omega) hx1
          (by
            intro t ht
            have e : buffer + t - buffer = t := by omega
            have e' : first + t - first = t := by omega
            have hc : buffer ≤ buffer + t ∧ buffer + t - buffer < size :=
              ⟨by omega, by omega⟩
            have hc' : first ≤ first + t ∧ first + t - first < size := ⟨by omega, by omega⟩
            rw [if_neg Bool.false_ne_true, hb1v, if_pos hc, hmS1v, if_pos hc', e, e']
            exact hx1 t ht)
          (by
            intro p hp
            rw [hmS1v, if_neg (by omega)]
            exact hframe p hp)
        exact ⟨r, rS, hr, hrS, h1, h2, fun h => by omega⟩
    · rw [if_neg hlt, if_neg hlt]
      exact ⟨(pf, mem, buf, x), (memS, xS), rfl, rfl, hcur, hframe, fun _ => rfl⟩

/-- C22: the ping-pong variant is equivalent to the single-buffer variant: for a group of any
size, any operator, any init, any contents of `first` and any contents of the second buffer,
`small_inplace_exclusive_scan_with_buffer` returns the same value and leaves the same range
of `first` (so the same `first[0..s-1]`) as `small_inplace_exclusive_scan`. -/
theorem small_inplace_exclusive_scan_with_buffer_eq {α : Type} (op : α → α → α) (size : Nat)
    (mem : Mem α) (first : Nat) (init : α) (buf : Mem α) (buffer : Nat) :
    (small_inplace_exclusive_scan_with_buffer op size mem first init buf buffer).map
        (fun r => (r.1, r.2.2))
      = small_inplace_exclusive_scan op size mem first init := by
  obtain ⟨m1, hm1, _⟩ := forUnits_inv size
    (fun tid m => some (if tid = 0 then m.write (first + 0) (op init (m (first + 0))) else m))
    (fun _ _ => True) mem trivial (fun tid _ d _ => ⟨_, rfl, trivial⟩)
  obtain ⟨r, rS, hr, hrS, hcur, hframe, hpf⟩ := scan_rounds_with_buffer_sim op size first buffer
    (size + 1) 1 true m1 buf m1 (fun t => m1 (first + t)) (fun t => m1 (first + t))
    (by omega) (by omega) (fun _ _ => rfl) (fun _ _ => by simp) (fun _ _ => rfl)
  obtain ⟨m3, hm3, hm3v⟩ := forUnits_write_all size first
    (fun tid => if tid = 0 then init
      else if r.1 then r.2.1 (first + (tid - 1)) else r.2.2.1 (buffer + (tid - 1))) r.2.1
  obtain ⟨mS3, hmS3, hmS3v⟩ := forUnits_write_all size first
    (fun tid => if tid = 0 then init else rS.1 (first + (tid - 1))) rS.1
  unfold small_inplace_exclusive_scan_with_buffer small_inplace_exclusive_scan
  simp only [hm1, hr, hrS, hm3, hmS3, Option.bind_eq_bind, Option.some_bind, Option.pure_def,
    Option.map_some']
  have hmem : m3 = mS3 := by
    funext p
    rw [hm3v, hmS3v]
    by_cases hp : first ≤ p ∧ p - first < size
    · rw [if_pos hp, if_pos hp]
      by_cases h0 : p - first = 0
      · rw [if_pos h0, if_pos h0]
      · rw [if_neg h0, if_neg h0]
        exact hcur (p - first - 1) (by omega)
    · rw [if_neg hp, if_neg hp]
      exact hframe p (by omega)
  have hres : (if r.1 then r.2.1 (first + (size - 1)) else r.2.2.1 (buffer + (size - 1)))
      = rS.1 (first + (size - 1)) := by
    by_cases hs : size = 0
    · rw [hpf (by omega), if_pos rfl]
      exact hframe _ (by omega)
    · exact hcur (size - 1) (by omega)
  rw [hmem, hres]

/-! ## The scan and the previous contents of the destination -/

theorem scan_rounds_agree {α : Type} (op : α → α → α) (size first K : Nat) (hK : K ≤ size) :
    ∀ fuel offset (mem memB : Mem α) (x xB : Nat → α),
      0 < offset → size - offset < fuel →
      (∀ t, t < K → x t = xB t) →
      (∀ t, t < K → mem (first + t) = memB (first + t)) →
      ∃ r rB, scan_rounds op size first fuel offset mem x = some r ∧
        scan_rounds op size first fuel offset memB xB = some rB ∧
        ∀ t, t < K → r.1 (first + t) = rB.1 (first + t) := by
  intro fuel
  induction fuel with
  | zero => intro offset mem memB x xB _ h; omega
  | succ k ih =>
    intro offset mem memB x xB hpos hfuel hx hmem
    unfold scan_rounds
    by_cases hlt : offset < size
    · rw [if_pos hlt, if_pos hlt]
      obtain ⟨m1, hm1, hm1v⟩ := forUnits_write_all size first
        (fun tid => if tid ≥ offset then op (mem (first + (tid - offset))) (x tid) else x tid) mem
      obtain ⟨mB1, hmB1, hmB1v⟩ := forUnits_write_all size first
        (fun tid => if tid ≥ offset then op (memB (first + (tid - offset))) (xB tid)
          else xB tid) memB
      simp only [hm1, hmB1, Option.bind_eq_bind, Option.some_bind]
      have hx1 : ∀ t, t < K →
          (if t ≥ offset then op (mem (first + (t - offset))) (x t) else x t)
          = (if t ≥ offset then op (memB (first + (t - offset))) (xB t) else xB t) := by
        intro t ht
        by_cases hto : t ≥ offset
        · rw [if_pos hto, if_pos hto, hmem (t - offset) (by omega), hx t ht]
        · rw [if_neg hto, if_neg hto, hx t ht]
      apply ih (offset + offset) m1 mB1 _ _ (by omega) (by omega) hx1
      intro t ht
      have e : first + t - first = t := by omega
      have hc : first ≤ first + t ∧ first + t - first < size := ⟨by omega, by omega⟩
      rw [hm1v, if_pos hc, hmB1v, if_pos hc, e]
      exact hx1 t ht
    · rw [if_neg hlt, if_neg hlt]
      exact ⟨(mem, x), (memB, xB), rfl, rfl, hmem⟩

/-- For any operator, the first `K` slots after `small_inplace_exclusive_scan` are determined
by `init` and the first `K` slots before it. -/
theorem small_inplace_exclusive_scan_agree {α : Type} (op : α → α → α) (size K : Nat)
    (hK : K ≤ size) (mem memB : Mem α) (first : Nat) (init : α)
    (hmem : ∀ t, t < K → mem (first + t) = memB (first + t)) :
    ∃ r rB, small_inplace_exclusive_scan op size mem first init = some r ∧
      small_inplace_exclusive_scan op size memB first init = some rB ∧
      ∀ t, t < K → r.1 (first + t) = rB.1 (first + t) := by
  have phase1 : ∀ m : Mem α, ∃ m1,
      forUnits size (fun tid m =>
        some (if tid = 0 then m.write (first + 0) (op init (m (first + 0))) else m)) m
        = some m1 ∧
      (0 < size → m1 = m.write first (op init (m first))) := by
    intro m
    obtain ⟨m1, hm1, hm1v⟩ := forUnits_inv size
      (fun tid m => some (if tid = 0 then m.write (first + 0) (op init (m (first + 0))) else m))
      (fun k d => if k = 0 then d = m else d = m.write first (op init (m first)))
      m (by simp)
      (by
        intro tid _ d hd
        refine ⟨_, rfl, ?_⟩
        by_cases h0 : tid = 0
        · subst h0
          simp only [if_true] at hd
          subst hd
          simp
        · rw [if_neg h0] at hd
          simp [h0, hd])
    exact ⟨m1, hm1, fun hs => by rw [if_neg (by omega)] at hm1v; exact hm1v⟩
  obtain ⟨m1, hm1, hm1v⟩ := phase1 mem
  obtain ⟨mB1, hmB1, hmB1v⟩ := phase1 memB
  have h1 : ∀ t, t < K → m1 (first + t) = mB1 (first + t) := by
    intro t ht
    rw [hm1v (by omega), hmB1v (by omega)]
    by_cases h0 : t = 0
    · subst h0
      rw [Nat.add_zero, Mem.write_same, Mem.write_same]
      have := hmem 0 ht
      rw [Nat.add_zero] at this
      rw [this]
    · rw [Mem.write_other _ _ _ _ (by omega), Mem.write_other _ _ _ _ (by omega)]
      exact hmem t ht
  obtain ⟨r, rB, hr, hrB, h2⟩ := scan_rounds_agree op size first K hK (size + 1) 1 m1 mB1
    (fun t => m1 (first + t)) (fun t => mB1 (first + t)) (by omega) (by omega) h1 h1
  obtain ⟨m3, hm3, hm3v⟩ := forUnits_write_all size first
    (fun tid => if tid = 0 then init else r.1 (first + (tid - 1))) r.1
  obtain ⟨mB3, hmB3, hmB3v⟩ := forUnits_write_all size first
    (fun tid => if tid = 0 then init else rB.1 (first + (tid - 1))) rB.1
  refine ⟨(m3, r.1 (first + (size - 1))), (mB3, rB.1 (first + (size - 1))), ?_, ?_, ?_⟩
  · unfold small_inplace_exclusive_scan
    simp only [hm1, hr, hm3, Option.bind_eq_bind, Option.some_bind, Option.pure_def]
  · unfold small_inplace_exclusive_scan
    simp only [hmB1, hrB, hmB3, Option.bind_eq_bind, Option.some_bind, Option.pure_def]
  · intro t ht
    have e : first + t - first = t := by omega
    have hc : first ≤ first + t ∧ first + t - first < size := ⟨by omega, by omega⟩
    show m3 (first + t) = mB3 (first + t)
    rw [hm3v, if_pos hc, hmB3v, if_pos hc, e]
    by_cases h0 : t = 0
    · rw [if_pos h0, if_pos h0]
    · rw [if_neg h0, if_neg h0]
      exact h2 (t - 1) (by omega)

/-- The steps of `scan_detail::scan` for any operator, with the values the per-unit scans
write: cell `i` of unit `t` gets the left fold of the unit's slot and its first `i + 1`
(inclusive) or `i` (exclusive) elements. -/
theorem scan_outputs {α : Type} (inclusive : Bool) (op : α → α → α) (groupsize grainsize : Nat)
    (u : Uninit α) (src : Mem α) (first len : Nat) (dst : Mem α) (result : Nat)
    (carry_in : α) :
    ∃ dst1 dst2 dst3 carry,
      (∀ p, dst1 p =
        if result ≤ p ∧ p - result < groupsize ∧
            local_size grainsize (((first + len : Nat) : Int) - (first : Int)) (p - result) ≠ 0
        then scan_local_sum op grainsize u src first
          (((first + len : Nat) : Int) - (first : Int)) (p - result)
        else dst p) ∧
      small_inplace_exclusive_scan op groupsize dst1 result carry_in = some (dst2, carry) ∧
      (∀ t i, t < groupsize → i < min grainsize (len - grainsize * t) →
        dst3 (result + (grainsize * t + i))
          = lfold op (dst2 (result + t)) (fun j => src (first + (grainsize * t + j)))
              (i + if inclusive then 1 else 0)) ∧
      scan inclusive op groupsize grainsize u src first (first + len) dst result carry_in
        = some (dst3, carry) := by
  obtain ⟨dst1, hd1, hd1v⟩ := forUnits_write_guarded groupsize
    (fun tid => local_size grainsize (((first + len : Nat) : Int) - (first : Int)) tid ≠ 0)
    result
    (fun tid => scan_local_sum op grainsize u src first
      (((first + len : Nat) : Int) - (first : Int)) tid) dst
  obtain ⟨dst2, carry, hd2, _⟩ :=
    small_inplace_exclusive_scan_frame op groupsize dst1 result carry_in
  obtain ⟨dst3, hd3, hd3v⟩ := forUnits_inv groupsize
    (fun tid d =>
      some (if inclusive then
        (inclusive_scan_bounded grainsize op
          (scan_local_inputs grainsize u src first (((first + len : Nat) : Int) - (first : Int))
            tid) 0
          (0 + local_size grainsize (((first + len : Nat) : Int) - (first : Int)) tid) d
          (result + grainsize * tid)
          (if local_size grainsize (((first + len : Nat) : Int) - (first : Int)) tid ≠ 0 then
            dst2 (result + tid)
          else scan_local_sum op grainsize u src first
            (((first + len : Nat) : Int) - (first : Int)) tid)).1
      else
        (exclusive_scan_bounded grainsize op
          (scan_local_inputs grainsize u src first (((first + len : Nat) : Int) - (first : Int))
            tid) 0
          (0 + local_size grainsize (((first + len : Nat) : Int) - (first : Int)) tid) d
          (result + grainsize * tid)
          (if local_size grainsize (((first + len : Nat) : Int) - (first : Int)) tid ≠ 0 then
            dst2 (result + tid)
          else scan_local_sum op grainsize u src first
            (((first + len : Nat) : Int) - (first : Int)) tid)).1))
    (fun k d => ∀ t i, t < k → i < min grainsize (len - grainsize * t) →
      d (result + (grainsize * t + i))
        = lfold op (dst2 (result + t)) (fun j => src (first + (grainsize * t + j)))
            (i + if inclusive then 1 else 0))
    dst2 (fun t i h _ => by omega)
    (by
      intro tid _ d hP
      refine ⟨_, rfl, ?_⟩
      intro t i ht hi
      rw [bounded_scan_spec inclusive grainsize op _ 0 _ (by rw [local_size_eq]; omega)]
      rw [local_size_eq]
      by_cases hlow : t < tid
      · have hle : grainsize * (t + 1) ≤ grainsize * tid := Nat.mul_le_mul_left grainsize hlow
        rw [Nat.mul_succ] at hle
        rw [if_neg (by omega)]
        exact hP t i hlow hi
      · have htt : t = tid := by omega
        subst htt
        rw [if_pos ⟨by omega, by omega⟩, if_pos (by omega)]
        have e : result + (grainsize * t + i) - (result + grainsize * t) = i := by omega
        rw [e]
        apply lfold_congr
        intro j hj
        rw [Nat.zero_add]
        refine scan_local_inputs_eq grainsize u src first len t j ?_
        have : (if inclusive = true then 1 else 0) ≤ 1 := by split <;> omega
        omega)
  refine ⟨dst1, dst2, dst3, carry, hd1v, hd2, fun t i ht hi => hd3v t i ht hi, ?_⟩
  unfold scan
  simp only [hd1, hd2, hd3, Option.bind_eq_bind, Option.some_bind, Option.pure_def]

/-- C24: for any operator and `n ≤ groupsize * grainsize`, two runs of `scan_detail::scan`
on the same input, `carry_in` and operator return and leave the same values in
`result[0..n-1]`, whatever the result array and the uninitialised storage held before each
run; also when some units own no elements and never store their slot. -/
theorem scan_output_independent_of_stale {α : Type} (inclusive : Bool) (op : α → α → α)
    (groupsize grainsize : Nat) (u uB : Uninit α) (src : Mem α) (first n : Nat)
    (hn : n ≤ groupsize * grainsize) (dst dstB : Mem α) (result : Nat) (carry_in : α) :
    ∃ r rB,
      scan inclusive op groupsize grainsize u src first (first + n) dst result carry_in
        = some r ∧
      scan inclusive op groupsize grainsize uB src first (first + n) dstB result carry_in
        = some rB ∧
      ∀ j, j < n → r.1 (result + j) = rB.1 (result + j) := by
  obtain ⟨d1, d2, d3, c, hd1, hd2, hd3, h⟩ :=
    scan_outputs inclusive op groupsize grainsize u src first n dst result carry_in
  obtain ⟨e1, e2, e3, cB, he1, he2, he3, hB⟩ :=
    scan_outputs inclusive op groupsize grainsize uB src first n dstB result carry_in
  refine ⟨(d3, c), (e3, cB), h, hB, ?_⟩
  intro j hj
  have hg : 0 < grainsize := by
    rcases Nat.eq_zero_or_pos grainsize with h0 | h0
    · rw [h0, Nat.mul_zero] at hn; omega
    · exact h0
  have hdm := Nat.div_add_mod j grainsize
  have hmod := Nat.mod_lt j hg
  have ht0 : j / grainsize < groupsize :=
    Nat.div_lt_of_lt_mul (by rw [Nat.mul_comm]; omega)
  have hi0 : j % grainsize < min grainsize (n - grainsize * (j / grainsize)) := by omega
  -- the slots of the units up to the owner of `j` hold the same sums in both runs
  have hslots : ∀ t, t < j / grainsize + 1 → d1 (result + t) = e1 (result + t) := by
    intro t ht
    have hle : grainsize * t ≤ grainsize * (j / grainsize) :=
      Nat.mul_le_mul_left grainsize (by omega)
    have e : result + t - result = t := by omega
    rw [hd1, he1, e, local_size_eq, if_pos ⟨by omega, by omega, by omega⟩,
      if_pos ⟨by omega, by omega, by omega⟩,
      scan_local_sum_eq op grainsize u src first n t hg (by omega),
      scan_local_sum_eq op grainsize uB src first n t hg (by omega)]
  obtain ⟨r, rB, hr, hrB, hagree⟩ := small_inplace_exclusive_scan_agree op groupsize
    (j / grainsize + 1) (by omega) d1 e1 result carry_in hslots
  rw [hd2] at hr
  rw [he2] at hrB
  have er : d2 = r.1 := by injection hr with h1; exact congrArg Prod.fst h1
  have erB : e2 = rB.1 := by injection hrB with h1; exact congrArg Prod.fst h1
  have h3 := hd3 (j / grainsize) (j % grainsize) ht0 hi0
  have h3B := he3 (j / grainsize) (j % grainsize) ht0 hi0
  rw [hdm] at h3 h3B
  show d3 (result + j) = e3 (result + j)
  rw [h3, h3B, er, erB, hagree (j / grainsize) (by omega)]

/-- Witness of C24: group size 4, grain 2 and five elements, so that the fourth unit owns no
element; one run starts from a destination of zeros, the other from `1, 2, 3, ...`. -/
theorem scan_output_independent_of_stale_example :
    5 ≤ 4 * 2 ∧
    ∃ r rB,
      scan true (fun a b : Int => a - b) 4 2 exampleUninit exampleInput 0 (0 + 5) exampleZeros 0
        10 = some r ∧
      scan true (fun a b : Int => a - b) 4 2 ⟨fun _ => 7, fun _ => exampleInput, exampleInput⟩
        exampleInput 0 (0 + 5) exampleInput 0 10 = some rB ∧
      ∀ j, j < 5 → r.1 (0 + j) = rB.1 (0 + j) :=
  ⟨by decide,
    scan_output_independent_of_stale true (fun a b : Int => a - b) 4 2 exampleUninit
      ⟨fun _ => 7, fun _ => exampleInput, exampleInput⟩ exampleInput 0 5 (by decide)
      exampleZeros exampleInput 0 10⟩

/-! ## The barriers are reached by every unit alike -/

theorem foldl_keep {β : Type} (f : List Wait → β → List Wait) (hf : ∀ ws i, f ws i = ws)
    (l : List β) (a : List Wait) : l.foldl f a = a := by
  induction l generalizing a with
  | nil => rfl
  | cons b l ih => rw [List.foldl_cons, hf, ih]

theorem simple_copy_n_loop_waits_eq (size n : Nat) (hs : 0 < size) :
    ∀ fuel i, n - i < fuel → simple_copy_n_loop_waits size n fuel i = some [] := by
  intro fuel
  induction fuel with
  | zero => intro i h; omega
  | succ k ih =>
    intro i h
    unfold simple_copy_n_loop_waits
    by_cases hin : i < n
    · rw [if_pos hin]; exact ih (i + size) (by omega)
    · rw [if_neg hin]

theorem simple_copy_n_static_loop_waits_eq (size grainsize tid last : Nat)
    (hc : 0 < size * grainsize) :
    ∀ fuel first, last - first < fuel →
      simple_copy_n_static_loop_waits size grainsize tid last fuel first = some [] := by
  intro fuel
  induction fuel with
  | zero => intro first h; omega
  | succ k ih =>
    intro first h
    unfold simple_copy_n_static_loop_waits
    by_cases hfl : first < last
    · rw [if_pos hfl, ih (first + size * grainsize) (by omega)]
      simp only [ite_self, Option.map_some']
      rw [foldl_keep _ (fun _ _ => rfl)]
      rfl
    · rw [if_neg hfl]

theorem staged_copy_n_loop_waits_eq (size grainsize tid n last : Nat)
    (hc : 0 < size * grainsize) :
    ∀ fuel first, last - first < fuel →
      staged_copy_n_loop_waits size grainsize tid n last fuel first = some [] := by
  intro fuel
  induction fuel with
  | zero => intro first h; omega
  | succ k ih =>
    intro first h
    unfold staged_copy_n_loop_waits
    by_cases hfl : first < last
    · rw [if_pos hfl, ih (first + size * grainsize) (by omega)]
      simp only [ite_self, Option.map_some']
      rw [foldl_keep _ (fun _ _ => rfl)]
      rfl
    · rw [if_neg hfl]

theorem copy_n_waits_eq (staged : Bool) (size grainsize n tid : Nat) (hs : 0 < size)
    (hg : 0 < grainsize) :
    copy_n_waits staged size grainsize n tid
      = some [if staged then Wait.copy 151 else Wait.copy 76] := by
  have hc : 0 < size * grainsize := Nat.mul_pos hs hg
  cases staged
  · have h := simple_copy_n_static_loop_waits_eq size grainsize tid (0 + n) hc (n + 1) 0
      (by omega)
    simp only [copy_n_waits, simple_copy_n_static_waits, h]
    rfl
  · have h := staged_copy_n_loop_waits_eq size grainsize tid n (0 + n) hc (n + 1) 0
      (by omega)
    simp only [copy_n_waits, staged_copy_n_waits, h]
    rfl

theorem scan_rounds_waits_uniform (size tid : Nat) :
    ∀ fuel offset, 0 < offset → size - offset < fuel →
      ∃ ws, scan_rounds_waits size tid fuel offset = some ws ∧
        scan_rounds_waits size 0 fuel offset = some ws := by
  intro fuel
  induction fuel with
  | zero => intro offset _ h; omega
  | succ k ih =>
    intro offset hpos h
    unfold scan_rounds_waits
    by_cases hlt : offset < size
    · rw [if_pos hlt, if_pos hlt]
      obtain ⟨ws, h1, h2⟩ := ih (offset + offset) (by omega) (by omega)
      rw [h1, h2]
      exact ⟨_, rfl, by simp⟩
    · rw [if_neg hlt, if_neg hlt]
      exact ⟨[], rfl, rfl⟩

theorem small_inplace_exclusive_scan_waits_uniform (size tid : Nat) :
    ∃ ws, small_inplace_exclusive_scan_waits size tid = some ws ∧
      small_inplace_exclusive_scan_waits size 0 = some ws := by
  obtain ⟨ws, h1, h2⟩ := scan_rounds_waits_uniform size tid (size + 1) 1 (by omega) (by omega)
  unfold small_inplace_exclusive_scan_waits
  rw [h1, h2]
  exact ⟨_, rfl, by simp⟩

theorem scan_waits_uniform (groupsize grainsize : Nat) (n : Int) (tid : Nat) :
    ∃ ws, scan_waits groupsize grainsize n tid = some ws ∧
      scan_waits groupsize grainsize n 0 = some ws := by
  obtain ⟨ws, h1, h2⟩ := small_inplace_exclusive_scan_waits_uniform groupsize tid
  unfold scan_waits
  rw [h1, h2]
  exact ⟨_, rfl, by simp⟩

theorem scan_with_buffer_loop_waits_uniform (groupsize grainsize tid : Nat)
    (hs : 0 < groupsize) (hg : 0 < grainsize) (staged_in staged_out : Bool) (last : Nat) :
    ∀ fuel first, last - first < fuel →
      ∃ ws,
        scan_with_buffer_loop_waits groupsize grainsize tid staged_in staged_out last fuel first
          = some ws ∧
        scan_with_buffer_loop_waits groupsize grainsize 0 staged_in staged_out last fuel first
          = some ws := by
  have hc : 0 < groupsize * grainsize := Nat.mul_pos hs hg
  intro fuel
  induction fuel with
  | zero => intro first h; omega
  | succ k ih =>
    intro first h
    unfold scan_with_buffer_loop_waits
    by_cases hfl : first < last
    · rw [if_pos hfl, if_pos hfl]
      obtain ⟨ws, h1, h2⟩ := ih (first + groupsize * grainsize) (by omega)
      obtain ⟨w2, h3, h4⟩ := scan_waits_uniform groupsize grainsize
        (((0 + min (groupsize * grainsize) (last - first) : Nat) : Int) - (0 : Int)) tid
      simp only [copy_n_waits_eq _ _ _ _ _ hs hg, h1, h2, h3, h4, Option.bind_eq_bind,
        Option.some_bind, Option.pure_def]
      exact ⟨_, rfl, rfl⟩
    · rw [if_neg hfl, if_neg hfl]
      exact ⟨[], rfl, rfl⟩

/-- C23: no barrier of the copy and scan algorithms is divergent: for a group of `size ≥ 1`
units of grain `grainsize ≥ 1` and `n` elements, every unit `tid` reaches its `g.wait()`
calls, and the sequence of calls it executes in `simple_copy_n` (both overloads),
`staged_copy_n`, `small_inplace_exclusive_scan`, `scan_detail::scan` and `scan_with_buffer`
is the sequence unit 0 executes: it depends on the sizes and on the copy strategy selected,
not on the unit's index, and no element is read to decide it. -/
theorem barriers_uniform (size grainsize : Nat) (hs : 0 < size) (hg : 0 < grainsize)
    (n tid : Nat) (staged_in staged_out : Bool) :
    simple_copy_n_waits size n tid = some [Wait.copy 29] ∧
    simple_copy_n_static_waits size grainsize n tid = some [Wait.copy 76] ∧
    staged_copy_n_waits size grainsize n tid = some [Wait.copy 151] ∧
    (∃ ws, small_inplace_exclusive_scan_waits size tid = some ws ∧
      small_inplace_exclusive_scan_waits size 0 = some ws) ∧
    (∃ ws, scan_waits size grainsize (n : Int) tid = some ws ∧
      scan_waits size grainsize (n : Int) 0 = some ws) ∧
    ∃ ws, scan_with_buffer_waits size grainsize n tid staged_in staged_out = some ws ∧
      scan_with_buffer_waits size grainsize n 0 staged_in staged_out = some ws := by
  have hc : 0 < size * grainsize := Nat.mul_pos hs hg
  refine ⟨?_, ?_, ?_, small_inplace_exclusive_scan_waits_uniform size tid,
    scan_waits_uniform size grainsize n tid, ?_⟩
  · have h := simple_copy_n_loop_waits_eq size n hs (n + 1) tid (by omega)
    simp only [simple_copy_n_waits, h]
    rfl
  · have h := simple_copy_n_static_loop_waits_eq size grainsize tid (0 + n) hc (n + 1) 0
      (by omega)
    simp only [simple_copy_n_static_waits, h]
    rfl
  · have h := staged_copy_n_loop_waits_eq size grainsize tid n (0 + n) hc (n + 1) 0
      (by omega)
    simp only [staged_copy_n_waits, h]
    rfl
  · exact scan_with_buffer_loop_waits_uniform size grainsize tid hs hg staged_in staged_out
      (0 + n) (n + 1) 0 (by omega)

/-- Witness of C23: unit 3 of a group of five units of grain 2 on 23 elements; in
`small_inplace_exclusive_scan` it executes the nine barriers of three doubling rounds. -/
theorem barriers_uniform_example :
    (0 < 5 ∧ 0 < 2) ∧
    small_inplace_exclusive_scan_waits 5 3
      = some [Wait.scan 104, Wait.scan 113, Wait.scan 117, Wait.scan 113, Wait.scan 117,
          Wait.scan 113, Wait.scan 117, Wait.scan 124, Wait.scan 128] ∧
    simple_copy_n_waits 5 23 3 = some [Wait.copy 29] ∧
    simple_copy_n_static_waits 5 2 23 3 = some [Wait.copy 76] ∧
    staged_copy_n_waits 5 2 23 3 = some [Wait.copy 151] ∧
    (∃ ws, small_inplace_exclusive_scan_waits 5 3 = some ws ∧
      small_inplace_exclusive_scan_waits 5 0 = some ws) ∧
    (∃ ws, scan_waits 5 2 ((23 : Nat) : Int) 3 = some ws ∧
      scan_waits 5 2 ((23 : Nat) : Int) 0 = some ws) ∧
    ∃ ws, scan_with_buffer_waits 5 2 23 3 false false = some ws ∧
      scan_with_buffer_waits 5 2 23 0 false false = some ws :=
  ⟨⟨by decide, by decide⟩, by decide,
    barriers_uniform 5 2 (by decide) (by decide) 23 3 false false⟩

end bulk
